import Mathlib

/-!
# Trading engine (engine/src)

Shallow embedding of `hft::OrderBook` (order_book.cpp), followed by the position bookkeeping
of `hft::MoversStrategy` with its time-window predicates, the JSON accessors the engine uses,
`AlpacaClient::submitOrder` and the request dispatch of `hft::ExecutionEngine`; each of the
later parts states its own conventions.  For the order book:

* `double` quantities and prices are exact rationals (no rounding, no NaN, no infinities).
  The section on IEEE doubles puts the rounding of binary64 arithmetic back in, for the
  statements whose truth depends on it.
* `std::shared_ptr<Order>` is an index into `OrderBook.heap`, the arena of every `Order`
  object created by `addOrder`, in creation order.  The arena keeps an object after its last
  reference is dropped, so that statements can speak about every order ever submitted.
* `std::map<double, std::vector<...>, Cmp>` is an association list kept in comparator order
  (`bids_` descending, `asks_` ascending); `begin()` is the head of the list.
* `std::unordered_map<std::string, ...>` is an association list with unique keys.
* The mutex is not modelled: each operation is one atomic step.
* The `timestamp` fields hold clock readings that no operation reads back; they are left out.
  The clock reading used by `generateOrderId` is an explicit argument.
* `order_id_counter_` is a natural number; the 64-bit counter cannot wrap within fewer than
  2^64 submissions.
-/

namespace hft

inductive Side where
  | BUY
  | SELL
deriving DecidableEq, Repr

inductive OrderType where
  | LIMIT
  | MARKET
  | STOP
deriving DecidableEq, Repr

inductive OrderStatus where
  | NEW
  | PARTIALLY_FILLED
  | FILLED
  | REJECTED
  | CANCELED
deriving DecidableEq, Repr

structure Order where
  client_order_id : String
  order_id : String
  symbol : String
  side : Side
  quantity : ℚ
  price : ℚ
  order_type : OrderType
  filled_qty : ℚ
  status : OrderStatus
deriving DecidableEq

structure ExecutionReport where
  order_id : String
  client_order_id : String
  symbol : String
  side : Side
  status : OrderStatus
  fill_price : ℚ
  fill_qty : ℚ
  remaining_qty : ℚ
  message : String
deriving DecidableEq

/-- One entry of `bids_` or `asks_`: a price and the FIFO of order references at that price. -/
abbrev Level := ℚ × List Nat

structure OrderBook where
  symbol_ : String
  bids_ : List Level
  asks_ : List Level
  orders_ : List (String × Nat)
  order_id_counter_ : Nat
  heap : List Order
deriving DecidableEq

/-- The book built by the constructor `OrderBook(symbol)`. -/
def OrderBook.new (symbol : String) : OrderBook :=
  { symbol_ := symbol, bids_ := [], asks_ := [], orders_ := [], order_id_counter_ := 0, heap := [] }

/-! ## Order ids -/

/-- Decimal digits of `n`, least significant first; `fuel` bounds the number of digits. -/
def decDigits : Nat → Nat → List Nat
  | 0, _ => []
  | fuel + 1, n => if n < 10 then [n] else (n % 10) :: decDigits fuel (n / 10)

/-- The text `operator<<` writes for an unsigned integer. -/
def decimal (n : Nat) : List Char :=
  ((decDigits (n + 1) n).reverse).map Nat.digitChar

/-- The text `operator<<` writes for a signed integer. -/
def decimalInt (z : Int) : List Char :=
  if z < 0 then '-' :: decimal z.natAbs else decimal z.natAbs

/-- Effect of `setfill('0') << setw(16)` on the next item (right adjustment). -/
def padLeft16 (cs : List Char) : List Char :=
  List.replicate (16 - cs.length) '0' ++ cs

/-- `generateOrderId`, as a function of the clock reading and the counter value fetched. -/
def generateOrderId (nanos : Int) (counter : Nat) : String :=
  String.mk (['O', 'R', 'D'] ++ padLeft16 (decimalInt nanos) ++ ['_'] ++ decimal counter)

/-! ## Containers -/

/-- `m[price].push_back(h)` on a `std::map` whose comparator is `before`. -/
def levelPush (before : ℚ → ℚ → Bool) (price : ℚ) (h : Nat) : List Level → List Level
  | [] => [(price, [h])]
  | (q, hs) :: rest =>
    if q = price then (q, hs ++ [h]) :: rest
    else if before price q then (price, [h]) :: (q, hs) :: rest
    else (q, hs) :: levelPush before price h rest

/-- Comparator `std::greater<double>` of `bids_`. -/
def bidBefore (a b : ℚ) : Bool := decide (b < a)

/-- Comparator `std::less<double>` of `asks_`. -/
def askBefore (a b : ℚ) : Bool := decide (a < b)

/-- `orders_[id] = h`. -/
def tableAssign (id : String) (h : Nat) : List (String × Nat) → List (String × Nat)
  | [] => [(id, h)]
  | (k, v) :: rest => if k = id then (k, h) :: rest else (k, v) :: tableAssign id h rest

/-- `orders_.find(id)`. -/
def tableFind (id : String) : List (String × Nat) → Option Nat
  | [] => none
  | (k, v) :: rest => if k = id then some v else tableFind id rest

/-- `orders_.erase(it)` for the entry with key `id`. -/
def tableErase (id : String) : List (String × Nat) → List (String × Nat)
  | [] => []
  | (k, v) :: rest => if k = id then rest else (k, v) :: tableErase id rest

/-! ## Operations -/

/-- `addOrder`: returns the acknowledgement and the new book. -/
def addOrder (b : OrderBook) (order : Order) (nanos : Int) : ExecutionReport × OrderBook :=
  let new_order : Order := { order with order_id := generateOrderId nanos b.order_id_counter_ }
  let h := b.heap.length
  let b1 : OrderBook :=
    { b with
      order_id_counter_ := b.order_id_counter_ + 1
      heap := b.heap ++ [new_order]
      orders_ := tableAssign new_order.order_id h b.orders_ }
  let b2 : OrderBook :=
    if new_order.side = Side.BUY then
      { b1 with bids_ := levelPush bidBefore new_order.price h b1.bids_ }
    else
      { b1 with asks_ := levelPush askBefore new_order.price h b1.asks_ }
  ({ order_id := new_order.order_id
     client_order_id := new_order.client_order_id
     symbol := new_order.symbol
     side := new_order.side
     status := OrderStatus.NEW
     fill_price := 0
     fill_qty := 0
     remaining_qty := new_order.quantity
     message := "Order accepted" }, b2)

/-- Status assigned by `executeTrade` to an order after its `filled_qty` was raised. -/
def statusAfterFill (o : Order) : OrderStatus :=
  if o.filled_qty ≥ o.quantity then OrderStatus.FILLED else OrderStatus.PARTIALLY_FILLED

/-- `executeTrade` on the arena: the writes through `buy_order` and `sell_order` happen in
source order, so the model is faithful even if both were the same object.  `none` stands for
a reference outside the arena, which a `shared_ptr` cannot be.  The arithmetic is exact;
`executeTradeWith` is the same function with the rounding of doubles. -/
def executeTrade (heap : List Order) (buy_order sell_order : Nat) (price quantity : ℚ) :
    Option (ExecutionReport × List Order) := do
  let o1 ← heap[buy_order]?
  let heap1 := heap.set buy_order { o1 with filled_qty := o1.filled_qty + quantity }
  let o2 ← heap1[sell_order]?
  let heap2 := heap1.set sell_order { o2 with filled_qty := o2.filled_qty + quantity }
  let o3 ← heap2[buy_order]?
  let heap3 := heap2.set buy_order { o3 with status := statusAfterFill o3 }
  let o4 ← heap3[sell_order]?
  let heap4 := heap3.set sell_order { o4 with status := statusAfterFill o4 }
  let o5 ← heap4[buy_order]?
  pure ({ order_id := o5.order_id
          client_order_id := o5.client_order_id
          symbol := o5.symbol
          side := o5.side
          status := o5.status
          fill_price := price
          fill_qty := quantity
          remaining_qty := o5.quantity - o5.filled_qty
          message := "Trade executed" }, heap4)

/-- One trade of the matching loop: the two orders taken from the fronts and the report. -/
structure Trade where
  buy_order : Nat
  sell_order : Nat
  report : ExecutionReport
deriving DecidableEq

/-- Outcome of one evaluation of the loop condition and body of `matchOrders`. -/
inductive LoopStep where
  | exit
  | prune (b : OrderBook)
  | trade (b : OrderBook) (t : Trade)
deriving DecidableEq

/-- `if (orders.empty()) m.erase(m.begin())` where `orders` is the first level of `m`. -/
def pruneFront : List Level → List Level
  | [] => []
  | (p, hs) :: rest => if hs = [] then rest else (p, hs) :: rest

/-- `if (order->filled_qty >= order->quantity) orders.erase(orders.begin())` on the first
level, whose front is `order`. -/
def eraseFrontIfFilled (o : Order) : List Level → List Level
  | [] => []
  | (p, hs) :: rest => if o.filled_qty ≥ o.quantity then (p, hs.tail) :: rest else (p, hs) :: rest

/-- Loop condition and body of `matchOrders` (lines 54 to 90). -/
def matchBody (b : OrderBook) : Option LoopStep :=
  match b.bids_, b.asks_ with
  | [], _ => some LoopStep.exit
  | _ :: _, [] => some LoopStep.exit
  | (best_bid, bid_orders) :: _, (best_ask, ask_orders) :: _ =>
    if best_bid < best_ask then some LoopStep.exit
    else
      match bid_orders, ask_orders with
      | [], _ => some (LoopStep.prune { b with bids_ := pruneFront b.bids_, asks_ := pruneFront b.asks_ })
      | _ :: _, [] => some (LoopStep.prune { b with bids_ := pruneFront b.bids_, asks_ := pruneFront b.asks_ })
      | buy_order :: _, sell_order :: _ => do
        let bo ← b.heap[buy_order]?
        let so ← b.heap[sell_order]?
        let fill_price := best_ask
        let fill_qty := min (bo.quantity - bo.filled_qty) (so.quantity - so.filled_qty)
        let (report, heap1) ← executeTrade b.heap buy_order sell_order fill_price fill_qty
        let bo1 ← heap1[buy_order]?
        let so1 ← heap1[sell_order]?
        let bids1 := eraseFrontIfFilled bo1 b.bids_
        let asks1 := eraseFrontIfFilled so1 b.asks_
        pure (LoopStep.trade
          { b with heap := heap1, bids_ := pruneFront bids1, asks_ := pruneFront asks1 }
          { buy_order := buy_order, sell_order := sell_order, report := report })

/-- The `while` loop of `matchOrders` with a bound on the number of iterations; `none` when
the bound is reached before the loop exits. -/
def matchLoop : Nat → OrderBook → List ExecutionReport → Option (List ExecutionReport × OrderBook)
  | 0, _, _ => none
  | fuel + 1, b, reports =>
    match matchBody b with
    | none => none
    | some LoopStep.exit => some (reports, b)
    | some (LoopStep.prune b1) => matchLoop fuel b1 reports
    | some (LoopStep.trade b1 t) => matchLoop fuel b1 (reports ++ [t.report])

/-- Number of price levels plus number of order references held in them. -/
def levelsSize (ls : List Level) : Nat := (ls.map fun l => l.2.length + 1).sum

/-- Iteration bound that always suffices for `matchOrders` (every iteration drops a level or
an order reference). -/
def matchFuel (b : OrderBook) : Nat := levelsSize b.bids_ + levelsSize b.asks_ + 1

/-- `matchOrders`: the reports and the new book. -/
def matchOrders (b : OrderBook) : Option (List ExecutionReport × OrderBook) :=
  matchLoop (matchFuel b) b []

/-- `getBestBid`. -/
def getBestBid (b : OrderBook) : ℚ :=
  match b.bids_ with
  | [] => 0
  | (p, _) :: _ => p

/-- `getBestAsk`. -/
def getBestAsk (b : OrderBook) : ℚ :=
  match b.asks_ with
  | [] => 0
  | (p, _) :: _ => p

/-- `getBidDepth`. -/
def getBidDepth (b : OrderBook) : Nat := b.bids_.length

/-- `getAskDepth`. -/
def getAskDepth (b : OrderBook) : Nat := b.asks_.length

/-- `cancelOrder`: the returned flag and the new book. -/
def cancelOrder (b : OrderBook) (order_id : String) : Bool × OrderBook :=
  match tableFind order_id b.orders_ with
  | none => (false, b)
  | some h =>
    match b.heap[h]? with
    | none => (true, { b with orders_ := tableErase order_id b.orders_ })
    | some o =>
      (true, { b with
        heap := b.heap.set h { o with status := OrderStatus.CANCELED }
        orders_ := tableErase order_id b.orders_ })

/-! ## Call sequences -/

/-- One call of a client on the public interface of an `OrderBook`. -/
inductive Call where
  | addOrder (order : Order) (nanos : Int)
  | matchOrders
  | cancelOrder (order_id : String)
deriving DecidableEq

/-- A book together with every report `matchOrders` has returned so far, oldest first. -/
structure Session where
  book : OrderBook
  reports : List ExecutionReport
deriving DecidableEq

/-- Effect of one call. -/
def Session.call (s : Session) : Call → Option Session
  | Call.addOrder order nanos => some { s with book := (addOrder s.book order nanos).2 }
  | Call.matchOrders =>
    (matchOrders s.book).map fun r => { book := r.2, reports := s.reports ++ r.1 }
  | Call.cancelOrder order_id => some { s with book := (cancelOrder s.book order_id).2 }

/-- Effect of a sequence of calls, first call first. -/
def Session.run (s : Session) : List Call → Option Session
  | [] => some s
  | c :: cs => (s.call c).bind fun s1 => s1.run cs

/-- A sequence of calls on the initially empty book for `symbol`. -/
def run (symbol : String) (calls : List Call) : Option Session :=
  Session.run { book := OrderBook.new symbol, reports := [] } calls

/-- The book at the start of the `k`-th further iteration of the matching loop, when the
loop runs at least that long. -/
def matchIter : Nat → OrderBook → Option OrderBook
  | 0, b => some b
  | k + 1, b =>
    match matchBody b with
    | some (LoopStep.prune b1) => matchIter k b1
    | some (LoopStep.trade b1 _) => matchIter k b1
    | _ => none

/-! ## Well-formed books -/

/-- Every reference held in the levels `ls` points into the arena, at an order of side `side`
whose limit price is the price of its level. -/
def refsOK (heap : List Order) (side : Side) (ls : List Level) : Prop :=
  ∀ l ∈ ls, ∀ h ∈ l.2, (heap[h]?).map (fun o => (o.side, o.price)) = some (side, l.1)

instance (heap : List Order) (side : Side) (ls : List Level) : Decidable (refsOK heap side ls) := by
  unfold refsOK; infer_instance

/-- References are valid: `bids_` holds BUY orders, `asks_` holds SELL orders, each filed under
its own limit price. -/
def Valid (b : OrderBook) : Prop :=
  refsOK b.heap Side.BUY b.bids_ ∧ refsOK b.heap Side.SELL b.asks_

instance (b : OrderBook) : Decidable (Valid b) := by
  unfold Valid; infer_instance

/-- Key order of the two maps: `bids_` strictly descending, `asks_` strictly ascending. -/
def Sorted (b : OrderBook) : Prop :=
  (b.bids_.map Prod.fst).Pairwise (fun p q => q < p) ∧
  (b.asks_.map Prod.fst).Pairwise (fun p q => p < q)

instance (b : OrderBook) : Decidable (Sorted b) := by
  unfold Sorted; infer_instance

/-- The loop condition of `matchOrders` fails or its `break` fires. -/
def Uncrossed (b : OrderBook) : Prop :=
  b.bids_ = [] ∨ b.asks_ = [] ∨ getBestBid b < getBestAsk b

instance (b : OrderBook) : Decidable (Uncrossed b) := by
  unfold Uncrossed; infer_instance

/-- Sum of `filled_qty` over the orders of one side in the arena. -/
def filledSum (side : Side) (heap : List Order) : ℚ :=
  ((heap.filter fun o => o.side = side).map Order.filled_qty).sum

/-- An order after `executeTrade` added `q` to its `filled_qty` and set its status. -/
def fillOrder (o : Order) (q : ℚ) : Order :=
  { o with
    filled_qty := o.filled_qty + q
    status := statusAfterFill { o with filled_qty := o.filled_qty + q } }

/-- The report `executeTrade` builds from the buy order `o` as it is after the trade. -/
def tradeReport (o : Order) (price quantity : ℚ) : ExecutionReport :=
  { order_id := o.order_id
    client_order_id := o.client_order_id
    symbol := o.symbol
    side := o.side
    status := o.status
    fill_price := price
    fill_qty := quantity
    remaining_qty := o.quantity - o.filled_qty
    message := "Trade executed" }

/-- A limit order as a client builds it: the struct defaults `filled_qty = 0`, `status = NEW`. -/
def limitOrder (client_order_id symbol : String) (side : Side) (quantity price : ℚ) : Order :=
  { client_order_id := client_order_id
    order_id := ""
    symbol := symbol
    side := side
    quantity := quantity
    price := price
    order_type := OrderType.LIMIT
    filled_qty := 0
    status := OrderStatus.NEW }

/-- Specification of one evaluation of the loop condition and body on a book with valid references. -/
inductive StepSpec (b : OrderBook) : LoopStep → Prop
  | exit : Uncrossed b → StepSpec b LoopStep.exit
  | prune (pb pa : ℚ) (bos aos : List Nat) (brest arest : List Level) :
      b.bids_ = (pb, bos) :: brest → b.asks_ = (pa, aos) :: arest → ¬ pb < pa →
      (bos = [] ∨ aos = []) →
      StepSpec b (LoopStep.prune { b with bids_ := pruneFront b.bids_, asks_ := pruneFront b.asks_ })
  | trade (pb pa : ℚ) (hb ha : Nat) (bt at1 : List Nat) (brest arest : List Level) (bo so : Order) :
      b.bids_ = (pb, hb :: bt) :: brest → b.asks_ = (pa, ha :: at1) :: arest → ¬ pb < pa →
      b.heap[hb]? = some bo → b.heap[ha]? = some so → hb ≠ ha →
      bo.side = Side.BUY → so.side = Side.SELL → bo.price = pb → so.price = pa →
      StepSpec b (LoopStep.trade
        { b with
          heap := (b.heap.set hb (fillOrder bo (min (bo.quantity - bo.filled_qty) (so.quantity - so.filled_qty)))).set ha
            (fillOrder so (min (bo.quantity - bo.filled_qty) (so.quantity - so.filled_qty)))
          bids_ := pruneFront (eraseFrontIfFilled
            (fillOrder bo (min (bo.quantity - bo.filled_qty) (so.quantity - so.filled_qty))) b.bids_)
          asks_ := pruneFront (eraseFrontIfFilled
            (fillOrder so (min (bo.quantity - bo.filled_qty) (so.quantity - so.filled_qty))) b.asks_) }
        { buy_order := hb, sell_order := ha
          report := tradeReport
            (fillOrder bo (min (bo.quantity - bo.filled_qty) (so.quantity - so.filled_qty))) pa
            (min (bo.quantity - bo.filled_qty) (so.quantity - so.filled_qty)) })

/-- The book an iteration continues with (the book itself on exit). -/
def LoopStep.book (b : OrderBook) : LoopStep → OrderBook
  | LoopStep.exit => b
  | LoopStep.prune b1 => b1
  | LoopStep.trade b1 _ => b1

/-- Every level of `ls1` is a level of `ls` with some references dropped. -/
def LevelsSub (ls1 ls : List Level) : Prop :=
  ∀ l1 ∈ ls1, ∃ l ∈ ls, l1.1 = l.1 ∧ ∀ h ∈ l1.2, h ∈ l.2

/-- Fill totals agree: BUY side, SELL side and the reports returned. -/
def SumInv (b : OrderBook) (reps : List ExecutionReport) : Prop :=
  filledSum Side.BUY b.heap = filledSum Side.SELL b.heap ∧
  filledSum Side.BUY b.heap = (reps.map ExecutionReport.fill_qty).sum

/-- Every order in the arena has `0 ≤ filled_qty ≤ quantity`. -/
def BoundInv (b : OrderBook) : Prop :=
  ∀ o ∈ b.heap, 0 ≤ o.filled_qty ∧ o.filled_qty ≤ o.quantity

/-- Scenario A of the specification: buy 100 at 10.00, sell 100 at 10.00, match. -/
def scenarioA : List Call :=
  [Call.addOrder (limitOrder "b1" "X" Side.BUY 100 10) 1000,
   Call.addOrder (limitOrder "s1" "X" Side.SELL 100 10) 2000,
   Call.matchOrders]

/-- Scenario B of the specification: buy 50 at 10.00, sell 30 at 9.50, match. -/
def scenarioB : List Call :=
  [Call.addOrder (limitOrder "b1" "X" Side.BUY 50 10) 1000,
   Call.addOrder (limitOrder "s1" "X" Side.SELL 30 (19 / 2)) 2000,
   Call.matchOrders]

/-- A single submission with a negative quantity. -/
def negativeQuantityCalls : List Call :=
  [Call.addOrder (limitOrder "b1" "X" Side.BUY (-1) 10) 1000]

/-- Reference `h` rests in `ls` at price `p`. -/
def Resting (ls : List Level) (p : ℚ) (h : Nat) : Prop :=
  ∃ l ∈ ls, l.1 = p ∧ h ∈ l.2

/-- One side of the book holds exactly the not yet filled orders of that side, each level in
submission order. -/
def SideFifo (heap : List Order) (side : Side) (ls : List Level) : Prop :=
  (∀ l ∈ ls, l.2.Pairwise (fun x y => x < y)) ∧
  (∀ l ∈ ls, ∀ h ∈ l.2, ∀ o, heap[h]? = some o → o.filled_qty < o.quantity) ∧
  (∀ h o, heap[h]? = some o → o.side = side → o.filled_qty < o.quantity → Resting ls o.price h)

/-- Both maps are in key order and hold exactly the not yet filled orders, oldest first. -/
def FifoInv (b : OrderBook) : Prop :=
  Sorted b ∧ SideFifo b.heap Side.BUY b.bids_ ∧ SideFifo b.heap Side.SELL b.asks_

/-- Calls of a session without cancellations in which every order is submitted unfilled and
with a positive quantity. -/
def Call.submitsPositive : Call → Prop
  | Call.addOrder o _ => o.filled_qty = 0 ∧ 0 < o.quantity
  | Call.matchOrders => True
  | Call.cancelOrder _ => False

/-- A session with a second buy at the same price and a better-priced later buy. -/
def priorityCalls : List Call :=
  [Call.addOrder (limitOrder "b1" "X" Side.BUY 10 10) 1000,
   Call.addOrder (limitOrder "b2" "X" Side.BUY 10 10) 2000,
   Call.addOrder (limitOrder "b3" "X" Side.BUY 10 11) 3000,
   Call.addOrder (limitOrder "s1" "X" Side.SELL 25 10) 4000]

/-- The book after `priorityCalls`. -/
def priorityBook : OrderBook :=
  ((run "X" priorityCalls).map Session.book).getD (OrderBook.new "X")

/-- The book after the first iteration of the matching loop on `priorityBook`. -/
def priorityBook1 : OrderBook := (matchIter 1 priorityBook).getD priorityBook

/-- The book after the second iteration of the matching loop on `priorityBook`. -/
def priorityBook2 : OrderBook := (matchIter 2 priorityBook).getD priorityBook

/-- The second trade on `priorityBook`: the older of the two buys at 10 against the sell. -/
def priorityTrade : Trade :=
  { buy_order := 0
    sell_order := 3
    report :=
      { order_id := "ORD0000000000001000_0"
        client_order_id := "b1"
        symbol := "X"
        side := Side.BUY
        status := OrderStatus.FILLED
        fill_price := 10
        fill_qty := 10
        remaining_qty := 0
        message := "Trade executed" } }

/-- The book of scenario B before matching. -/
def scenarioBBook : OrderBook :=
  (addOrder (addOrder (OrderBook.new "X") (limitOrder "b1" "X" Side.BUY 50 10) 1000).2
    (limitOrder "s1" "X" Side.SELL 30 (19 / 2)) 2000).2

/-- Every bid level is priced below every ask level other than those at price `s`. -/
def CrossOnlyAt (s : ℚ) (b : OrderBook) : Prop :=
  ∀ lb ∈ b.bids_, ∀ la ∈ b.asks_, la.1 ≠ s → lb.1 < la.1

/-- A book with one resting buy of 50 at 10.00. -/
def restingBuyBook : OrderBook :=
  (addOrder (OrderBook.new "X") (limitOrder "b1" "X" Side.BUY 50 10) 1000).2

/-- The order a call submits, if it is an `addOrder`. -/
def Call.order? : Call → Option Order
  | Call.addOrder o _ => some o
  | _ => none

/-- The orders submitted by a sequence of calls, in order. -/
def submitted (calls : List Call) : List Order := calls.filterMap Call.order?

/-- Scenario C of the specification: a single buy of 10 at 9.00. -/
def scenarioC : List Call :=
  [Call.addOrder (limitOrder "b1" "X" Side.BUY 10 9) 1000]

/-- The id table has unique keys. -/
def TableInv (b : OrderBook) : Prop := (b.orders_.map Prod.fst).Nodup

/-- The id `generateOrderId n c` is in the id table and was issued before the next counter
value. -/
def IdLive (n : Int) (c : Nat) (b : OrderBook) : Prop :=
  TableInv b ∧ generateOrderId n c ∈ b.orders_.map Prod.fst ∧ c < b.order_id_counter_

/-- The id `generateOrderId n c` is not in the id table and was issued before the next counter
value. -/
def IdGone (n : Int) (c : Nat) (b : OrderBook) : Prop :=
  generateOrderId n c ∉ b.orders_.map Prod.fst ∧ c < b.order_id_counter_

/-- A buy of 10 at 10.00 is submitted and canceled, then a sell of 10 at 10.00 is submitted
and the book is matched. -/
def cancelThenCrossCalls : List Call :=
  [Call.addOrder (limitOrder "b1" "X" Side.BUY 10 10) 1000,
   Call.cancelOrder "ORD0000000000001000_0",
   Call.addOrder (limitOrder "s1" "X" Side.SELL 10 10) 2000,
   Call.matchOrders]

/-- Calls made between the submission and the first cancellation in the witness of C10. -/
def betweenCalls : List Call :=
  [Call.addOrder (limitOrder "b2" "X" Side.BUY 5 9) 1000, Call.matchOrders,
   Call.cancelOrder "ORD0000000000009999_7"]

/-- Calls made after the first cancellation in the witness of C10. -/
def laterCalls : List Call :=
  [Call.addOrder (limitOrder "s1" "X" Side.SELL 10 10) 1000, Call.matchOrders,
   Call.cancelOrder "ORD0000000000001000_0"]

/-- The fields of an order that are fixed at submission. -/
def Order.submittedAs (o : Order) : String × String × Side × ℚ × ℚ × OrderType :=
  (o.client_order_id, o.symbol, o.side, o.quantity, o.price, o.order_type)

/-- Scenario A followed by a cancellation of the (filled) buy order. -/
def fillThenCancelCalls : List Call :=
  scenarioA ++ [Call.cancelOrder "ORD0000000000001000_0"]

/-! ## Position admission (engine/src/movers_strategy.cpp)

Shallow embedding of the position bookkeeping of `hft::MoversStrategy`: the configuration,
`active_positions_` and `purchased_today_`.  The mutex is not modelled (each member function
is one atomic step); the threads, the clients and the log output are left out.  A `std::set`
is a duplicate-free list; `purchase_time` is the clock reading passed to `createPosition`. -/

structure MoversConfig where
  enabled : Bool
  buy_threshold : ℚ
  sell_threshold : ℚ
  investment_amount : ℚ
  check_interval : Int
  timezone : String
  max_positions : Int
deriving DecidableEq

structure Position where
  symbol : String
  purchase_price : ℚ
  quantity : ℚ
  purchase_time : Int
  order_id : String
  is_active : Bool
deriving DecidableEq

structure MoversStrategy where
  config_ : MoversConfig
  active_positions_ : List Position
  purchased_today_ : List String
deriving DecidableEq

/-- The strategy as constructed: no positions, nothing purchased. -/
def MoversStrategy.new (config : MoversConfig) : MoversStrategy :=
  { config_ := config, active_positions_ := [], purchased_today_ := [] }

/-- Value of an `int` after the conversion to the 64-bit `size_t` that the comparison
`active_positions_.size() >= config_.max_positions` applies to its right operand. -/
def intToSizeT (i : Int) : Nat := (i % 2 ^ 64).toNat

/-- `shouldBuy`. -/
def shouldBuy (m : MoversStrategy) (symbol : String) (gain_pct : ℚ) : Bool :=
  if m.active_positions_.any (fun pos => pos.symbol = symbol && pos.is_active) then false
  else if m.active_positions_.length ≥ intToSizeT m.config_.max_positions then false
  else if symbol ∈ m.purchased_today_ then false
  else decide (gain_pct ≥ m.config_.buy_threshold)

/-- `purchased_today_.insert(symbol)`. -/
def setInsert (symbol : String) (s : List String) : List String :=
  if symbol ∈ s then s else s ++ [symbol]

/-- `createPosition` (it always returns true); `now` is the clock reading. -/
def createPosition (m : MoversStrategy) (symbol : String) (price quantity : ℚ)
    (order_id : String) (now : Int) : MoversStrategy :=
  { m with
    active_positions_ := m.active_positions_ ++
      [{ symbol := symbol, purchase_price := price, quantity := quantity, purchase_time := now,
         order_id := order_id, is_active := true }]
    purchased_today_ := setInsert symbol m.purchased_today_ }

/-- `closePosition` on one position (it always returns true). -/
def closePosition (position : Position) : Position :=
  { position with is_active := false }

/-- `closePosition(pos, ...)` for the position at index `i` of `active_positions_`, as the
liquidation loop applies it. -/
def closeAt (m : MoversStrategy) (i : Nat) : MoversStrategy :=
  match m.active_positions_[i]? with
  | none => m
  | some pos => { m with active_positions_ := m.active_positions_.set i (closePosition pos) }

/-- `forceCloseAll`. -/
def forceCloseAll (m : MoversStrategy) : MoversStrategy :=
  { m with
    active_positions_ := m.active_positions_.map fun pos =>
      if pos.is_active then { pos with is_active := false } else pos }

/-- One candidate of the acquisition loop (lines 199 to 212): `shouldBuy`, and when it returns
true `createPosition` with `quantity = investment_amount / price`. -/
def buyAttempt (m : MoversStrategy) (symbol : String) (gain_pct price : ℚ) (order_id : String)
    (now : Int) : MoversStrategy :=
  if shouldBuy m symbol gain_pct then
    createPosition m symbol price (m.config_.investment_amount / price) order_id now
  else m

/-- One event on the position set. -/
inductive StrategyOp where
  | attempt (symbol : String) (gain_pct price : ℚ) (order_id : String) (now : Int)
  | close (i : Nat)
  | forceCloseAll
deriving DecidableEq

/-- Effect of one event. -/
def MoversStrategy.step (m : MoversStrategy) : StrategyOp → MoversStrategy
  | StrategyOp.attempt symbol gain_pct price order_id now => buyAttempt m symbol gain_pct price order_id now
  | StrategyOp.close i => closeAt m i
  | StrategyOp.forceCloseAll => forceCloseAll m

/-- Effect of a sequence of events, first event first. -/
def MoversStrategy.runOps (m : MoversStrategy) (ops : List StrategyOp) : MoversStrategy :=
  ops.foldl MoversStrategy.step m

/-- Number of positions with `is_active = true`. -/
def activeCount (m : MoversStrategy) : Nat :=
  (m.active_positions_.filter fun pos => pos.is_active).length

/-- The default configuration of `MoversConfig` with the given cap. -/
def configWithCap (max_positions : Int) : MoversConfig :=
  { enabled := true, buy_threshold := 5, sell_threshold := 9 / 2, investment_amount := 1000,
    check_interval := 10, timezone := "America/Chicago", max_positions := max_positions }

/-! ### No symbol is admitted twice -/

/-- Positions have pairwise different symbols, all of them in the dedup set. -/
def DedupInv (m : MoversStrategy) : Prop :=
  (m.active_positions_.map Position.symbol).Nodup ∧
  ∀ p ∈ m.active_positions_, p.symbol ∈ m.purchased_today_

/-- Events of scenario D up to the close of "A": "A" is admitted, then closed. -/
def scenarioDOps : List StrategyOp :=
  [StrategyOp.attempt "A" 6 10 "MOVERS_1" 0, StrategyOp.close 0]

/-- A longer history under a cap of 2. -/
def capTwoOps : List StrategyOp :=
  [StrategyOp.attempt "A" 6 10 "MOVERS_1" 0, StrategyOp.attempt "B" 7 20 "MOVERS_2" 1,
   StrategyOp.attempt "C" 8 30 "MOVERS_3" 2, StrategyOp.close 0,
   StrategyOp.attempt "D" 9 40 "MOVERS_4" 3, StrategyOp.forceCloseAll]

/-! ## JSON values (nlohmann::json)

A JSON value as the library holds it.  Numbers are exact rationals, like every `double` of
this development.  An object is a `std::map`: its members are kept in key order, and `find`
returns the first member with the key.  The exceptions of the library and of `std::stod` are
the values of `Exn`; the text of `what()` and the number formatting of the C++ library are
parameters (`Lib`). -/

inductive Json where
  | null
  | bool (b : Bool)
  | num (q : ℚ)
  | str (s : String)
  | arr (items : List Json)
  | obj (members : List (String × Json))

/-- Exceptions derived from `std::exception` that the embedded code can raise: the parse error
and the type errors of nlohmann::json (with their id), and the two errors of `std::stod`. -/
inductive Exn where
  | parse_error
  | type_error (id : Nat)
  | invalid_argument
  | out_of_range
deriving DecidableEq

/-- Pieces of the C++ library that the embedding takes as given. -/
structure Lib where
  what : Exn → String
  stod : String → Except Exn ℚ
  to_string : ℚ → String

/-- Member lookup `find(key)` in the member list of an object. -/
def membersFind (key : String) : List (String × Json) → Option Json
  | [] => none
  | (k, v) :: rest => if k = key then some v else membersFind key rest

/-- Lookup of `key` in a JSON value: `none` when the value is not an object or has no such
member (`j.find(key) == j.end()`). -/
def Json.find? (j : Json) (key : String) : Option Json :=
  match j with
  | Json.obj members => membersFind key members
  | _ => none

/-- `j.contains(key)`: false on values that are not objects. -/
def Json.contains (j : Json) (key : String) : Bool := (j.find? key).isSome

/-- Non-const `j[key]` read as a value: a missing member of an object is created as null, a
null value becomes an empty object first, every other value raises type_error 305. -/
def Json.index (j : Json) (key : String) : Except Exn Json :=
  match j with
  | Json.obj members => pure ((membersFind key members).getD Json.null)
  | Json.null => pure Json.null
  | _ => throw (Exn.type_error 305)

/-- Conversion to `std::string`: type_error 302 unless the value is a string. -/
def Json.getString (j : Json) : Except Exn String :=
  match j with
  | Json.str s => pure s
  | _ => throw (Exn.type_error 302)

/-- Conversion to `double`: type_error 302 unless the value is a number. -/
def Json.getDouble (j : Json) : Except Exn ℚ :=
  match j with
  | Json.num q => pure q
  | _ => throw (Exn.type_error 302)

/-- `j.value(key, default_value)` with a string default: type_error 306 unless `j` is an
object; the default when the member is missing; otherwise the member converted to a string. -/
def Json.valueString (j : Json) (key default_value : String) : Except Exn String :=
  match j with
  | Json.obj members =>
    match membersFind key members with
    | some v => v.getString
    | none => pure default_value
  | _ => throw (Exn.type_error 306)

/-- `j == "text"`: true exactly when `j` is the string `text`. -/
def Json.equalsString (j : Json) (text : String) : Bool :=
  match j with
  | Json.str s => decide (s = text)
  | _ => false

/-- `object[key] = v` on the member list of an object, a `std::map` ordered by key
(`std::string` compares lexicographically, character by character). -/
def membersAssign (key : String) (v : Json) : List (String × Json) → List (String × Json)
  | [] => [(key, v)]
  | (k, w) :: rest =>
    if key = k then (key, v) :: rest
    else if key.data < k.data then (key, v) :: (k, w) :: rest
    else (k, w) :: membersAssign key v rest

/-- `j[key] = v` for a response under construction (`j` is null or an object). -/
def Json.assign (j : Json) (key : String) (v : Json) : Json :=
  match j with
  | Json.obj members => Json.obj (membersAssign key v members)
  | _ => Json.obj [(key, v)]

/-! ## Candidate filter (engine/src/movers_strategy.cpp, `filterMovers`) -/

/-- The `for` loop of `filterMovers` over the elements still to visit; `filtered` is the
vector built so far.  A conversion that raises ends the loop with the exception. -/
def filterMoversLoop (m : MoversStrategy) : List Json → List Json → Except Exn (List Json)
  | [], filtered => pure filtered
  | mover :: rest, filtered =>
    match mover.find? "change_percent", mover.find? "symbol" with
    | some c, some s =>
      match c.getDouble with
      | Except.error x => throw x
      | Except.ok change_pct =>
        match s.getString with
        | Except.error x => throw x
        | Except.ok symbol =>
          if change_pct ≥ m.config_.buy_threshold then
            if symbol ∉ m.purchased_today_ then filterMoversLoop m rest (filtered ++ [mover])
            else filterMoversLoop m rest filtered
          else filterMoversLoop m rest filtered
    | _, _ => filterMoversLoop m rest filtered

/-- `filterMovers`: the vector returned, or the exception that leaves the function. -/
def filterMovers (m : MoversStrategy) (movers : Json) : Except Exn (List Json) :=
  match movers with
  | Json.arr items => filterMoversLoop m items []
  | _ => pure []

/-- An entry that `filterMovers` can read: when it has both members, `change_percent` is a
number and `symbol` is a string. -/
def moverTyped (mover : Json) : Prop :=
  ∀ c s, mover.find? "change_percent" = some c → mover.find? "symbol" = some s →
    (∃ q, c = Json.num q) ∧ ∃ t, s = Json.str t

/-- The selection the filter is meant to make: the entry has both members, its
`change_percent` is a number that reaches the buy threshold and its `symbol` is a string that
is not in `purchased_today_`. -/
def moverSelected (m : MoversStrategy) (mover : Json) : Bool :=
  match mover.find? "change_percent", mover.find? "symbol" with
  | some (Json.num q), some (Json.str t) =>
    decide (q ≥ m.config_.buy_threshold) && decide (t ∉ m.purchased_today_)
  | _, _ => false

/-- A movers array with a qualifying entry, one below the threshold, one without a symbol, one
already purchased and one exactly at the threshold. -/
def sampleMovers : List Json :=
  [Json.obj [("change_percent", Json.num 7), ("price", Json.num 10), ("symbol", Json.str "A")],
   Json.obj [("change_percent", Json.num 3), ("symbol", Json.str "B")],
   Json.obj [("change_percent", Json.num 9)],
   Json.obj [("change_percent", Json.num 8), ("symbol", Json.str "P")],
   Json.obj [("change_percent", Json.num 5), ("symbol", Json.str "E")]]

/-- A strategy with the default thresholds that has purchased "P" today. -/
def sampleStrategy : MoversStrategy :=
  { config_ := configWithCap 10, active_positions_ := [], purchased_today_ := ["P"] }

/-! ## Broker submission (engine/src/alpaca_client.cpp)

`submitOrder` posts the order and turns the response body into an `ExecutionReport`.  The
HTTP exchange is not modelled: the function takes the outcome of `nlohmann::json::parse` on
the response body, either the parsed value or the exception. -/

/-- One of the three numeric members read by `alpacaJsonToExecutionReport`: the text handed
to `std::stod`.  It stays "0" when the member is missing, null, or neither a string nor a
number. -/
def numericField (lib : Lib) (alpaca_order : Json) (key : String) : String :=
  match alpaca_order.find? key with
  | some (Json.str s) => s
  | some (Json.num q) => lib.to_string q
  | _ => "0"

/-- Status of the report for the broker's status text. -/
def alpacaStatus (status_str : String) : OrderStatus :=
  if status_str = "filled" then OrderStatus.FILLED
  else if status_str = "partially_filled" then OrderStatus.PARTIALLY_FILLED
  else if status_str = "rejected" ∨ status_str = "canceled" then OrderStatus.REJECTED
  else OrderStatus.NEW

/-- `alpacaJsonToExecutionReport`: the report, or the exception raised by a conversion. -/
def alpacaJsonToExecutionReport (lib : Lib) (alpaca_order : Json) : Except Exn ExecutionReport := do
  let order_id ← alpaca_order.valueString "id" ""
  let client_order_id ← alpaca_order.valueString "client_order_id" ""
  let symbol ← alpaca_order.valueString "symbol" ""
  let side_str ← alpaca_order.valueString "side" "buy"
  let status_str ← alpaca_order.valueString "status" "new"
  let fill_price ← lib.stod (numericField lib alpaca_order "filled_avg_price")
  let fill_qty ← lib.stod (numericField lib alpaca_order "filled_qty")
  let qty ← lib.stod (numericField lib alpaca_order "qty")
  pure
    { order_id := order_id
      client_order_id := client_order_id
      symbol := symbol
      side := if side_str = "buy" then Side.BUY else Side.SELL
      status := alpacaStatus status_str
      fill_price := fill_price
      fill_qty := fill_qty
      remaining_qty := qty - fill_qty
      message := "Order submitted to Alpaca" }

/-- The REJECTED report that `submitOrder` builds itself, with the given message. -/
def rejectedReport (order : Order) (message : String) : ExecutionReport :=
  { order_id := ""
    client_order_id := order.client_order_id
    symbol := order.symbol
    side := order.side
    status := OrderStatus.REJECTED
    fill_price := 0
    fill_qty := 0
    remaining_qty := order.quantity
    message := message }

/-- The `try` block of `submitOrder` after the HTTP exchange. -/
def submitOrderTry (lib : Lib) (order : Order) (response : Except Exn Json) :
    Except Exn ExecutionReport := do
  let response_json ← response
  if response_json.contains "message" then
    let message ← response_json.valueString "message" "Order rejected"
    pure (rejectedReport order message)
  else
    alpacaJsonToExecutionReport lib response_json

/-- `AlpacaClient::submitOrder`, given the outcome of parsing the response body. -/
def submitOrder (lib : Lib) (order : Order) (response : Except Exn Json) : ExecutionReport :=
  match submitOrderTry lib order response with
  | Except.ok report => report
  | Except.error x => rejectedReport order ("API error: " ++ lib.what x)

/-- Value of a string of decimal digits. -/
def digitsValue (cs : List Char) : Nat :=
  cs.foldl (fun n c => 10 * n + (c.toNat - 48)) 0

/-- A `std::stod` for plain decimal text: an optional minus sign, digits, and an optional
fraction; `invalid_argument` when no digit is found.  Text after the number is ignored, as
`std::stod` does. -/
def stodDecimal (s : String) : Except Exn ℚ :=
  let negative := s.data.head? = some '-'
  let cs := if negative then s.data.drop 1 else s.data
  let whole := cs.takeWhile Char.isDigit
  let fraction :=
    match cs.dropWhile Char.isDigit with
    | '.' :: rest => rest.takeWhile Char.isDigit
    | _ => []
  if whole = [] ∧ fraction = [] then throw Exn.invalid_argument
  else
    let v : ℚ := digitsValue whole + (digitsValue fraction : ℚ) / 10 ^ fraction.length
    pure (if negative then -v else v)

/-- A `std::to_string(double)` (format "%f"): six decimals, rounded half up. -/
def toStringFixed (q : ℚ) : String :=
  let n : Nat := (⌊|q| * 1000000 + 1 / 2⌋).toNat
  let whole := decimal (n / 1000000)
  let fraction := decimal (n % 1000000)
  String.mk ((if q < 0 then ['-'] else []) ++ whole ++ ['.'] ++
    List.replicate (6 - fraction.length) '0' ++ fraction)

/-- Exception texts used in the examples. -/
def whatText : Exn → String
  | Exn.parse_error => "parse error"
  | Exn.type_error id => "type error " ++ String.mk (decimal id)
  | Exn.invalid_argument => "stod"
  | Exn.out_of_range => "stod"

/-- The library instance used in the examples. -/
def sampleLib : Lib := { what := whatText, stod := stodDecimal, to_string := toStringFixed }

/-- A buy order for 10 shares at 100, as a client submits it. -/
def tenShares : Order := limitOrder "c1" "AAPL" Side.BUY 10 100

/-- Response body of an order that the broker canceled after filling 4 of 10 shares. -/
def canceledBody : Json :=
  Json.obj [("filled_qty", Json.str "4"), ("id", Json.str "b1"), ("qty", Json.str "10"),
    ("status", Json.str "canceled")]

/-- Response body of a rejected order that carries no quantity. -/
def rejectedBody : Json := Json.obj [("status", Json.str "rejected")]

/-- Error object whose message is the empty string. -/
def emptyMessageBody : Json := Json.obj [("message", Json.str "")]

/-! ## Request dispatch (engine/src/execution_engine.cpp)

Shallow embedding of `hft::ExecutionEngine`: the flag `use_paper_trading_`, whether
`alpaca_client_` is set, and the order books per symbol.  A message is given by the outcome
of `nlohmann::json::parse` on its payload; a reply is the JSON value whose `dump()` is sent.
Everything a handler reads from outside the engine is a field of `Env`: the clock readings,
the broker's responses, and the replies of the handlers that only forward data from the
broker or the market data service and never touch the order books. -/

structure ExecutionEngine where
  use_paper_trading_ : Bool
  alpaca_client_ : Bool
  order_books_ : List (String × OrderBook)

/-- Inputs from outside the engine while one message is handled. -/
structure Env where
  lib : Lib
  nanos : Int
  stamp : Int
  orderResponse : Order → Except Exn Json
  cancelResponse : String → Bool
  handlePositionRequest : ExecutionEngine → Json → Json
  handleAccountRequest : ExecutionEngine → Json → Json
  handleOpenOrdersRequest : ExecutionEngine → Json → Json
  handleAllOrdersRequest : ExecutionEngine → Json → Json
  handleMarketMoversRequest : ExecutionEngine → Json → Json
  handleAlpacaPerformanceTest : ExecutionEngine → Json → Json
  handlePolygonPerformanceTest : ExecutionEngine → Json → Json
  handleMoversStrategyRequest : ExecutionEngine → Json → Json

/-- `order_books_.find(symbol)`. -/
def booksFind (symbol : String) : List (String × OrderBook) → Option OrderBook
  | [] => none
  | (k, b) :: rest => if k = symbol then some b else booksFind symbol rest

/-- The book stored under `symbol` replaced by `book`. -/
def booksAssign (symbol : String) (book : OrderBook) :
    List (String × OrderBook) → List (String × OrderBook)
  | [] => [(symbol, book)]
  | (k, b) :: rest =>
    if k = symbol then (k, book) :: rest else (k, b) :: booksAssign symbol book rest

/-- `getOrderBook`: the book of the symbol, created empty when the engine has none, and the
engine that holds it. -/
def getOrderBook (e : ExecutionEngine) (symbol : String) : OrderBook × ExecutionEngine :=
  match booksFind symbol e.order_books_ with
  | none =>
    (OrderBook.new symbol,
      { e with order_books_ := booksAssign symbol (OrderBook.new symbol) e.order_books_ })
  | some book => (book, e)

/-- The fields of the `Order` read from an order request (lines 123 to 137). -/
def orderOfRequest (request : Json) : Except Exn Order := do
  let client_order_id ← (← request.index "client_order_id").getString
  let symbol ← (← request.index "symbol").getString
  let side_json ← request.index "side"
  let quantity ← (← request.index "quantity").getDouble
  let price ← (← request.index "price").getDouble
  let order_type_str ← request.valueString "order_type" "LIMIT"
  pure
    { client_order_id := client_order_id
      order_id := ""
      symbol := symbol
      side := if side_json.equalsString "BUY" then Side.BUY else Side.SELL
      quantity := quantity
      price := price
      order_type :=
        if order_type_str = "MARKET" then OrderType.MARKET
        else if order_type_str = "STOP" then OrderType.STOP
        else OrderType.LIMIT
      filled_qty := 0
      status := OrderStatus.NEW }

/-- Text of a status in a reply. -/
def statusText : OrderStatus → String
  | OrderStatus.NEW => "NEW"
  | OrderStatus.PARTIALLY_FILLED => "PARTIALLY_FILLED"
  | OrderStatus.FILLED => "FILLED"
  | OrderStatus.REJECTED => "REJECTED"
  | OrderStatus.CANCELED => "CANCELED"

/-- The reply built from a report (lines 154 to 179); `stamp` is the report's clock reading. -/
def orderReply (report : ExecutionReport) (stamp : Int) : Json :=
  ((((((((((Json.null.assign "success" (Json.bool (decide (report.status ≠ OrderStatus.REJECTED)))).assign
    "order_id" (Json.str report.order_id)).assign
    "client_order_id" (Json.str report.client_order_id)).assign
    "symbol" (Json.str report.symbol)).assign
    "side" (Json.str (if report.side = Side.BUY then "BUY" else "SELL"))).assign
    "status" (Json.str (statusText report.status))).assign
    "fill_price" (Json.num report.fill_price)).assign
    "fill_qty" (Json.num report.fill_qty)).assign
    "remaining_qty" (Json.num report.remaining_qty)).assign
    "message" (Json.str report.message)).assign
    "timestamp" (Json.num stamp)

/-- The reply built in a `catch` block and for an unknown request type. -/
def errorReply (error : String) : Json :=
  (Json.null.assign "success" (Json.bool false)).assign "error" (Json.str error)

/-- `handleOrderRequest`: the reply and the engine afterwards; `none` only if the matching
loop did not return. -/
def handleOrderRequest (env : Env) (e : ExecutionEngine) (parsed : Except Exn Json) :
    Option (Json × ExecutionEngine) :=
  match parsed >>= orderOfRequest with
  | Except.error x => some (errorReply (env.lib.what x), e)
  | Except.ok order =>
    if e.use_paper_trading_ && e.alpaca_client_ then
      some (orderReply (submitOrder env.lib order (env.orderResponse order)) env.stamp, e)
    else
      let book := (getOrderBook e order.symbol).1
      let e1 := (getOrderBook e order.symbol).2
      let report := (addOrder book order env.nanos).1
      match matchOrders (addOrder book order env.nanos).2 with
      | none => none
      | some (match_reports, book2) =>
        some (orderReply (match_reports.headD report) env.stamp,
          { e1 with order_books_ := booksAssign order.symbol book2 e1.order_books_ })

/-- `handleCancelOrderRequest`: the reply. -/
def handleCancelOrderRequest (env : Env) (e : ExecutionEngine) (parsed : Except Exn Json) : Json :=
  match parsed >>= fun request => request.valueString "order_id" "" with
  | Except.error x => errorReply (env.lib.what x)
  | Except.ok order_id =>
    if order_id = "" then errorReply "Missing order_id"
    else if e.use_paper_trading_ && e.alpaca_client_ then
      ((Json.null.assign "success" (Json.bool (env.cancelResponse order_id))).assign
        "message" (Json.str (if env.cancelResponse order_id then "Order cancelled successfully"
          else "Failed to cancel order"))).assign
        "order_id" (Json.str order_id)
    else
      ((Json.null.assign "success" (Json.bool false)).assign
        "message" (Json.str "Cancel order not implemented for internal matching")).assign
        "order_id" (Json.str order_id)

/-- The ten request types that `processOrders` dispatches. -/
def requestTypes : List String :=
  ["order", "positions", "account", "GET_OPEN_ORDERS", "GET_ALL_ORDERS", "CANCEL_ORDER",
    "movers", "alpaca_performance", "polygon_performance", "movers_strategy"]

/-- One received message in `processOrders` (lines 386 to 423): the replies sent on the socket
and the engine afterwards.  An exception raised before the send reaches the `catch` of the
loop, which writes a log line and sends nothing. -/
def processMessage (env : Env) (e : ExecutionEngine) (parsed : Except Exn Json) :
    Option (List Json × ExecutionEngine) :=
  match parsed with
  | Except.error _ => some ([], e)
  | Except.ok request_json =>
    match request_json.valueString "type" "order" with
    | Except.error _ => some ([], e)
    | Except.ok request_type =>
      if request_type = "order" then
        (handleOrderRequest env e parsed).map fun r => ([r.1], r.2)
      else if request_type = "positions" then
        some ([env.handlePositionRequest e request_json], e)
      else if request_type = "account" then
        some ([env.handleAccountRequest e request_json], e)
      else if request_type = "GET_OPEN_ORDERS" then
        some ([env.handleOpenOrdersRequest e request_json], e)
      else if request_type = "GET_ALL_ORDERS" then
        some ([env.handleAllOrdersRequest e request_json], e)
      else if request_type = "CANCEL_ORDER" then
        some ([handleCancelOrderRequest env e parsed], e)
      else if request_type = "movers" then
        some ([env.handleMarketMoversRequest e request_json], e)
      else if request_type = "alpaca_performance" then
        some ([env.handleAlpacaPerformanceTest e request_json], e)
      else if request_type = "polygon_performance" then
        some ([env.handlePolygonPerformanceTest e request_json], e)
      else if request_type = "movers_strategy" then
        some ([env.handleMoversStrategyRequest e request_json], e)
      else
        some ([errorReply "Unknown request type"], e)

/-- The engine right after construction with internal matching. -/
def internalEngine : ExecutionEngine :=
  { use_paper_trading_ := false, alpaca_client_ := false, order_books_ := [] }

/-- An environment whose forwarded handlers reply with an empty object. -/
def sampleEnv : Env :=
  { lib := sampleLib
    nanos := 1000
    stamp := 2000
    orderResponse := fun _ => Except.ok rejectedBody
    cancelResponse := fun _ => true
    handlePositionRequest := fun _ _ => Json.obj []
    handleAccountRequest := fun _ _ => Json.obj []
    handleOpenOrdersRequest := fun _ _ => Json.obj []
    handleAllOrdersRequest := fun _ _ => Json.obj []
    handleMarketMoversRequest := fun _ _ => Json.obj []
    handleAlpacaPerformanceTest := fun _ _ => Json.obj []
    handlePolygonPerformanceTest := fun _ _ => Json.obj []
    handleMoversStrategyRequest := fun _ _ => Json.obj [] }

/-- Every book of the engine is well formed. -/
def EngineValid (e : ExecutionEngine) : Prop := ∀ p ∈ e.order_books_, Valid p.2

/-- An order request for -5 shares. -/
def negativeRequest : Json :=
  Json.obj [("client_order_id", Json.str "c1"), ("price", Json.num 100),
    ("quantity", Json.num (-5)), ("side", Json.str "BUY"), ("symbol", Json.str "X")]

/-- A request whose `type` is not one of the ten dispatched values. -/
def unknownRequest : Json := Json.obj [("type", Json.str "ping")]

/-- A request whose `type` is a number. -/
def numericTypeRequest : Json := Json.obj [("type", Json.num 5)]

/-- An entry that has both members but whose `change_percent` is null. -/
def nullChangeMovers : Json :=
  Json.arr [Json.obj [("change_percent", Json.null), ("symbol", Json.str "A")]]

/-- An entry that has both members but whose `change_percent` is the text "7". -/
def textChangeMovers : Json :=
  Json.arr [Json.obj [("change_percent", Json.str "7"), ("symbol", Json.str "A")]]

/-- An entry that has both members but whose `symbol` is a number. -/
def numericSymbolMovers : Json :=
  Json.arr [Json.obj [("change_percent", Json.num 7), ("symbol", Json.num 1)]]

/-- `updateConfig`: replaces the configuration and leaves the positions alone. -/
def updateConfig (m : MoversStrategy) (config : MoversConfig) : MoversStrategy :=
  { m with config_ := config }

/-- An event on the strategy: an event on the position set or a call of `updateConfig`. -/
inductive StrategyEvent where
  | op (o : StrategyOp)
  | updateConfig (config : MoversConfig)
deriving DecidableEq

/-- Effect of a sequence of events, first event first. -/
def MoversStrategy.runEvents (m : MoversStrategy) (events : List StrategyEvent) : MoversStrategy :=
  events.foldl
    (fun s ev =>
      match ev with
      | StrategyEvent.op o => s.step o
      | StrategyEvent.updateConfig config => updateConfig s config)
    m

/-- The order with arena index `i` carries an id issued for counter value `i`, and the counter
equals the number of orders created so far. -/
def IdsInv (b : OrderBook) : Prop :=
  b.order_id_counter_ = b.heap.length ∧
  ∀ i id, (b.heap.map Order.order_id)[i]? = some id → ∃ n, id = generateOrderId n i

/-- No price level of the book holds an empty order sequence. -/
def NoEmptyLevel (b : OrderBook) : Prop :=
  (∀ l ∈ b.bids_, l.2 ≠ []) ∧ ∀ l ∈ b.asks_, l.2 ≠ []

instance (b : OrderBook) : Decidable (NoEmptyLevel b) := by
  unfold NoEmptyLevel; infer_instance

/-- Number of order references held in the levels `ls`. -/
def restingCount (ls : List Level) : Nat := (ls.map fun l => l.2.length).sum

/-- Ids of the orders referenced from `bids_` and `asks_`, level by level. -/
def levelIds (b : OrderBook) : List String :=
  (b.bids_ ++ b.asks_).flatMap fun l => l.2.filterMap fun h => (b.heap[h]?).map Order.order_id

/-- Keys of the id table `orders_`. -/
def tableIds (b : OrderBook) : List String := b.orders_.map Prod.fst

/-- Wherever a bid level and an ask level cross, one of the two holds the order with arena
index `h` and nothing else. -/
def CrossOnly (h : Nat) (b : OrderBook) : Prop :=
  ∀ lb ∈ b.bids_, ∀ la ∈ b.asks_, ¬ lb.1 < la.1 → lb.2 = [h] ∨ la.2 = [h]

/-- Every level of `ls1` is a level of `ls`, or the non-empty rest of a level of `ls` whose
front was dropped. -/
def Shrunk (ls1 ls : List Level) : Prop :=
  ∀ l1 ∈ ls1, ∃ l ∈ ls, l.1 = l1.1 ∧ (l1 = l ∨ ((∃ x, l.2 = x :: l1.2) ∧ l1.2 ≠ []))

/-- The calls the dispatcher makes on one book: each submitted order is added and the book is
matched right away. -/
def addThenMatch (orders : List (Order × Int)) : List Call :=
  orders.flatMap fun p => [Call.addOrder p.1 p.2, Call.matchOrders]

/-! ## Time windows and the exit test (engine/src/movers_strategy.cpp)

The three predicates read the wall clock and use `tm_hour` and `tm_min` of the local time;
here the hour and the minute are arguments. -/

/-- `isMarketHours`. -/
def isMarketHours (hour minute : Int) : Bool :=
  if hour < 8 ∨ (hour = 8 ∧ minute < 30) then false
  else if hour ≥ 16 then false
  else true

/-- `isBeforeCutoff`. -/
def isBeforeCutoff (hour minute : Int) : Bool :=
  decide (hour < 9 ∨ (hour = 9 ∧ minute = 0))

/-- An order request whose `order_type` is the number 5. -/
def numericOrderTypeRequest : Json :=
  Json.obj [("client_order_id", Json.str "c1"), ("order_type", Json.num 5),
    ("price", Json.num 100), ("quantity", Json.num 5), ("side", Json.str "BUY"),
    ("symbol", Json.str "X")]

/-- An order request whose `order_type` is null. -/
def nullOrderTypeRequest : Json :=
  Json.obj [("client_order_id", Json.str "c1"), ("order_type", Json.null),
    ("price", Json.num 100), ("quantity", Json.num 5), ("side", Json.str "BUY"),
    ("symbol", Json.str "X")]

/-- A book in which a BUY order for -1 shares at 10 faces a SELL order for 5 shares at 10. -/
def negativeCrossBook : OrderBook :=
  (addOrder (addOrder (OrderBook.new "X") (limitOrder "b1" "X" Side.BUY (-1) 10) 1000).2
    (limitOrder "s1" "X" Side.SELL 5 10) 2000).2

/-- An engine with internal matching whose book for "X" holds one resting BUY order (50 shares
at 10, id ORD0000000000001000_0). -/
def restingBuyEngine : ExecutionEngine :=
  { use_paper_trading_ := false, alpaca_client_ := false, order_books_ := [("X", restingBuyBook)] }

/-- Members of a CANCEL_ORDER request that names the resting order of `restingBuyEngine`. -/
def cancelMembers : List (String × Json) :=
  [("order_id", Json.str "ORD0000000000001000_0"), ("type", Json.str "CANCEL_ORDER")]

/-- Members of a CANCEL_ORDER request without an `order_id`. -/
def cancelNoIdMembers : List (String × Json) := [("type", Json.str "CANCEL_ORDER")]

/-- Members of an order request whose side is "HOLD" and that names no order type. -/
def holdMembers : List (String × Json) :=
  [("client_order_id", Json.str "c1"), ("price", Json.num 100),
    ("quantity", Json.num 5), ("side", Json.str "HOLD"), ("symbol", Json.str "X")]

/-- Number of binary digits of `n`; `fuel` bounds the number of digits. -/
def bitLength : Nat → Nat → Nat
  | 0, _ => 0
  | fuel + 1, n => if n = 0 then 0 else bitLength fuel (n / 2) + 1

/-- The exponent `e` with `2^e ≤ |x| < 2^(e+1)`, for `x ≠ 0`. -/
def binaryExponent (x : ℚ) : Int :=
  let k : Int := (bitLength (x.num.natAbs + 1) x.num.natAbs : Int) - (bitLength (x.den + 1) x.den : Int)
  if (2 : ℚ) ^ k ≤ |x| then k else k - 1

/-- The integer nearest to `x`, the even one of the two when `x` lies half way. -/
def roundHalfEven (x : ℚ) : Int :=
  if x - ⌊x⌋ < 1 / 2 then ⌊x⌋
  else if 1 / 2 < x - ⌊x⌋ then ⌊x⌋ + 1
  else if ⌊x⌋ % 2 = 0 then ⌊x⌋
  else ⌊x⌋ + 1

/-- The double nearest to `x` (ties to even), as a rational. -/
def roundDouble (x : ℚ) : ℚ :=
  if x = 0 then 0
  else (roundHalfEven (x / 2 ^ (max (binaryExponent x) (-1022) - 52)) : ℚ) *
    2 ^ (max (binaryExponent x) (-1022) - 52)

/-- `executeTrade` with rounded arithmetic. -/
def executeTradeWith (rnd : ℚ → ℚ) (heap : List Order) (buy_order sell_order : Nat)
    (price quantity : ℚ) : Option (ExecutionReport × List Order) := do
  let o1 ← heap[buy_order]?
  let heap1 := heap.set buy_order { o1 with filled_qty := rnd (o1.filled_qty + quantity) }
  let o2 ← heap1[sell_order]?
  let heap2 := heap1.set sell_order { o2 with filled_qty := rnd (o2.filled_qty + quantity) }
  let o3 ← heap2[buy_order]?
  let heap3 := heap2.set buy_order { o3 with status := statusAfterFill o3 }
  let o4 ← heap3[sell_order]?
  let heap4 := heap3.set sell_order { o4 with status := statusAfterFill o4 }
  let o5 ← heap4[buy_order]?
  pure ({ order_id := o5.order_id
          client_order_id := o5.client_order_id
          symbol := o5.symbol
          side := o5.side
          status := o5.status
          fill_price := price
          fill_qty := quantity
          remaining_qty := rnd (o5.quantity - o5.filled_qty)
          message := "Trade executed" }, heap4)

/-- Loop condition and body of `matchOrders` with rounded arithmetic. -/
def matchBodyWith (rnd : ℚ → ℚ) (b : OrderBook) : Option LoopStep :=
  match b.bids_, b.asks_ with
  | [], _ => some LoopStep.exit
  | _ :: _, [] => some LoopStep.exit
  | (best_bid, bid_orders) :: _, (best_ask, ask_orders) :: _ =>
    if best_bid < best_ask then some LoopStep.exit
    else
      match bid_orders, ask_orders with
      | [], _ => some (LoopStep.prune { b with bids_ := pruneFront b.bids_, asks_ := pruneFront b.asks_ })
      | _ :: _, [] => some (LoopStep.prune { b with bids_ := pruneFront b.bids_, asks_ := pruneFront b.asks_ })
      | buy_order :: _, sell_order :: _ => do
        let bo ← b.heap[buy_order]?
        let so ← b.heap[sell_order]?
        let fill_price := best_ask
        let fill_qty := min (rnd (bo.quantity - bo.filled_qty)) (rnd (so.quantity - so.filled_qty))
        let (report, heap1) ← executeTradeWith rnd b.heap buy_order sell_order fill_price fill_qty
        let bo1 ← heap1[buy_order]?
        let so1 ← heap1[sell_order]?
        let bids1 := eraseFrontIfFilled bo1 b.bids_
        let asks1 := eraseFrontIfFilled so1 b.asks_
        pure (LoopStep.trade
          { b with heap := heap1, bids_ := pruneFront bids1, asks_ := pruneFront asks1 }
          { buy_order := buy_order, sell_order := sell_order, report := report })

/-- The `while` loop of `matchOrders` with rounded arithmetic, cut off after `fuel`
evaluations of the loop condition (`none` when it is cut off). -/
def matchLoopWith (rnd : ℚ → ℚ) :
    Nat → OrderBook → List ExecutionReport → Option (List ExecutionReport × OrderBook)
  | 0, _, _ => none
  | fuel + 1, b, reports =>
    match matchBodyWith rnd b with
    | none => none
    | some LoopStep.exit => some (reports, b)
    | some (LoopStep.prune b1) => matchLoopWith rnd fuel b1 reports
    | some (LoopStep.trade b1 t) => matchLoopWith rnd fuel b1 (reports ++ [t.report])

/-- `matchOrders` with rounded arithmetic.  The loop is cut off after `matchFuel b`
evaluations of its condition; a result `some` is what the loop computes, and with rounding
the bound can be too small, in which case the result is `none`. -/
def matchOrdersWith (rnd : ℚ → ℚ) (b : OrderBook) : Option (List ExecutionReport × OrderBook) :=
  matchLoopWith rnd (matchFuel b) b []

/-- Effect of one call with rounded arithmetic. -/
def Session.callWith (rnd : ℚ → ℚ) (s : Session) : Call → Option Session
  | Call.addOrder order nanos => some { s with book := (addOrder s.book order nanos).2 }
  | Call.matchOrders =>
    (matchOrdersWith rnd s.book).map fun r => { book := r.2, reports := s.reports ++ r.1 }
  | Call.cancelOrder order_id => some { s with book := (cancelOrder s.book order_id).2 }

/-- Effect of a sequence of calls with rounded arithmetic, first call first. -/
def Session.runWith (rnd : ℚ → ℚ) (s : Session) : List Call → Option Session
  | [] => some s
  | c :: cs => (s.callWith rnd c).bind fun s1 => s1.runWith rnd cs

/-- A sequence of calls on the initially empty book for `symbol`, with rounded arithmetic. -/
def runWith (rnd : ℚ → ℚ) (symbol : String) (calls : List Call) : Option Session :=
  Session.runWith rnd { book := OrderBook.new symbol, reports := [] } calls

/-- Sell 0.8, buy 3.4, sell 3.3, all at 10.00 (the quantities as the doubles nearest to the
decimal texts), then match. -/
def roundingCalls : List Call :=
  [Call.addOrder (limitOrder "s1" "X" Side.SELL (roundDouble 0.8) 10) 1000,
   Call.addOrder (limitOrder "b1" "X" Side.BUY (roundDouble 3.4) 10) 2000,
   Call.addOrder (limitOrder "s2" "X" Side.SELL (roundDouble 3.3) 10) 3000,
   Call.matchOrders]

/-- Buy 3.4, sell 1.2, sell 2.6, all at 10.00, then match. -/
def overfillCalls : List Call :=
  [Call.addOrder (limitOrder "b1" "X" Side.BUY (roundDouble 3.4) 10) 1000,
   Call.addOrder (limitOrder "s1" "X" Side.SELL (roundDouble 1.2) 10) 2000,
   Call.addOrder (limitOrder "s2" "X" Side.SELL (roundDouble 2.6) 10) 3000,
   Call.matchOrders]

/-- The rounding `rnd` returns every whole number from 0 up to (excluding) 2^53 unchanged. -/
def ExactOnWhole (rnd : ℚ → ℚ) : Prop :=
  ∀ z : Int, 0 ≤ z → z < 2 ^ 53 → rnd (z : ℚ) = (z : ℚ)

/-- The quantity of the order is a whole number from 0 up to (excluding) 2^53 and nothing of
it is filled. -/
def Order.wholeFresh (o : Order) : Prop :=
  o.filled_qty = 0 ∧ 0 ≤ o.quantity ∧ o.quantity < 2 ^ 53 ∧ ∃ z : Int, o.quantity = z

/-- Every order in the arena has whole `quantity` and `filled_qty` with
`0 ≤ filled_qty ≤ quantity < 2^53`. -/
def WholeInv (b : OrderBook) : Prop :=
  ∀ o ∈ b.heap, (0 ≤ o.filled_qty ∧ o.filled_qty ≤ o.quantity) ∧ o.quantity < 2 ^ 53 ∧
    (∃ z : Int, o.quantity = z) ∧ ∃ z : Int, o.filled_qty = z

theorem executeTrade_eq (heap : List Order) (buy sell : Nat) (p q : ℚ) (bo so : Order)
    (hb : heap[buy]? = some bo) (hs : heap[sell]? = some so) (hne : buy ≠ sell) :
    executeTrade heap buy sell p q =
      some (tradeReport (fillOrder bo q) p q,
        (heap.set buy (fillOrder bo q)).set sell (fillOrder so q)) := by
  obtain ⟨hbl, rfl⟩ := List.getElem?_eq_some.1 hb
  obtain ⟨hsl, rfl⟩ := List.getElem?_eq_some.1 hs
  simp [executeTrade, hne, Ne.symm hne, List.getElem?_set, hbl, hsl, fillOrder,
    tradeReport, List.set_comm _ _ _ (Ne.symm hne)]

theorem refsOK_get {heap : List Order} {side : Side} {ls : List Level} (hr : refsOK heap side ls)
    {l : Level} (hl : l ∈ ls) {h : Nat} (hh : h ∈ l.2) :
    ∃ o, heap[h]? = some o ∧ o.side = side ∧ o.price = l.1 := by
  have := hr l hl h hh
  cases hg : heap[h]? with
  | none => simp [hg] at this
  | some o =>
    simp [hg] at this
    exact ⟨o, rfl, this.1, this.2⟩

theorem matchBody_spec (b : OrderBook) (hv : Valid b) :
    ∃ st, matchBody b = some st ∧ StepSpec b st := by
  rcases hbids : b.bids_ with _ | ⟨⟨pb, bos⟩, brest⟩
  · exact ⟨LoopStep.exit, by simp [matchBody, hbids], StepSpec.exit (Or.inl hbids)⟩
  rcases hasks : b.asks_ with _ | ⟨⟨pa, aos⟩, arest⟩
  · exact ⟨LoopStep.exit, by simp [matchBody, hbids, hasks], StepSpec.exit (Or.inr (Or.inl hasks))⟩
  by_cases hlt : pb < pa
  · exact ⟨LoopStep.exit, by simp [matchBody, hbids, hasks, hlt],
      StepSpec.exit (Or.inr (Or.inr (by simp [getBestBid, getBestAsk, hbids, hasks, hlt])))⟩
  rcases bos with _ | ⟨hb, bt⟩
  · refine ⟨_, ?_, StepSpec.prune pb pa [] aos brest arest hbids hasks hlt (Or.inl rfl)⟩
    simp [matchBody, hbids, hasks, hlt]
  rcases aos with _ | ⟨ha, at1⟩
  · refine ⟨_, ?_, StepSpec.prune pb pa (hb :: bt) [] brest arest hbids hasks hlt (Or.inr rfl)⟩
    simp [matchBody, hbids, hasks, hlt]
  obtain ⟨bo, hbo, hbs, hbp⟩ := refsOK_get hv.1 (l := (pb, hb :: bt)) (by simp [hbids]) (h := hb) (by simp)
  obtain ⟨so, hso, hss, hsp⟩ := refsOK_get hv.2 (l := (pa, ha :: at1)) (by simp [hasks]) (h := ha) (by simp)
  have hne : hb ≠ ha := by
    rintro rfl
    rw [hbo] at hso
    cases hso
    rw [hbs] at hss
    cases hss
  refine ⟨_, ?_, StepSpec.trade pb pa hb ha bt at1 brest arest bo so hbids hasks hlt hbo hso hne hbs hss hbp hsp⟩
  have hbl : hb < b.heap.length := (List.getElem?_eq_some.1 hbo).1
  have hsl : ha < b.heap.length := (List.getElem?_eq_some.1 hso).1
  simp [matchBody, hbids, hasks, hlt, hbo, hso, executeTrade_eq b.heap hb ha _ _ bo so hbo hso hne,
    List.getElem?_set, hne, Ne.symm hne, hbl, hsl]

/-! ## The matching loop -/

theorem LevelsSub.refl (ls : List Level) : LevelsSub ls ls :=
  fun l hl => ⟨l, hl, rfl, fun _ hh => hh⟩

theorem LevelsSub.trans {a b c : List Level} (h1 : LevelsSub a b) (h2 : LevelsSub b c) :
    LevelsSub a c := by
  intro l1 hl1
  obtain ⟨l2, hl2, hp, hs⟩ := h1 l1 hl1
  obtain ⟨l3, hl3, hp3, hs3⟩ := h2 l2 hl2
  exact ⟨l3, hl3, hp.trans hp3, fun h hh => hs3 h (hs h hh)⟩

theorem pruneFront_sub (ls : List Level) : LevelsSub (pruneFront ls) ls := by
  rcases ls with _ | ⟨⟨p, hs⟩, rest⟩
  · exact LevelsSub.refl _
  · simp only [pruneFront]
    split
    · intro l hl
      exact ⟨l, List.mem_cons_of_mem _ hl, rfl, fun _ hh => hh⟩
    · exact LevelsSub.refl _

theorem eraseFront_sub (o : Order) (ls : List Level) : LevelsSub (eraseFrontIfFilled o ls) ls := by
  rcases ls with _ | ⟨⟨p, hs⟩, rest⟩
  · exact LevelsSub.refl _
  · simp only [eraseFrontIfFilled]
    split
    · intro l hl
      rcases List.mem_cons.1 hl with rfl | hl
      · exact ⟨(p, hs), List.mem_cons_self _ _, rfl, fun h hh => List.mem_of_mem_tail hh⟩
      · exact ⟨l, List.mem_cons_of_mem _ hl, rfl, fun _ hh => hh⟩
    · exact LevelsSub.refl _

theorem keys_pruneFront (ls : List Level) :
    ((pruneFront ls).map Prod.fst).Sublist (ls.map Prod.fst) := by
  rcases ls with _ | ⟨⟨p, hs⟩, rest⟩
  · simp [pruneFront]
  · simp only [pruneFront]
    split
    · simp
    · exact List.Sublist.refl _

theorem keys_eraseFront (o : Order) (ls : List Level) :
    (eraseFrontIfFilled o ls).map Prod.fst = ls.map Prod.fst := by
  rcases ls with _ | ⟨⟨p, hs⟩, rest⟩
  · simp [eraseFrontIfFilled]
  · simp only [eraseFrontIfFilled]
    split <;> simp

theorem levelsSize_pruneFront_le (ls : List Level) : levelsSize (pruneFront ls) ≤ levelsSize ls := by
  rcases ls with _ | ⟨⟨p, hs⟩, rest⟩
  · simp [pruneFront]
  · simp only [pruneFront]
    split
    · simp [levelsSize]
    · exact Nat.le_refl _

theorem levelsSize_eraseFront_le (o : Order) (ls : List Level) :
    levelsSize (eraseFrontIfFilled o ls) ≤ levelsSize ls := by
  rcases ls with _ | ⟨⟨p, hs⟩, rest⟩
  · simp [eraseFrontIfFilled]
  · simp only [eraseFrontIfFilled]
    split
    · simp [levelsSize]
    · exact Nat.le_refl _

theorem levelsSize_pruneFront_lt (p : ℚ) (rest : List Level) :
    levelsSize (pruneFront ((p, []) :: rest)) < levelsSize ((p, []) :: rest) := by
  simp [pruneFront, levelsSize]

theorem levelsSize_eraseFront_lt (o : Order) (p : ℚ) (h : Nat) (t : List Nat) (rest : List Level)
    (hf : o.filled_qty ≥ o.quantity) :
    levelsSize (pruneFront (eraseFrontIfFilled o ((p, h :: t) :: rest))) <
      levelsSize ((p, h :: t) :: rest) := by
  refine lt_of_le_of_lt (levelsSize_pruneFront_le _) ?_
  simp [eraseFrontIfFilled, hf, levelsSize]

theorem fillOrder_min_filled (bo so : Order) :
    (fillOrder bo (min (bo.quantity - bo.filled_qty) (so.quantity - so.filled_qty))).filled_qty ≥
        (fillOrder bo (min (bo.quantity - bo.filled_qty) (so.quantity - so.filled_qty))).quantity ∨
    (fillOrder so (min (bo.quantity - bo.filled_qty) (so.quantity - so.filled_qty))).filled_qty ≥
        (fillOrder so (min (bo.quantity - bo.filled_qty) (so.quantity - so.filled_qty))).quantity := by
  rcases min_choice (bo.quantity - bo.filled_qty) (so.quantity - so.filled_qty) with h | h
  · left; rw [h]; simp [fillOrder]
  · right; rw [h]; simp [fillOrder]

theorem StepSpec.fuel_lt {b : OrderBook} {st : LoopStep} (hs : StepSpec b st)
    (hne : st ≠ LoopStep.exit) : matchFuel (st.book b) < matchFuel b := by
  cases hs with
  | exit _ => exact absurd rfl hne
  | prune pb pa bos aos brest arest hbids hasks hlt hemp =>
    simp only [LoopStep.book, matchFuel]
    have h1 := levelsSize_pruneFront_le b.bids_
    have h2 := levelsSize_pruneFront_le b.asks_
    rcases hemp with rfl | rfl
    · have h3 := levelsSize_pruneFront_lt pb brest
      rw [← hbids] at h3
      omega
    · have h3 := levelsSize_pruneFront_lt pa arest
      rw [← hasks] at h3
      omega
  | trade pb pa hb ha bt at1 brest arest bo so hbids hasks hlt hbo hso hne hbs hss hbp hsp =>
    simp only [LoopStep.book, matchFuel]
    have h1 := le_trans (levelsSize_pruneFront_le _) (levelsSize_eraseFront_le
      (fillOrder bo (min (bo.quantity - bo.filled_qty) (so.quantity - so.filled_qty))) b.bids_)
    have h2 := le_trans (levelsSize_pruneFront_le _) (levelsSize_eraseFront_le
      (fillOrder so (min (bo.quantity - bo.filled_qty) (so.quantity - so.filled_qty))) b.asks_)
    rcases fillOrder_min_filled bo so with hf | hf
    · have h3 := levelsSize_eraseFront_lt _ pb hb bt brest hf
      rw [← hbids] at h3
      omega
    · have h3 := levelsSize_eraseFront_lt _ pa ha at1 arest hf
      rw [← hasks] at h3
      omega

theorem refsOK_sub {heap : List Order} {side : Side} {ls1 ls : List Level}
    (hsub : LevelsSub ls1 ls) (hr : refsOK heap side ls) : refsOK heap side ls1 := by
  intro l1 hl1 h hh
  obtain ⟨l, hl, hp, hs⟩ := hsub l1 hl1
  rw [hp]
  exact hr l hl h (hs h hh)

theorem refsOK_heap {heap heap1 : List Order} {side : Side} {ls : List Level}
    (hk : ∀ h : Nat, (heap1[h]?).map (fun o : Order => (o.side, o.price)) =
      (heap[h]?).map (fun o : Order => (o.side, o.price)))
    (hr : refsOK heap side ls) : refsOK heap1 side ls := by
  intro l hl h hh
  rw [hk]
  exact hr l hl h hh

theorem map_getElem?_set {α : Type} (f : Order → α) (heap : List Order) (i : Nat) (o o1 : Order)
    (hi : heap[i]? = some o) (hf : f o1 = f o) (h : Nat) :
    ((heap.set i o1)[h]?).map f = (heap[h]?).map f := by
  have hil : i < heap.length := (List.getElem?_eq_some.1 hi).1
  by_cases hih : i = h
  · subst hih
    simp [List.getElem?_set, hil, hi, hf]
  · simp [List.getElem?_set, hih]

theorem StepSpec.keys {b : OrderBook} {st : LoopStep} (hs : StepSpec b st) (h : Nat) :
    ((st.book b).heap[h]?).map (fun o => (o.side, o.price)) =
      (b.heap[h]?).map (fun o => (o.side, o.price)) := by
  cases hs with
  | exit _ => rfl
  | prune pb pa bos aos brest arest hbids hasks hlt hemp => rfl
  | trade pb pa hb ha bt at1 brest arest bo so hbids hasks hlt hbo hso hne hbs hss hbp hsp =>
    simp only [LoopStep.book]
    have hso1 : (b.heap.set hb (fillOrder bo (min (bo.quantity - bo.filled_qty)
        (so.quantity - so.filled_qty))))[ha]? = some so := by
      rw [List.getElem?_set_ne hne]; exact hso
    rw [map_getElem?_set _ _ ha so _ hso1 (by simp [fillOrder]),
      map_getElem?_set _ _ hb bo _ hbo (by simp [fillOrder])]

theorem StepSpec.bids_sub {b : OrderBook} {st : LoopStep} (hs : StepSpec b st) :
    LevelsSub (st.book b).bids_ b.bids_ := by
  cases hs with
  | exit _ => exact LevelsSub.refl _
  | prune pb pa bos aos brest arest hbids hasks hlt hemp => exact pruneFront_sub _
  | trade pb pa hb ha bt at1 brest arest bo so hbids hasks hlt hbo hso hne hbs hss hbp hsp =>
    exact (pruneFront_sub _).trans (eraseFront_sub _ _)

theorem StepSpec.asks_sub {b : OrderBook} {st : LoopStep} (hs : StepSpec b st) :
    LevelsSub (st.book b).asks_ b.asks_ := by
  cases hs with
  | exit _ => exact LevelsSub.refl _
  | prune pb pa bos aos brest arest hbids hasks hlt hemp => exact pruneFront_sub _
  | trade pb pa hb ha bt at1 brest arest bo so hbids hasks hlt hbo hso hne hbs hss hbp hsp =>
    exact (pruneFront_sub _).trans (eraseFront_sub _ _)

theorem StepSpec.valid {b : OrderBook} {st : LoopStep} (hs : StepSpec b st) (hv : Valid b) :
    Valid (st.book b) :=
  ⟨refsOK_sub hs.bids_sub (refsOK_heap hs.keys hv.1),
   refsOK_sub hs.asks_sub (refsOK_heap hs.keys hv.2)⟩

theorem StepSpec.bid_keys {b : OrderBook} {st : LoopStep} (hs : StepSpec b st) :
    ((st.book b).bids_.map Prod.fst).Sublist (b.bids_.map Prod.fst) := by
  cases hs with
  | exit _ => exact List.Sublist.refl _
  | prune pb pa bos aos brest arest hbids hasks hlt hemp => exact keys_pruneFront _
  | trade pb pa hb ha bt at1 brest arest bo so hbids hasks hlt hbo hso hne hbs hss hbp hsp =>
    exact (keys_pruneFront _).trans (by simp only [keys_eraseFront]; exact List.Sublist.refl _)

theorem StepSpec.ask_keys {b : OrderBook} {st : LoopStep} (hs : StepSpec b st) :
    ((st.book b).asks_.map Prod.fst).Sublist (b.asks_.map Prod.fst) := by
  cases hs with
  | exit _ => exact List.Sublist.refl _
  | prune pb pa bos aos brest arest hbids hasks hlt hemp => exact keys_pruneFront _
  | trade pb pa hb ha bt at1 brest arest bo so hbids hasks hlt hbo hso hne hbs hss hbp hsp =>
    exact (keys_pruneFront _).trans (by simp only [keys_eraseFront]; exact List.Sublist.refl _)

theorem StepSpec.sorted {b : OrderBook} {st : LoopStep} (hs : StepSpec b st) (hv : Sorted b) :
    Sorted (st.book b) :=
  ⟨hv.1.sublist hs.bid_keys, hv.2.sublist hs.ask_keys⟩

theorem matchFuel_pos (b : OrderBook) : 0 < matchFuel b := by
  simp [matchFuel]

theorem matchLoop_inv (I : OrderBook → List ExecutionReport → Prop)
    (hprune : ∀ b reps b1, Valid b → I b reps → StepSpec b (LoopStep.prune b1) → I b1 reps)
    (htrade : ∀ b reps b1 t, Valid b → I b reps → StepSpec b (LoopStep.trade b1 t) →
      I b1 (reps ++ [t.report])) :
    ∀ (fuel : Nat) (b : OrderBook) (reps : List ExecutionReport), Valid b → I b reps →
      matchFuel b ≤ fuel →
      ∃ rs b1, matchLoop fuel b reps = some (rs, b1) ∧ I b1 rs ∧ Valid b1 ∧ Uncrossed b1 := by
  intro fuel
  induction fuel with
  | zero =>
    intro b reps _ _ hf
    have := matchFuel_pos b
    omega
  | succ n ih =>
    intro b reps hv hI hf
    obtain ⟨st, hst, hspec⟩ := matchBody_spec b hv
    cases st with
    | exit =>
      refine ⟨reps, b, by simp [matchLoop, hst], hI, hv, ?_⟩
      cases hspec with
      | exit h => exact h
    | prune b1 =>
      have hlt := hspec.fuel_lt (by simp)
      have hv1 := hspec.valid hv
      simp only [LoopStep.book] at hlt hv1
      obtain ⟨rs, b2, h2, hI2, hv2, hu2⟩ := ih b1 reps hv1 (hprune b reps b1 hv hI hspec) (by omega)
      exact ⟨rs, b2, by simp [matchLoop, hst, h2], hI2, hv2, hu2⟩
    | trade b1 t =>
      have hlt := hspec.fuel_lt (by simp)
      have hv1 := hspec.valid hv
      simp only [LoopStep.book] at hlt hv1
      obtain ⟨rs, b2, h2, hI2, hv2, hu2⟩ :=
        ih b1 (reps ++ [t.report]) hv1 (htrade b reps b1 t hv hI hspec) (by omega)
      exact ⟨rs, b2, by simp [matchLoop, hst, h2], hI2, hv2, hu2⟩

theorem matchOrders_inv (I : OrderBook → List ExecutionReport → Prop)
    (hprune : ∀ b reps b1, Valid b → I b reps → StepSpec b (LoopStep.prune b1) → I b1 reps)
    (htrade : ∀ b reps b1 t, Valid b → I b reps → StepSpec b (LoopStep.trade b1 t) →
      I b1 (reps ++ [t.report]))
    (b : OrderBook) (hv : Valid b) (hI : I b []) :
    ∃ rs b1, matchOrders b = some (rs, b1) ∧ I b1 rs ∧ Valid b1 ∧ Uncrossed b1 :=
  matchLoop_inv I hprune htrade (matchFuel b) b [] hv hI (Nat.le_refl _)

theorem matchIter_inv (P : OrderBook → Prop)
    (hstep : ∀ b st, Valid b → P b → StepSpec b st → P (st.book b)) :
    ∀ (k : Nat) (b bk : OrderBook), Valid b → P b → matchIter k b = some bk → P bk ∧ Valid bk := by
  intro k
  induction k with
  | zero =>
    intro b bk hv hP h
    simp [matchIter] at h
    subst h
    exact ⟨hP, hv⟩
  | succ n ih =>
    intro b bk hv hP h
    obtain ⟨st, hst, hspec⟩ := matchBody_spec b hv
    cases st with
    | exit => simp [matchIter, hst] at h
    | prune b1 =>
      simp only [matchIter, hst] at h
      exact ih b1 bk (hspec.valid hv) (hstep b _ hv hP hspec) h
    | trade b1 t =>
      simp only [matchIter, hst] at h
      exact ih b1 bk (hspec.valid hv) (hstep b _ hv hP hspec) h

theorem matchIter_succ_of_step {b b1 bk : OrderBook} {k : Nat} {st : LoopStep}
    (hst : matchBody b = some st) (hne : st ≠ LoopStep.exit) (hb1 : st.book b = b1)
    (h : matchIter k b1 = some bk) : matchIter (k + 1) b = some bk := by
  cases st with
  | exit => exact absurd rfl hne
  | prune b2 => simp only [LoopStep.book] at hb1; subst hb1; simpa [matchIter, hst] using h
  | trade b2 t => simp only [LoopStep.book] at hb1; subst hb1; simpa [matchIter, hst] using h

/-- Every report in the result of the loop was either there on entry or is the report of a
trade made by some iteration. -/
theorem matchLoop_reports :
    ∀ (fuel : Nat) (b : OrderBook) (reps rs : List ExecutionReport) (b1 : OrderBook),
      matchLoop fuel b reps = some (rs, b1) → ∀ r ∈ rs, r ∈ reps ∨
        ∃ k bk bk1 t, matchIter k b = some bk ∧ matchBody bk = some (LoopStep.trade bk1 t) ∧
          t.report = r := by
  intro fuel
  induction fuel with
  | zero => intro b reps rs b1 h; simp [matchLoop] at h
  | succ n ih =>
    intro b reps rs b1 h r hr
    cases hst : matchBody b with
    | none => simp [matchLoop, hst] at h
    | some st =>
      cases st with
      | exit =>
        simp [matchLoop, hst] at h
        obtain ⟨rfl, rfl⟩ := h
        exact Or.inl hr
      | prune b2 =>
        simp only [matchLoop, hst] at h
        rcases ih b2 reps rs b1 h r hr with h1 | ⟨k, bk, bk1, t, hk, hb, ht⟩
        · exact Or.inl h1
        · exact Or.inr ⟨k + 1, bk, bk1, t, matchIter_succ_of_step hst (by simp) rfl hk, hb, ht⟩
      | trade b2 t2 =>
        simp only [matchLoop, hst] at h
        rcases ih b2 _ rs b1 h r hr with h1 | ⟨k, bk, bk1, t, hk, hb, ht⟩
        · rcases List.mem_append.1 h1 with h1 | h1
          · exact Or.inl h1
          · simp at h1
            exact Or.inr ⟨0, b, b2, t2, rfl, hst, h1.symm⟩
        · exact Or.inr ⟨k + 1, bk, bk1, t, matchIter_succ_of_step hst (by simp) rfl hk, hb, ht⟩

/-! ### addOrder and cancelOrder keep books well formed -/

theorem levelPush_refs (bf : ℚ → ℚ → Bool) (p : ℚ) (h : Nat) (ls : List Level) :
    ∀ l ∈ levelPush bf p h ls, ∀ x ∈ l.2,
      (x = h ∧ l.1 = p) ∨ ∃ l0 ∈ ls, l0.1 = l.1 ∧ x ∈ l0.2 := by
  induction ls with
  | nil =>
    intro l hl x hx
    simp [levelPush] at hl
    subst hl
    simp at hx
    exact Or.inl ⟨hx, rfl⟩
  | cons a rest ih =>
    obtain ⟨q, hs⟩ := a
    intro l hl x hx
    simp only [levelPush] at hl
    split at hl
    · rename_i hq
      rcases List.mem_cons.1 hl with rfl | hl
      · rcases List.mem_append.1 hx with hx | hx
        · exact Or.inr ⟨(q, hs), List.mem_cons_self _ _, rfl, hx⟩
        · simp at hx
          exact Or.inl ⟨hx, hq⟩
      · exact Or.inr ⟨l, List.mem_cons_of_mem _ hl, rfl, hx⟩
    · split at hl
      · rcases List.mem_cons.1 hl with rfl | hl
        · simp at hx
          exact Or.inl ⟨hx, rfl⟩
        · exact Or.inr ⟨l, hl, rfl, hx⟩
      · rcases List.mem_cons.1 hl with rfl | hl
        · exact Or.inr ⟨(q, hs), List.mem_cons_self _ _, rfl, hx⟩
        · rcases ih l hl x hx with h1 | ⟨l0, hl0, h1, h2⟩
          · exact Or.inl h1
          · exact Or.inr ⟨l0, List.mem_cons_of_mem _ hl0, h1, h2⟩

theorem levelPush_keys (bf : ℚ → ℚ → Bool) (p : ℚ) (h : Nat) (ls : List Level) (k : ℚ) :
    k ∈ (levelPush bf p h ls).map Prod.fst ↔ k = p ∨ k ∈ ls.map Prod.fst := by
  induction ls with
  | nil => simp [levelPush]
  | cons a rest ih =>
    obtain ⟨q, hs⟩ := a
    simp only [levelPush]
    split
    · rename_i hq
      subst hq
      simp
    · split
      · simp
      · simp only [List.map_cons, List.mem_cons, ih]
        tauto

theorem levelPush_pairwise (bf : ℚ → ℚ → Bool)
    (htrans : ∀ a b c, bf a b = true → bf b c = true → bf a c = true)
    (htotal : ∀ a b, a ≠ b → bf a b = false → bf b a = true)
    (p : ℚ) (h : Nat) (ls : List Level)
    (hs : (ls.map Prod.fst).Pairwise (fun a b => bf a b = true)) :
    ((levelPush bf p h ls).map Prod.fst).Pairwise (fun a b => bf a b = true) := by
  induction ls with
  | nil => simp [levelPush]
  | cons a rest ih =>
    obtain ⟨q, os⟩ := a
    simp only [List.map_cons, List.pairwise_cons] at hs
    simp only [levelPush]
    split
    · simpa using hs
    · rename_i hq
      split
      · rename_i hb
        simp only [List.map_cons, List.pairwise_cons]
        refine ⟨?_, hs⟩
        intro x hx
        rcases List.mem_cons.1 hx with rfl | hx
        · exact hb
        · exact htrans _ _ _ hb (hs.1 x hx)
      · rename_i hb
        simp only [List.map_cons, List.pairwise_cons]
        refine ⟨?_, ih hs.2⟩
        intro x hx
        rcases (levelPush_keys bf p h rest x).1 hx with rfl | hx
        · exact htotal _ _ (fun e => hq e.symm) (by simpa using hb)
        · exact hs.1 x hx

theorem levelPush_bids_sorted (p : ℚ) (h : Nat) (ls : List Level)
    (hs : (ls.map Prod.fst).Pairwise (fun a b => b < a)) :
    ((levelPush bidBefore p h ls).map Prod.fst).Pairwise (fun a b => b < a) := by
  have := levelPush_pairwise bidBefore
    (fun a b c h1 h2 => by simp only [bidBefore, decide_eq_true_eq] at *; exact lt_trans h2 h1)
    (fun a b hne h1 => by
      simp only [bidBefore, decide_eq_true_eq, decide_eq_false_iff_not, not_lt] at *
      exact lt_of_le_of_ne h1 hne)
    p h ls (by simpa [bidBefore] using hs)
  simpa [bidBefore] using this

theorem levelPush_asks_sorted (p : ℚ) (h : Nat) (ls : List Level)
    (hs : (ls.map Prod.fst).Pairwise (fun a b => a < b)) :
    ((levelPush askBefore p h ls).map Prod.fst).Pairwise (fun a b => a < b) := by
  have := levelPush_pairwise askBefore
    (fun a b c h1 h2 => by simp only [askBefore, decide_eq_true_eq] at *; exact lt_trans h1 h2)
    (fun a b hne h1 => by
      simp only [askBefore, decide_eq_true_eq, decide_eq_false_iff_not, not_lt] at *
      exact lt_of_le_of_ne h1 (Ne.symm hne))
    p h ls (by simpa [askBefore] using hs)
  simpa [askBefore] using this

theorem refsOK_append {heap : List Order} {side : Side} {ls : List Level} (o : Order)
    (hr : refsOK heap side ls) : refsOK (heap ++ [o]) side ls := by
  intro l hl h hh
  obtain ⟨o1, ho1, hs, hp⟩ := refsOK_get hr hl hh
  have hlt : h < heap.length := (List.getElem?_eq_some.1 ho1).1
  rw [List.getElem?_append_left hlt]
  exact hr l hl h hh

theorem refsOK_levelPush {heap : List Order} {side : Side} {ls : List Level} (o : Order)
    (bf : ℚ → ℚ → Bool) (hside : o.side = side) (hr : refsOK heap side ls) :
    refsOK (heap ++ [o]) side (levelPush bf o.price heap.length ls) := by
  intro l hl h hh
  rcases levelPush_refs bf o.price heap.length ls l hl h hh with ⟨rfl, hp⟩ | ⟨l0, hl0, hp, hx⟩
  · simp [hside, hp]
  · rw [← hp]
    exact refsOK_append o hr l0 hl0 h hx

theorem addOrder_heap (b : OrderBook) (o : Order) (n : Int) :
    (addOrder b o n).2.heap =
      b.heap ++ [{ o with order_id := generateOrderId n b.order_id_counter_ }] := by
  simp only [addOrder]
  split <;> rfl

theorem addOrder_buy (b : OrderBook) (o : Order) (n : Int) (hside : o.side = Side.BUY) :
    (addOrder b o n).2 =
      { b with
        order_id_counter_ := b.order_id_counter_ + 1
        heap := b.heap ++ [{ o with order_id := generateOrderId n b.order_id_counter_ }]
        orders_ := tableAssign (generateOrderId n b.order_id_counter_) b.heap.length b.orders_
        bids_ := levelPush bidBefore o.price b.heap.length b.bids_ } := by
  simp only [addOrder, hside, if_true]

theorem addOrder_sell (b : OrderBook) (o : Order) (n : Int) (hside : o.side = Side.SELL) :
    (addOrder b o n).2 =
      { b with
        order_id_counter_ := b.order_id_counter_ + 1
        heap := b.heap ++ [{ o with order_id := generateOrderId n b.order_id_counter_ }]
        orders_ := tableAssign (generateOrderId n b.order_id_counter_) b.heap.length b.orders_
        asks_ := levelPush askBefore o.price b.heap.length b.asks_ } := by
  simp only [addOrder, hside]
  rfl

theorem addOrder_valid (b : OrderBook) (o : Order) (n : Int) (hv : Valid b) :
    Valid (addOrder b o n).2 := by
  cases hside : o.side with
  | BUY =>
    rw [addOrder_buy b o n hside]
    exact ⟨refsOK_levelPush { o with order_id := generateOrderId n b.order_id_counter_ }
      bidBefore hside hv.1, refsOK_append _ hv.2⟩
  | SELL =>
    rw [addOrder_sell b o n hside]
    exact ⟨refsOK_append _ hv.1, refsOK_levelPush
      { o with order_id := generateOrderId n b.order_id_counter_ } askBefore hside hv.2⟩

theorem addOrder_sorted (b : OrderBook) (o : Order) (n : Int) (hv : Sorted b) :
    Sorted (addOrder b o n).2 := by
  cases hside : o.side with
  | BUY =>
    rw [addOrder_buy b o n hside]
    exact ⟨levelPush_bids_sorted _ _ _ hv.1, hv.2⟩
  | SELL =>
    rw [addOrder_sell b o n hside]
    exact ⟨hv.1, levelPush_asks_sorted _ _ _ hv.2⟩

theorem cancelOrder_levels (b : OrderBook) (id : String) :
    (cancelOrder b id).2.bids_ = b.bids_ ∧ (cancelOrder b id).2.asks_ = b.asks_ := by
  unfold cancelOrder
  split
  · exact ⟨rfl, rfl⟩
  · split <;> exact ⟨rfl, rfl⟩

theorem cancelOrder_keys (b : OrderBook) (id : String) (h : Nat) :
    ((cancelOrder b id).2.heap[h]?).map (fun o : Order => (o.side, o.price)) =
      (b.heap[h]?).map (fun o : Order => (o.side, o.price)) := by
  cases hf : tableFind id b.orders_ with
  | none => simp [cancelOrder, hf]
  | some h1 =>
    cases hg : b.heap[h1]? with
    | none => simp [cancelOrder, hf, hg]
    | some o =>
      simp only [cancelOrder, hf, hg]
      refine map_getElem?_set _ _ h1 o _ hg ?_ h
      rfl

theorem cancelOrder_valid (b : OrderBook) (id : String) (hv : Valid b) :
    Valid (cancelOrder b id).2 := by
  obtain ⟨h1, h2⟩ := cancelOrder_levels b id
  unfold Valid
  rw [h1, h2]
  exact ⟨refsOK_heap (cancelOrder_keys b id) hv.1, refsOK_heap (cancelOrder_keys b id) hv.2⟩

theorem cancelOrder_sorted (b : OrderBook) (id : String) (hv : Sorted b) :
    Sorted (cancelOrder b id).2 := by
  obtain ⟨h1, h2⟩ := cancelOrder_levels b id
  unfold Sorted
  rw [h1, h2]
  exact hv

theorem valid_new (symbol : String) : Valid (OrderBook.new symbol) := by
  constructor <;> intro l hl <;> simp [OrderBook.new] at hl

theorem sorted_new (symbol : String) : Sorted (OrderBook.new symbol) := by
  constructor <;> simp [OrderBook.new]

/-- Induction over call sequences: a property of the book and of the reports returned so far
that every operation (and every iteration of the matching loop) keeps holds after every
sequence of admissible calls, and every call returns. -/
theorem run_inv (J : OrderBook → List ExecutionReport → Prop) (C : Call → Prop)
    (hadd : ∀ b reps o n, Valid b → J b reps → C (Call.addOrder o n) →
      J (addOrder b o n).2 reps)
    (hcancel : ∀ b reps id, Valid b → J b reps → C (Call.cancelOrder id) →
      J (cancelOrder b id).2 reps)
    (hprune : ∀ b reps b1, Valid b → J b reps → StepSpec b (LoopStep.prune b1) → J b1 reps)
    (htrade : ∀ b reps b1 t, Valid b → J b reps → StepSpec b (LoopStep.trade b1 t) →
      J b1 (reps ++ [t.report])) :
    ∀ (calls : List Call) (s : Session), Valid s.book → J s.book s.reports →
      (∀ c ∈ calls, C c) →
      ∃ s1, s.run calls = some s1 ∧ Valid s1.book ∧ J s1.book s1.reports := by
  intro calls
  induction calls with
  | nil => intro s hv hJ _; exact ⟨s, rfl, hv, hJ⟩
  | cons c cs ih =>
    intro s hv hJ hC
    have hCc : C c := hC c (List.mem_cons_self _ _)
    have hCs : ∀ c1 ∈ cs, C c1 := fun c1 h => hC c1 (List.mem_cons_of_mem _ h)
    cases c with
    | addOrder o n =>
      obtain ⟨s1, h1, h2⟩ := ih { s with book := (addOrder s.book o n).2 }
        (addOrder_valid _ _ _ hv) (hadd _ _ _ _ hv hJ hCc) hCs
      exact ⟨s1, by simpa [Session.run, Session.call] using h1, h2⟩
    | cancelOrder id =>
      obtain ⟨s1, h1, h2⟩ := ih { s with book := (cancelOrder s.book id).2 }
        (cancelOrder_valid _ _ hv) (hcancel _ _ _ hv hJ hCc) hCs
      exact ⟨s1, by simpa [Session.run, Session.call] using h1, h2⟩
    | matchOrders =>
      obtain ⟨rs, b1, hm, hI, hv1, _⟩ := matchOrders_inv (fun b reps => J b (s.reports ++ reps))
        (fun b reps b1 hv hI hs => hprune b _ b1 hv hI hs)
        (fun b reps b1 t hv hI hs => by
          have := htrade b _ b1 t hv hI hs
          simpa [List.append_assoc] using this)
        s.book hv (by simpa using hJ)
      obtain ⟨s1, h1, h2⟩ := ih { book := b1, reports := s.reports ++ rs } hv1 hI hCs
      exact ⟨s1, by simpa [Session.run, Session.call, hm] using h1, h2⟩

/-! ### Conservation of filled quantity -/

theorem filledSum_append (side : Side) (heap : List Order) (o : Order) :
    filledSum side (heap ++ [o]) =
      filledSum side heap + (if o.side = side then o.filled_qty else 0) := by
  unfold filledSum
  by_cases h : o.side = side <;> simp [List.filter_append, List.filter_cons, h]

theorem filledSum_set (side : Side) (heap : List Order) (i : Nat) (o o1 : Order)
    (hi : heap[i]? = some o) (hs : o1.side = o.side) :
    filledSum side (heap.set i o1) =
      filledSum side heap + (if o.side = side then o1.filled_qty - o.filled_qty else 0) := by
  induction heap generalizing i with
  | nil => simp at hi
  | cons a rest ih =>
    cases i with
    | zero =>
      simp at hi
      subst hi
      unfold filledSum
      by_cases h : a.side = side
      · simp [List.filter_cons, h, hs]
        ring
      · simp [List.filter_cons, h, hs]
    | succ j =>
      simp at hi
      have := ih j hi
      unfold filledSum at this ⊢
      by_cases h : a.side = side
      · simp only [List.set_cons_succ, List.filter_cons, h, decide_True, if_true, List.map_cons,
          List.sum_cons, this]
        ring
      · simpa [List.filter_cons, h] using this

theorem StepSpec.sums {b b1 : OrderBook} {t : Trade} {reps : List ExecutionReport}
    (hs : StepSpec b (LoopStep.trade b1 t)) (hI : SumInv b reps) :
    SumInv b1 (reps ++ [t.report]) := by
  cases hs with
  | trade pb pa hb ha bt at1 brest arest bo so hbids hasks hlt hbo hso hne hbs hss hbp hsp =>
    have hso1 : (b.heap.set hb (fillOrder bo (min (bo.quantity - bo.filled_qty)
        (so.quantity - so.filled_qty))))[ha]? = some so := by
      rw [List.getElem?_set_ne hne]; exact hso
    unfold SumInv at hI ⊢
    simp only []
    rw [filledSum_set _ _ ha so (fillOrder so _) hso1 rfl,
      filledSum_set _ _ hb bo (fillOrder bo _) hbo rfl,
      filledSum_set _ _ ha so (fillOrder so _) hso1 rfl,
      filledSum_set _ _ hb bo (fillOrder bo _) hbo rfl]
    simp [fillOrder, tradeReport, hbs, hss, hI.1.symm, hI.2.symm]

theorem run_sums (calls : List Call) (s : Session) (hv : Valid s.book)
    (hI : SumInv s.book s.reports)
    (h0 : ∀ c ∈ calls, ∀ o n, c = Call.addOrder o n → o.filled_qty = 0) :
    ∃ s1, s.run calls = some s1 ∧ Valid s1.book ∧ SumInv s1.book s1.reports := by
  refine run_inv SumInv (fun c => ∀ o n, c = Call.addOrder o n → o.filled_qty = 0)
    ?_ ?_ ?_ ?_ calls s hv hI h0
  · intro b reps o n _ hJ hC
    have hf := hC o n rfl
    unfold SumInv at hJ ⊢
    rw [addOrder_heap]
    simp only [filledSum_append, hf]
    simpa using hJ
  · intro b reps id _ hJ _
    unfold SumInv at hJ ⊢
    cases hf : tableFind id b.orders_ with
    | none => simpa [cancelOrder, hf] using hJ
    | some h1 =>
      cases hg : b.heap[h1]? with
      | none => simpa [cancelOrder, hf, hg] using hJ
      | some o =>
        simp only [cancelOrder, hf, hg]
        rw [filledSum_set Side.BUY _ h1 o { o with status := OrderStatus.CANCELED } hg rfl,
          filledSum_set Side.SELL _ h1 o { o with status := OrderStatus.CANCELED } hg rfl]
        simpa using hJ
  · intro b reps b1 _ hJ hs
    cases hs with
    | prune pb pa bos aos brest arest hbids hasks hlt hemp => exact hJ
  · intro b reps b1 t _ hJ hs
    exact hs.sums hJ

/-! ### Bounds on filled quantity -/

theorem fillOrder_bounds (bo so : Order)
    (hb : 0 ≤ bo.filled_qty ∧ bo.filled_qty ≤ bo.quantity)
    (hs : 0 ≤ so.filled_qty ∧ so.filled_qty ≤ so.quantity) :
    (0 ≤ (fillOrder bo (min (bo.quantity - bo.filled_qty)
        (so.quantity - so.filled_qty))).filled_qty ∧
      (fillOrder bo (min (bo.quantity - bo.filled_qty) (so.quantity - so.filled_qty))).filled_qty ≤
        (fillOrder bo (min (bo.quantity - bo.filled_qty) (so.quantity - so.filled_qty))).quantity) ∧
    (0 ≤ (fillOrder so (min (bo.quantity - bo.filled_qty)
        (so.quantity - so.filled_qty))).filled_qty ∧
      (fillOrder so (min (bo.quantity - bo.filled_qty) (so.quantity - so.filled_qty))).filled_qty ≤
        (fillOrder so (min (bo.quantity - bo.filled_qty) (so.quantity - so.filled_qty))).quantity) := by
  have h1 : min (bo.quantity - bo.filled_qty) (so.quantity - so.filled_qty) ≤
      bo.quantity - bo.filled_qty := min_le_left _ _
  have h2 : min (bo.quantity - bo.filled_qty) (so.quantity - so.filled_qty) ≤
      so.quantity - so.filled_qty := min_le_right _ _
  have h3 : 0 ≤ min (bo.quantity - bo.filled_qty) (so.quantity - so.filled_qty) :=
    le_min (by linarith [hb.2]) (by linarith [hs.2])
  simp only [fillOrder]
  refine ⟨⟨?_, ?_⟩, ?_, ?_⟩ <;> linarith [hb.1, hs.1]

theorem StepSpec.bounds {b : OrderBook} {st : LoopStep} (hs : StepSpec b st) (hI : BoundInv b) :
    BoundInv (st.book b) := by
  cases hs with
  | exit _ => exact hI
  | prune pb pa bos aos brest arest hbids hasks hlt hemp => exact hI
  | trade pb pa hb ha bt at1 brest arest bo so hbids hasks hlt hbo hso hne hbs hss hbp hsp =>
    have hbo1 := hI bo (List.getElem?_mem hbo)
    have hso1 := hI so (List.getElem?_mem hso)
    obtain ⟨hb2, hs2⟩ := fillOrder_bounds bo so hbo1 hso1
    intro o ho
    simp only [LoopStep.book] at ho
    rcases List.mem_or_eq_of_mem_set ho with ho | rfl
    · rcases List.mem_or_eq_of_mem_set ho with ho | rfl
      · exact hI o ho
      · exact hb2
    · exact hs2

theorem run_bounds (calls : List Call) (s : Session) (hv : Valid s.book) (hI : BoundInv s.book)
    (h0 : ∀ c ∈ calls, ∀ o n, c = Call.addOrder o n → o.filled_qty = 0 ∧ 0 ≤ o.quantity) :
    ∃ s1, s.run calls = some s1 ∧ Valid s1.book ∧ BoundInv s1.book := by
  refine run_inv (fun b _ => BoundInv b)
    (fun c => ∀ o n, c = Call.addOrder o n → o.filled_qty = 0 ∧ 0 ≤ o.quantity)
    ?_ ?_ ?_ ?_ calls s hv hI h0
  · intro b reps o n _ hJ hC
    obtain ⟨hf, hq⟩ := hC o n rfl
    intro o1 ho1
    rw [addOrder_heap] at ho1
    rcases List.mem_append.1 ho1 with ho1 | ho1
    · exact hJ o1 ho1
    · simp at ho1
      subst ho1
      simp [hf, hq]
  · intro b reps id _ hJ _
    cases hf : tableFind id b.orders_ with
    | none => simpa [cancelOrder, hf] using hJ
    | some h1 =>
      cases hg : b.heap[h1]? with
      | none => simpa [cancelOrder, hf, hg] using hJ
      | some o =>
        simp only [cancelOrder, hf, hg]
        intro o1 ho1
        rcases List.mem_or_eq_of_mem_set ho1 with ho1 | rfl
        · exact hJ o1 ho1
        · exact hJ o (List.getElem?_mem hg)
  · intro b reps b1 _ hJ hs
    exact hs.bounds hJ
  · intro b reps b1 t _ hJ hs
    exact hs.bounds hJ

/-! ### Facts about the scenarios -/

theorem scenarioB_fresh :
    ∀ o n, Call.addOrder o n ∈ scenarioB → o.filled_qty = 0 ∧ 0 ≤ o.quantity := by
  intro o n h
  simp only [scenarioB, List.mem_cons, Call.addOrder.injEq, List.mem_singleton,
    List.not_mem_nil, or_false] at h
  rcases h with ⟨rfl, _⟩ | ⟨rfl, _⟩ | h
  · simp [limitOrder]
  · simp [limitOrder]
  · cases h

/-! ### Price-time priority -/

theorem resting_pruneFront (ls : List Level) (p : ℚ) (h : Nat) :
    Resting (pruneFront ls) p h ↔ Resting ls p h := by
  rcases ls with _ | ⟨⟨q, hs⟩, rest⟩
  · simp [pruneFront]
  · simp only [pruneFront]
    split
    · rename_i he
      subst he
      simp [Resting]
    · rfl

theorem SideFifo.prune {heap : List Order} {side : Side} {ls : List Level}
    (hf : SideFifo heap side ls) : SideFifo heap side (pruneFront ls) := by
  obtain ⟨h1, h2, h3⟩ := hf
  have hsub := pruneFront_sub ls
  refine ⟨?_, ?_, ?_⟩
  · intro l hl
    rcases ls with _ | ⟨⟨q, hs⟩, rest⟩
    · simp [pruneFront] at hl
    · simp only [pruneFront] at hl
      split at hl
      · exact h1 l (List.mem_cons_of_mem _ hl)
      · exact h1 l hl
  · intro l hl h hh o ho
    obtain ⟨l0, hl0, _, hs⟩ := hsub l hl
    exact h2 l0 hl0 h (hs h hh) o ho
  · intro h o ho hs hq
    exact (resting_pruneFront ls o.price h).2 (h3 h o ho hs hq)

theorem SideFifo.erase {heap heap1 : List Order} {side : Side} {p : ℚ} {x : Nat} {t : List Nat}
    {rest : List Level} {o1 : Order}
    (hf : SideFifo heap side ((p, x :: t) :: rest))
    (hr : refsOK heap side ((p, x :: t) :: rest))
    (hnd : (((p, x :: t) :: rest).map Prod.fst).Nodup)
    (hx1 : heap1[x]? = some o1) (hprice : o1.price = p)
    (hframe1 : ∀ h, h ≠ x → ∀ oo, heap1[h]? = some oo → oo.side = side → heap[h]? = some oo)
    (hframe2 : ∀ h, h ≠ x → ∀ oo, heap[h]? = some oo → oo.side = side → heap1[h]? = some oo) :
    SideFifo heap1 side (eraseFrontIfFilled o1 ((p, x :: t) :: rest)) := by
  obtain ⟨h1, h2, h3⟩ := hf
  have hpw := h1 (p, x :: t) (List.mem_cons_self _ _)
  simp only [List.pairwise_cons] at hpw
  -- a reference resting anywhere but at the very front is not `x`
  have hne_tail : ∀ h ∈ t, h ≠ x := fun h hh e => by
    have := hpw.1 h hh
    omega
  have hne_rest : ∀ l ∈ rest, ∀ h ∈ l.2, h ≠ x := by
    intro l hl h hh e
    subst e
    obtain ⟨oa, hoa, _, hpa⟩ := refsOK_get hr (List.mem_cons_of_mem _ hl) hh
    obtain ⟨ob, hob, _, hpb⟩ := refsOK_get hr (l := (p, h :: t)) (List.mem_cons_self _ _)
      (h := h) (List.mem_cons_self _ _)
    rw [hoa] at hob
    cases hob
    simp only [List.map_cons, List.nodup_cons, List.mem_map] at hnd
    exact hnd.1 ⟨l, hl, hpa.symm.trans hpb⟩
  have hold : ∀ l ∈ ((p, x :: t) :: rest), ∀ h ∈ l.2, h ≠ x →
      ∀ oo, heap1[h]? = some oo → oo.filled_qty < oo.quantity := by
    intro l hl h hh hne oo hoo
    obtain ⟨oa, hoa, hsa, _⟩ := refsOK_get hr hl hh
    have e : oa = oo := by
      rw [hframe2 h hne oa hoa hsa] at hoo
      exact Option.some.inj hoo
    exact e ▸ h2 l hl h hh oa hoa
  simp only [eraseFrontIfFilled]
  split
  · rename_i hfill
    refine ⟨?_, ?_, ?_⟩
    · intro l hl
      rcases List.mem_cons.1 hl with rfl | hl
      · exact hpw.2
      · exact h1 l (List.mem_cons_of_mem _ hl)
    · intro l hl h hh oo hoo
      rcases List.mem_cons.1 hl with rfl | hl
      · exact hold (p, x :: t) (List.mem_cons_self _ _) h (List.mem_cons_of_mem _ (by simpa using hh))
          (hne_tail h (by simpa using hh)) oo hoo
      · exact hold l (List.mem_cons_of_mem _ hl) h hh (hne_rest l hl h hh) oo hoo
    · intro h oo hoo hs hq
      have hne : h ≠ x := by
        rintro rfl
        rw [hx1] at hoo
        cases hoo
        exact absurd hfill (not_le.2 hq)
      obtain ⟨l, hl, hp, hh⟩ := h3 h oo (hframe1 h hne oo hoo hs) hs hq
      rcases List.mem_cons.1 hl with rfl | hl
      · refine ⟨(p, t), List.mem_cons_self _ _, hp, ?_⟩
        rcases List.mem_cons.1 hh with e | hh
        · exact absurd e hne
        · exact hh
      · exact ⟨l, List.mem_cons_of_mem _ hl, hp, hh⟩
  · rename_i hfill
    refine ⟨h1, ?_, ?_⟩
    · intro l hl h hh oo hoo
      by_cases hne : h = x
      · subst hne
        rw [hx1] at hoo
        cases hoo
        exact not_le.1 hfill
      · exact hold l hl h hh hne oo hoo
    · intro h oo hoo hs hq
      by_cases hne : h = x
      · subst hne
        rw [hx1] at hoo
        cases hoo
        exact ⟨(p, h :: t), List.mem_cons_self _ _, hprice.symm, List.mem_cons_self _ _⟩
      · exact h3 h oo (hframe1 h hne oo hoo hs) hs hq

theorem nodup_of_pairwise_lt {l : List ℚ} (h : l.Pairwise (fun a b => a < b)) : l.Nodup :=
  h.imp (fun hab => ne_of_lt hab)

theorem nodup_of_pairwise_gt {l : List ℚ} (h : l.Pairwise (fun a b => b < a)) : l.Nodup :=
  h.imp (fun hab => ne_of_gt hab)

theorem trade_heap_buy (heap : List Order) (hb ha : Nat) (bo1 so1 : Order) (hne : hb ≠ ha)
    (hbl : hb < heap.length) : ((heap.set hb bo1).set ha so1)[hb]? = some bo1 := by
  simp [List.getElem?_set, hne, Ne.symm hne, hbl]

theorem trade_heap_sell (heap : List Order) (hb ha : Nat) (bo1 so1 : Order)
    (hsl : ha < heap.length) : ((heap.set hb bo1).set ha so1)[ha]? = some so1 := by
  simp [List.getElem?_set, hsl]

theorem trade_heap_other (heap : List Order) (hb ha h : Nat) (bo1 so1 : Order) (h1 : h ≠ hb)
    (h2 : h ≠ ha) : ((heap.set hb bo1).set ha so1)[h]? = heap[h]? := by
  simp [List.getElem?_set, Ne.symm h1, Ne.symm h2]

theorem StepSpec.fifo {b : OrderBook} {st : LoopStep} (hs : StepSpec b st) (hv : Valid b)
    (hI : FifoInv b) : FifoInv (st.book b) := by
  obtain ⟨hsort, hbf, haf⟩ := hI
  refine ⟨hs.sorted hsort, ?_, ?_⟩
  · cases hs with
    | exit _ => exact hbf
    | prune pb pa bos aos brest arest hbids hasks hlt hemp => exact hbf.prune
    | trade pb pa hb ha bt at1 brest arest bo so hbids hasks hlt hbo hso hne hbs hss hbp hsp =>
      simp only [LoopStep.book]
      refine SideFifo.prune ?_
      have hbl : hb < b.heap.length := (List.getElem?_eq_some.1 hbo).1
      have hsl : ha < b.heap.length := (List.getElem?_eq_some.1 hso).1
      rw [hbids] at hbf ⊢
      refine SideFifo.erase hbf (hbids ▸ hv.1) (hbids ▸ nodup_of_pairwise_gt hsort.1)
        (trade_heap_buy _ _ _ _ _ hne hbl) (by simpa [fillOrder] using hbp) ?_ ?_
      · intro h hh oo hoo hside
        by_cases hha : h = ha
        · subst hha
          rw [trade_heap_sell _ _ _ _ _ hsl] at hoo
          cases hoo
          simp [fillOrder, hss] at hside
        · rwa [trade_heap_other _ _ _ _ _ _ hh hha] at hoo
      · intro h hh oo hoo hside
        by_cases hha : h = ha
        · subst hha
          rw [hso] at hoo
          cases hoo
          rw [hss] at hside
          cases hside
        · rwa [trade_heap_other _ _ _ _ _ _ hh hha]
  · cases hs with
    | exit _ => exact haf
    | prune pb pa bos aos brest arest hbids hasks hlt hemp => exact haf.prune
    | trade pb pa hb ha bt at1 brest arest bo so hbids hasks hlt hbo hso hne hbs hss hbp hsp =>
      simp only [LoopStep.book]
      refine SideFifo.prune ?_
      have hbl : hb < b.heap.length := (List.getElem?_eq_some.1 hbo).1
      have hsl : ha < b.heap.length := (List.getElem?_eq_some.1 hso).1
      rw [hasks] at haf ⊢
      refine SideFifo.erase haf (hasks ▸ hv.2) (hasks ▸ nodup_of_pairwise_lt hsort.2)
        (trade_heap_sell _ _ _ _ _ hsl) (by simpa [fillOrder] using hsp) ?_ ?_
      · intro h hh oo hoo hside
        by_cases hhb : h = hb
        · subst hhb
          rw [trade_heap_buy _ _ _ _ _ hne hbl] at hoo
          cases hoo
          simp [fillOrder, hbs] at hside
        · rwa [trade_heap_other _ _ _ _ _ _ hhb hh] at hoo
      · intro h hh oo hoo hside
        by_cases hhb : h = hb
        · subst hhb
          rw [hbo] at hoo
          cases hoo
          rw [hbs] at hside
          cases hside
        · rwa [trade_heap_other _ _ _ _ _ _ hhb hh]

theorem getElem?_append_singleton {heap : List Order} {no o : Order} {h : Nat}
    (hg : (heap ++ [no])[h]? = some o) :
    heap[h]? = some o ∨ (h = heap.length ∧ o = no) := by
  rw [List.getElem?_append] at hg
  split at hg
  · exact Or.inl hg
  · rename_i hlt
    right
    have hlen : h - heap.length < [no].length := (List.getElem?_eq_some.1 hg).1
    simp at hlen
    have : h = heap.length := by omega
    subst this
    simp at hg
    exact ⟨rfl, hg.symm⟩

theorem refsOK_lt {heap : List Order} {side : Side} {ls : List Level} (hr : refsOK heap side ls)
    {l : Level} (hl : l ∈ ls) {h : Nat} (hh : h ∈ l.2) : h < heap.length := by
  obtain ⟨o, ho, _, _⟩ := refsOK_get hr hl hh
  exact (List.getElem?_eq_some.1 ho).1

theorem levelPush_resting (bf : ℚ → ℚ → Bool) (p : ℚ) (h : Nat) (ls : List Level) (q : ℚ)
    (x : Nat) : Resting (levelPush bf p h ls) q x ↔ (q = p ∧ x = h) ∨ Resting ls q x := by
  induction ls with
  | nil =>
    simp only [levelPush, Resting, List.mem_singleton, List.not_mem_nil, false_and, exists_false,
      or_false]
    constructor
    · rintro ⟨l, rfl, hq, hx⟩
      simp at hx
      exact ⟨hq.symm, hx⟩
    · rintro ⟨rfl, rfl⟩
      exact ⟨_, rfl, rfl, by simp⟩
  | cons a rest ih =>
    obtain ⟨k, hs⟩ := a
    simp only [levelPush]
    split
    · rename_i hk
      subst hk
      constructor
      · rintro ⟨l, hl, hq, hx⟩
        rcases List.mem_cons.1 hl with rfl | hl
        · rcases List.mem_append.1 hx with hx | hx
          · exact Or.inr ⟨(k, hs), List.mem_cons_self _ _, hq, hx⟩
          · simp at hx
            exact Or.inl ⟨hq.symm, hx⟩
        · exact Or.inr ⟨l, List.mem_cons_of_mem _ hl, hq, hx⟩
      · rintro (⟨rfl, rfl⟩ | ⟨l, hl, hq, hx⟩)
        · exact ⟨(q, hs ++ [x]), List.mem_cons_self _ _, rfl, by simp⟩
        · rcases List.mem_cons.1 hl with rfl | hl
          · exact ⟨(k, hs ++ [h]), List.mem_cons_self _ _, hq, List.mem_append_left _ hx⟩
          · exact ⟨l, List.mem_cons_of_mem _ hl, hq, hx⟩
    · split
      · constructor
        · rintro ⟨l, hl, hq, hx⟩
          rcases List.mem_cons.1 hl with rfl | hl
          · simp at hx
            exact Or.inl ⟨hq.symm, hx⟩
          · exact Or.inr ⟨l, hl, hq, hx⟩
        · rintro (⟨rfl, rfl⟩ | ⟨l, hl, hq, hx⟩)
          · exact ⟨(q, [x]), List.mem_cons_self _ _, rfl, by simp⟩
          · exact ⟨l, List.mem_cons_of_mem _ hl, hq, hx⟩
      · constructor
        · rintro ⟨l, hl, hq, hx⟩
          rcases List.mem_cons.1 hl with rfl | hl
          · exact Or.inr ⟨(k, hs), List.mem_cons_self _ _, hq, hx⟩
          · rcases (ih.1 ⟨l, hl, hq, hx⟩) with h1 | ⟨l0, hl0, hq0, hx0⟩
            · exact Or.inl h1
            · exact Or.inr ⟨l0, List.mem_cons_of_mem _ hl0, hq0, hx0⟩
        · rintro (h1 | ⟨l, hl, hq, hx⟩)
          · obtain ⟨l0, hl0, hq0, hx0⟩ := ih.2 (Or.inl h1)
            exact ⟨l0, List.mem_cons_of_mem _ hl0, hq0, hx0⟩
          · rcases List.mem_cons.1 hl with rfl | hl
            · exact ⟨(k, hs), List.mem_cons_self _ _, hq, hx⟩
            · obtain ⟨l0, hl0, hq0, hx0⟩ := ih.2 (Or.inr ⟨l, hl, hq, hx⟩)
              exact ⟨l0, List.mem_cons_of_mem _ hl0, hq0, hx0⟩

theorem levelPush_increasing (bf : ℚ → ℚ → Bool) (p : ℚ) (h : Nat) (ls : List Level)
    (h1 : ∀ l ∈ ls, l.2.Pairwise (fun x y => x < y)) (h2 : ∀ l ∈ ls, ∀ x ∈ l.2, x < h) :
    ∀ l ∈ levelPush bf p h ls, l.2.Pairwise (fun x y => x < y) := by
  induction ls with
  | nil =>
    intro l hl
    simp [levelPush] at hl
    subst hl
    simp
  | cons a rest ih =>
    obtain ⟨k, hs⟩ := a
    intro l hl
    simp only [levelPush] at hl
    split at hl
    · rcases List.mem_cons.1 hl with rfl | hl
      · rw [List.pairwise_append]
        refine ⟨h1 (k, hs) (List.mem_cons_self _ _), by simp, ?_⟩
        intro x hx y hy
        simp at hy
        subst hy
        exact h2 (k, hs) (List.mem_cons_self _ _) x hx
      · exact h1 l (List.mem_cons_of_mem _ hl)
    · split at hl
      · rcases List.mem_cons.1 hl with rfl | hl
        · simp
        · exact h1 l hl
      · rcases List.mem_cons.1 hl with rfl | hl
        · exact h1 (k, hs) (List.mem_cons_self _ _)
        · exact ih (fun l hl => h1 l (List.mem_cons_of_mem _ hl))
            (fun l hl => h2 l (List.mem_cons_of_mem _ hl)) l hl

theorem SideFifo.append_other {heap : List Order} {side : Side} {ls : List Level} {no : Order}
    (hf : SideFifo heap side ls) (hr : refsOK heap side ls) (hside : no.side ≠ side) :
    SideFifo (heap ++ [no]) side ls := by
  obtain ⟨h1, h2, h3⟩ := hf
  refine ⟨h1, ?_, ?_⟩
  · intro l hl h hh o ho
    rw [List.getElem?_append_left (refsOK_lt hr hl hh)] at ho
    exact h2 l hl h hh o ho
  · intro h o ho hs hq
    rcases getElem?_append_singleton ho with ho | ⟨_, rfl⟩
    · exact h3 h o ho hs hq
    · exact absurd hs hside

theorem SideFifo.push {heap : List Order} {side : Side} {ls : List Level} {no : Order}
    (bf : ℚ → ℚ → Bool) (hf : SideFifo heap side ls) (hr : refsOK heap side ls)
    (hq : no.filled_qty < no.quantity) :
    SideFifo (heap ++ [no]) side (levelPush bf no.price heap.length ls) := by
  obtain ⟨h1, h2, h3⟩ := hf
  refine ⟨levelPush_increasing bf _ _ ls h1 (fun l hl x hx => refsOK_lt hr hl hx), ?_, ?_⟩
  · intro l hl h hh o ho
    rcases levelPush_refs bf _ _ ls l hl h hh with ⟨rfl, _⟩ | ⟨l0, hl0, _, hx⟩
    · simp at ho
      subst ho
      exact hq
    · rw [List.getElem?_append_left (refsOK_lt hr hl0 hx)] at ho
      exact h2 l0 hl0 h hx o ho
  · intro h o ho hs hq1
    rcases getElem?_append_singleton ho with ho | ⟨rfl, rfl⟩
    · exact (levelPush_resting bf _ _ ls _ _).2 (Or.inr (h3 h o ho hs hq1))
    · exact (levelPush_resting bf _ _ ls _ _).2 (Or.inl ⟨rfl, rfl⟩)

theorem addOrder_fifo (b : OrderBook) (o : Order) (n : Int) (hv : Valid b) (hI : FifoInv b)
    (hq : o.filled_qty < o.quantity) : FifoInv (addOrder b o n).2 := by
  obtain ⟨hsort, hbf, haf⟩ := hI
  refine ⟨addOrder_sorted b o n hsort, ?_, ?_⟩
  · cases hside : o.side with
    | BUY =>
      rw [addOrder_buy b o n hside]
      exact @SideFifo.push _ _ _ { o with order_id := generateOrderId n b.order_id_counter_ }
        bidBefore hbf hv.1 hq
    | SELL =>
      rw [addOrder_sell b o n hside]
      exact SideFifo.append_other hbf hv.1 (by simp [hside])
  · cases hside : o.side with
    | BUY =>
      rw [addOrder_buy b o n hside]
      exact SideFifo.append_other haf hv.2 (by simp [hside])
    | SELL =>
      rw [addOrder_sell b o n hside]
      exact @SideFifo.push _ _ _ { o with order_id := generateOrderId n b.order_id_counter_ }
        askBefore haf hv.2 hq

theorem fifo_new (symbol : String) : FifoInv (OrderBook.new symbol) := by
  refine ⟨sorted_new symbol, ⟨?_, ?_, ?_⟩, ⟨?_, ?_, ?_⟩⟩ <;> simp [OrderBook.new]

theorem run_fifo (calls : List Call) (s : Session) (hv : Valid s.book) (hI : FifoInv s.book)
    (h0 : ∀ c ∈ calls, c.submitsPositive) :
    ∃ s1, s.run calls = some s1 ∧ Valid s1.book ∧ FifoInv s1.book := by
  refine run_inv (fun b _ => FifoInv b) Call.submitsPositive ?_ ?_ ?_ ?_ calls s hv hI h0
  · intro b reps o n hv hJ hC
    simp only [Call.submitsPositive] at hC
    exact addOrder_fifo b o n hv hJ (by rw [hC.1]; exact hC.2)
  · intro b reps id _ _ hC
    exact absurd hC (by simp [Call.submitsPositive])
  · intro b reps b1 hv hJ hs
    exact hs.fifo hv hJ
  · intro b reps b1 t hv hJ hs
    exact hs.fifo hv hJ

/-- In a book that holds exactly the unfilled orders in FIFO levels, the trade of an
iteration pairs the best-priced, oldest unfilled BUY with the best-priced, oldest unfilled
SELL. -/
theorem trade_priority (b b1 : OrderBook) (t : Trade) (hv : Valid b) (hI : FifoInv b)
    (ht : matchBody b = some (LoopStep.trade b1 t)) :
    ∃ bo so, b.heap[t.buy_order]? = some bo ∧ b.heap[t.sell_order]? = some so ∧
      bo.side = Side.BUY ∧ so.side = Side.SELL ∧
      bo.filled_qty < bo.quantity ∧ so.filled_qty < so.quantity ∧
      (∀ h o, b.heap[h]? = some o → o.side = Side.BUY → o.filled_qty < o.quantity →
        o.price < bo.price ∨ (o.price = bo.price ∧ t.buy_order ≤ h)) ∧
      (∀ h o, b.heap[h]? = some o → o.side = Side.SELL → o.filled_qty < o.quantity →
        so.price < o.price ∨ (o.price = so.price ∧ t.sell_order ≤ h)) := by
  obtain ⟨st, hst, hspec⟩ := matchBody_spec b hv
  rw [ht] at hst
  cases hst
  obtain ⟨hsort, ⟨hb1, hb2, hb3⟩, ⟨ha1, ha2, ha3⟩⟩ := hI
  cases hspec with
  | trade pb pa hb ha bt at1 brest arest bo so hbids hasks hlt hbo hso hne hbs hss hbp hsp =>
    refine ⟨bo, so, hbo, hso, hbs, hss, ?_, ?_, ?_, ?_⟩
    · exact hb2 (pb, hb :: bt) (by simp [hbids]) hb (by simp) bo hbo
    · exact ha2 (pa, ha :: at1) (by simp [hasks]) ha (by simp) so hso
    · intro h o ho hs hq
      obtain ⟨l, hl, hp, hh⟩ := hb3 h o ho hs hq
      rw [hbids] at hl
      rcases List.mem_cons.1 hl with rfl | hl
      · right
        refine ⟨by rw [hbp]; exact hp.symm, ?_⟩
        rcases List.mem_cons.1 hh with rfl | hh
        · exact Nat.le_refl _
        · have := hb1 (pb, hb :: bt) (by simp [hbids])
          simp only [List.pairwise_cons] at this
          exact Nat.le_of_lt (this.1 h hh)
      · left
        have := hsort.1
        rw [hbids] at this
        simp only [List.map_cons, List.pairwise_cons, List.mem_map] at this
        rw [hbp, ← hp]
        exact this.1 l.1 ⟨l, hl, rfl⟩
    · intro h o ho hs hq
      obtain ⟨l, hl, hp, hh⟩ := ha3 h o ho hs hq
      rw [hasks] at hl
      rcases List.mem_cons.1 hl with rfl | hl
      · right
        refine ⟨by rw [hsp]; exact hp.symm, ?_⟩
        rcases List.mem_cons.1 hh with rfl | hh
        · exact Nat.le_refl _
        · have := ha1 (pa, ha :: at1) (by simp [hasks])
          simp only [List.pairwise_cons] at this
          exact Nat.le_of_lt (this.1 h hh)
      · left
        have := hsort.2
        rw [hasks] at this
        simp only [List.map_cons, List.pairwise_cons, List.mem_map] at this
        rw [hsp, ← hp]
        exact this.1 l.1 ⟨l, hl, rfl⟩

theorem priorityCalls_positive : ∀ c ∈ priorityCalls, c.submitsPositive := by
  intro c hc
  simp only [priorityCalls, List.mem_cons, List.mem_singleton, List.not_mem_nil, or_false] at hc
  rcases hc with rfl | rfl | rfl | rfl <;> simp [Call.submitsPositive, limitOrder]

/-! ### Trade price -/

/-- The trade of an iteration is made at the first ask level's price, which is the lowest ask
price and the limit price of the sell order; the buy order's limit is at least that. -/
theorem trade_price (b b1 : OrderBook) (t : Trade) (hv : Valid b) (hs : Sorted b)
    (ht : matchBody b = some (LoopStep.trade b1 t)) :
    (∃ l ∈ b.asks_, l.1 = t.report.fill_price ∧ t.sell_order ∈ l.2) ∧
    (∀ l ∈ b.asks_, t.report.fill_price ≤ l.1) ∧
    (∃ so, b.heap[t.sell_order]? = some so ∧ so.side = Side.SELL ∧
      so.price = t.report.fill_price) ∧
    (∃ bo, b.heap[t.buy_order]? = some bo ∧ bo.side = Side.BUY ∧
      t.report.fill_price ≤ bo.price) := by
  obtain ⟨st, hst, hspec⟩ := matchBody_spec b hv
  rw [ht] at hst
  cases hst
  cases hspec with
  | trade pb pa hb ha bt at1 brest arest bo so hbids hasks hlt hbo hso hne hbs hss hbp hsp =>
    refine ⟨⟨(pa, ha :: at1), by simp [hasks], rfl, by simp⟩, ?_, ⟨so, hso, hss, hsp⟩,
      ⟨bo, hbo, hbs, ?_⟩⟩
    · intro l hl
      have := hs.2
      rw [hasks] at this hl
      simp only [List.map_cons, List.pairwise_cons, List.mem_map] at this
      rcases List.mem_cons.1 hl with rfl | hl
      · exact le_refl _
      · exact le_of_lt (this.1 l.1 ⟨l, hl, rfl⟩)
    · rw [hbp]
      exact not_lt.1 hlt

theorem matchOrders_uncrossed (b : OrderBook) (hu : Uncrossed b) :
    matchOrders b = some ([], b) := by
  have hbody : matchBody b = some LoopStep.exit := by
    rcases hbids : b.bids_ with _ | ⟨⟨pb, bos⟩, brest⟩
    · simp [matchBody, hbids]
    rcases hasks : b.asks_ with _ | ⟨⟨pa, aos⟩, arest⟩
    · simp [matchBody, hbids, hasks]
    rcases hu with h | h | h
    · simp [hbids] at h
    · simp [hasks] at h
    · simp only [getBestBid, getBestAsk, hbids, hasks] at h
      simp [matchBody, hbids, hasks, h]
  obtain ⟨n, hn⟩ : ∃ n, matchFuel b = n + 1 := ⟨_, rfl⟩
  simp [matchOrders, hn, matchLoop, hbody]

theorem matchOrders_trade_price (b : OrderBook) (hv : Valid b) (hs : Sorted b) :
    ∃ rs b1, matchOrders b = some (rs, b1) ∧
      ∀ r ∈ rs, ∃ k bk bk1 t, matchIter k b = some bk ∧
        matchBody bk = some (LoopStep.trade bk1 t) ∧ t.report = r ∧
        (∃ l ∈ bk.asks_, l.1 = r.fill_price ∧ t.sell_order ∈ l.2) ∧
        (∀ l ∈ bk.asks_, r.fill_price ≤ l.1) ∧
        (∃ so, bk.heap[t.sell_order]? = some so ∧ so.side = Side.SELL ∧
          so.price = r.fill_price) ∧
        (∃ bo, bk.heap[t.buy_order]? = some bo ∧ bo.side = Side.BUY ∧
          r.fill_price ≤ bo.price) := by
  obtain ⟨rs, b1, hm, _, _, _⟩ := matchOrders_inv (fun _ _ => True)
    (fun _ _ _ _ _ _ => trivial) (fun _ _ _ _ _ _ _ => trivial) b hv trivial
  refine ⟨rs, b1, hm, ?_⟩
  intro r hr
  rcases matchLoop_reports _ b [] rs b1 hm r hr with h | ⟨k, bk, bk1, t, hk, hb, hrep⟩
  · simp at h
  · obtain ⟨hsk, hvk⟩ := matchIter_inv Sorted (fun b st _ hP hsp => hsp.sorted hP) k b bk hv hs hk
    refine ⟨k, bk, bk1, t, hk, hb, hrep, ?_⟩
    rw [← hrep]
    exact trade_price bk bk1 t hvk hsk hb

/-- After the loop every bid level is priced below every ask level, unless a side is empty. -/
theorem matchOrders_no_cross (b : OrderBook) (hv : Valid b) (hs : Sorted b) :
    ∃ rs b1, matchOrders b = some (rs, b1) ∧
      (b1.bids_ = [] ∨ b1.asks_ = [] ∨
        (getBestBid b1 < getBestAsk b1 ∧ ∀ lb ∈ b1.bids_, ∀ la ∈ b1.asks_, lb.1 < la.1)) := by
  obtain ⟨rs, b1, hm, hs1, _, hu⟩ := matchOrders_inv (fun b _ => Sorted b)
    (fun _ _ _ _ hI hsp => hsp.sorted hI) (fun _ _ _ _ _ hI hsp => hsp.sorted hI) b hv hs
  refine ⟨rs, b1, hm, ?_⟩
  rcases hu with h | h | h
  · exact Or.inl h
  · exact Or.inr (Or.inl h)
  · right; right
    refine ⟨h, ?_⟩
    intro lb hlb la hla
    rcases hbids : b1.bids_ with _ | ⟨⟨pb, bos⟩, brest⟩
    · simp [hbids] at hlb
    rcases hasks : b1.asks_ with _ | ⟨⟨pa, aos⟩, arest⟩
    · simp [hasks] at hla
    simp only [getBestBid, getBestAsk, hbids, hasks] at h
    have h1 := hs1.1
    have h2 := hs1.2
    rw [hbids] at h1 hlb
    rw [hasks] at h2 hla
    simp only [List.map_cons, List.pairwise_cons, List.mem_map] at h1 h2
    have hb : lb.1 ≤ pb := by
      rcases List.mem_cons.1 hlb with rfl | hlb
      · exact le_refl _
      · exact le_of_lt (h1.1 lb.1 ⟨lb, hlb, rfl⟩)
    have ha : pa ≤ la.1 := by
      rcases List.mem_cons.1 hla with rfl | hla
      · exact le_refl _
      · exact le_of_lt (h2.1 la.1 ⟨la, hla, rfl⟩)
    exact lt_of_le_of_lt hb (lt_of_lt_of_le h ha)

theorem run_sorted (calls : List Call) (s : Session) (hv : Valid s.book) (hI : Sorted s.book) :
    ∃ s1, s.run calls = some s1 ∧ Valid s1.book ∧ Sorted s1.book :=
  run_inv (fun b _ => Sorted b) (fun _ => True)
    (fun b _ o n _ hJ _ => addOrder_sorted b o n hJ)
    (fun b _ id _ hJ _ => cancelOrder_sorted b id hJ)
    (fun _ _ _ _ hJ hsp => hsp.sorted hJ)
    (fun _ _ _ _ _ hJ hsp => hsp.sorted hJ)
    calls s hv hI (fun _ _ => trivial)

/-- Every book reached from the empty book has valid references and maps in key order. -/
theorem reachable_wellformed (symbol : String) (calls : List Call) :
    ∃ s, run symbol calls = some s ∧ Valid s.book ∧ Sorted s.book :=
  run_sorted calls { book := OrderBook.new symbol, reports := [] } (valid_new symbol)
    (sorted_new symbol)

/-! ### Which quote an aggressor pays -/

theorem uncrossed_all (b : OrderBook) (hs : Sorted b) (hu : Uncrossed b) :
    ∀ lb ∈ b.bids_, ∀ la ∈ b.asks_, lb.1 < la.1 := by
  intro lb hlb la hla
  rcases hbids : b.bids_ with _ | ⟨⟨pb, bos⟩, brest⟩
  · simp [hbids] at hlb
  rcases hasks : b.asks_ with _ | ⟨⟨pa, aos⟩, arest⟩
  · simp [hasks] at hla
  rcases hu with h | h | h
  · simp [hbids] at h
  · simp [hasks] at h
  simp only [getBestBid, getBestAsk, hbids, hasks] at h
  have h1 := hs.1
  have h2 := hs.2
  rw [hbids] at h1 hlb
  rw [hasks] at h2 hla
  simp only [List.map_cons, List.pairwise_cons, List.mem_map] at h1 h2
  have hb : lb.1 ≤ pb := by
    rcases List.mem_cons.1 hlb with rfl | hlb
    · exact le_refl _
    · exact le_of_lt (h1.1 lb.1 ⟨lb, hlb, rfl⟩)
  have ha : pa ≤ la.1 := by
    rcases List.mem_cons.1 hla with rfl | hla
    · exact le_refl _
    · exact le_of_lt (h2.1 la.1 ⟨la, hla, rfl⟩)
  exact lt_of_le_of_lt hb (lt_of_lt_of_le h ha)

theorem StepSpec.crossOnlyAt {s : ℚ} {b : OrderBook} {st : LoopStep} (hs : StepSpec b st)
    (hI : CrossOnlyAt s b) : CrossOnlyAt s (st.book b) := by
  intro lb hlb la hla hne
  obtain ⟨lb0, hlb0, hpb, _⟩ := hs.bids_sub lb hlb
  obtain ⟨la0, hla0, hpa, _⟩ := hs.asks_sub la hla
  rw [hpb, hpa]
  exact hI lb0 hlb0 la0 hla0 (hpa ▸ hne)

theorem StepSpec.resting_asks {b : OrderBook} {st : LoopStep} (hs : StepSpec b st) (p : ℚ)
    (h : Nat) (hr : Resting (st.book b).asks_ p h) : Resting b.asks_ p h := by
  obtain ⟨l, hl, hp, hh⟩ := hr
  obtain ⟨l0, hl0, hp0, hs0⟩ := hs.asks_sub l hl
  exact ⟨l0, hl0, hp0 ▸ hp, hs0 h hh⟩

theorem trade_report_price {b b1 : OrderBook} {t : Trade}
    (hs : StepSpec b (LoopStep.trade b1 t)) :
    (∃ lb ∈ b.bids_, ∃ la ∈ b.asks_, la.1 = t.report.fill_price ∧ ¬ lb.1 < la.1) ∧
    Resting b.asks_ t.report.fill_price t.sell_order := by
  cases hs with
  | trade pb pa hb ha bt at1 brest arest bo so hbids hasks hlt hbo hso hne hbs hss hbp hsp =>
    exact ⟨⟨(pb, hb :: bt), by simp [hbids], (pa, ha :: at1), by simp [hasks], rfl, hlt⟩,
      ⟨(pa, ha :: at1), by simp [hasks], rfl, by simp⟩⟩

/-- A SELL added to an uncrossed book trades at its own limit price only. -/
theorem sell_aggressor_price (b : OrderBook) (o : Order) (n : Int) (hv : Valid b)
    (hs : Sorted b) (hu : Uncrossed b) (hside : o.side = Side.SELL) :
    ∃ rs b2, matchOrders (addOrder b o n).2 = some (rs, b2) ∧
      ∀ r ∈ rs, r.fill_price = o.price := by
  have hinit : CrossOnlyAt o.price (addOrder b o n).2 := by
    rw [addOrder_sell b o n hside]
    intro lb hlb la hla hne
    have hk : la.1 ∈ (levelPush askBefore o.price b.heap.length b.asks_).map Prod.fst :=
      List.mem_map.2 ⟨la, hla, rfl⟩
    rcases (levelPush_keys _ _ _ _ _).1 hk with h | h
    · exact absurd h hne
    · obtain ⟨la0, hla0, hp⟩ := List.mem_map.1 h
      rw [← hp]
      exact uncrossed_all b hs hu lb hlb la0 hla0
  obtain ⟨rs, b2, hm, hI, _, _⟩ := matchOrders_inv
    (fun bk reps => CrossOnlyAt o.price bk ∧ ∀ r ∈ reps, r.fill_price = o.price)
    (fun _ _ _ _ hI hsp => ⟨hsp.crossOnlyAt hI.1, hI.2⟩)
    (fun bk reps b1 t _ hI hsp => by
      refine ⟨hsp.crossOnlyAt hI.1, ?_⟩
      intro r hr
      rcases List.mem_append.1 hr with hr | hr
      · exact hI.2 r hr
      · simp at hr
        subst hr
        obtain ⟨⟨lb, hlb, la, hla, hp, hlt⟩, _⟩ := trade_report_price hsp
        by_contra hne
        exact hlt (hI.1 lb hlb la hla (hp ▸ hne)))
    (addOrder b o n).2 (addOrder_valid b o n hv) ⟨hinit, by simp⟩
  exact ⟨rs, b2, hm, hI.2⟩

/-- A BUY added to a book trades at the limit prices of SELL orders that were resting. -/
theorem buy_aggressor_price (b : OrderBook) (o : Order) (n : Int) (hv : Valid b)
    (hside : o.side = Side.BUY) :
    ∃ rs b2, matchOrders (addOrder b o n).2 = some (rs, b2) ∧
      ∀ r ∈ rs, ∃ h so, Resting b.asks_ r.fill_price h ∧ b.heap[h]? = some so ∧
        so.side = Side.SELL ∧ so.price = r.fill_price := by
  have hrest : ∀ p h, Resting b.asks_ p h →
      ∃ so, b.heap[h]? = some so ∧ so.side = Side.SELL ∧ so.price = p := by
    rintro p h ⟨l, hl, hp, hh⟩
    obtain ⟨so, hso, hss, hsp⟩ := refsOK_get hv.2 hl hh
    exact ⟨so, hso, hss, hsp.trans hp⟩
  obtain ⟨rs, b2, hm, hI, _, _⟩ := matchOrders_inv
    (fun bk reps => (∀ p h, Resting bk.asks_ p h → Resting b.asks_ p h) ∧
      ∀ r ∈ reps, ∃ h, Resting b.asks_ r.fill_price h)
    (fun _ _ _ _ hI hsp => ⟨fun p h hr => hI.1 p h (hsp.resting_asks p h hr), hI.2⟩)
    (fun bk reps b1 t _ hI hsp => by
      refine ⟨fun p h hr => hI.1 p h (hsp.resting_asks p h hr), ?_⟩
      intro r hr
      rcases List.mem_append.1 hr with hr | hr
      · exact hI.2 r hr
      · simp at hr
        subst hr
        exact ⟨t.sell_order, hI.1 _ _ (trade_report_price hsp).2⟩)
    (addOrder b o n).2 (addOrder_valid b o n hv)
    ⟨(by rw [addOrder_buy b o n hside]; exact fun p h hr => hr), by simp⟩
  refine ⟨rs, b2, hm, ?_⟩
  intro r hr
  obtain ⟨h, hres⟩ := hI.2 r hr
  obtain ⟨so, hso, hss, hsp⟩ := hrest _ _ hres
  exact ⟨h, so, hres, hso, hss, hsp⟩

/-! ### Two crossing orders -/

theorem run_buys (calls : List Call) (s : Session) (hs : Sorted s.book)
    (hasks : s.book.asks_ = [])
    (hc : ∀ c ∈ calls, ∃ o n, c = Call.addOrder o n ∧ o.side = Side.BUY) :
    ∃ s1, s.run calls = some s1 ∧ Sorted s1.book ∧ s1.book.asks_ = [] ∧
      s1.reports = s.reports ∧
      ∀ k, k ∈ s1.book.bids_.map Prod.fst ↔
        k ∈ s.book.bids_.map Prod.fst ∨ k ∈ (submitted calls).map Order.price := by
  induction calls generalizing s with
  | nil => exact ⟨s, rfl, hs, hasks, rfl, by simp [submitted]⟩
  | cons c cs ih =>
    obtain ⟨o, n, rfl, hside⟩ := hc _ (List.mem_cons_self _ _)
    have hb1 : (addOrder s.book o n).2.asks_ = [] := by
      rw [addOrder_buy _ _ _ hside]; exact hasks
    have hk1 : (addOrder s.book o n).2.bids_ =
        levelPush bidBefore o.price s.book.heap.length s.book.bids_ := by
      rw [addOrder_buy _ _ _ hside]
    obtain ⟨s1, h1, h2, h3, h4, h5⟩ := ih { s with book := (addOrder s.book o n).2 }
      (addOrder_sorted _ _ _ hs) hb1 (fun c h => hc c (List.mem_cons_of_mem _ h))
    refine ⟨s1, by simpa [Session.run, Session.call] using h1, h2, h3, h4, ?_⟩
    intro k
    rw [h5 k]
    simp only [hk1, levelPush_keys, submitted, List.filterMap_cons, Call.order?, List.map_cons,
      List.mem_cons]
    tauto

theorem length_eq_dedup_length {ks ps : List ℚ} (hnd : ks.Nodup) (h : ∀ k, k ∈ ks ↔ k ∈ ps) :
    ks.length = ps.dedup.length := by
  rw [← List.toFinset_card_of_nodup hnd, ← List.card_toFinset]
  congr 1
  ext k
  simp [h k]

theorem buys_only_book (symbol : String) (calls : List Call)
    (hc : ∀ c ∈ calls, ∃ o n, c = Call.addOrder o n ∧ o.side = Side.BUY) :
    ∃ s, run symbol calls = some s ∧ s.reports = [] ∧
      matchOrders s.book = some ([], s.book) ∧
      getBestAsk s.book = 0 ∧ getAskDepth s.book = 0 ∧
      getBidDepth s.book = ((submitted calls).map Order.price).dedup.length ∧
      (calls ≠ [] → getBestBid s.book ∈ (submitted calls).map Order.price ∧
        ∀ p ∈ (submitted calls).map Order.price, p ≤ getBestBid s.book) := by
  obtain ⟨s, hrun, hs, hasks, hrep, hk⟩ := run_buys calls
    { book := OrderBook.new symbol, reports := [] } (sorted_new symbol) rfl hc
  have hk1 : ∀ k, k ∈ s.book.bids_.map Prod.fst ↔ k ∈ (submitted calls).map Order.price := by
    intro k
    rw [hk k]
    simp [OrderBook.new]
  refine ⟨s, hrun, hrep, matchOrders_uncrossed _ (Or.inr (Or.inl hasks)),
    by simp [getBestAsk, hasks], by simp [getAskDepth, hasks], ?_, ?_⟩
  · have := length_eq_dedup_length (nodup_of_pairwise_gt hs.1) hk1
    simpa [getBidDepth] using this
  · intro hne
    have hsub : (submitted calls).map Order.price ≠ [] := by
      cases calls with
      | nil => exact absurd rfl hne
      | cons c cs =>
        obtain ⟨o, n, rfl, _⟩ := hc _ (List.mem_cons_self _ _)
        simp [submitted, Call.order?]
    rcases hbids : s.book.bids_ with _ | ⟨⟨pb, bos⟩, brest⟩
    · exfalso
      obtain ⟨p, hp⟩ := List.exists_mem_of_ne_nil _ hsub
      have := (hk1 p).2 hp
      simp [hbids] at this
    · have hsorted := hs.1
      rw [hbids] at hsorted
      simp only [List.map_cons, List.pairwise_cons] at hsorted
      simp only [getBestBid, hbids]
      refine ⟨(hk1 pb).1 (by simp [hbids]), ?_⟩
      intro p hp
      have := (hk1 p).2 hp
      rw [hbids] at this
      simp only [List.map_cons, List.mem_cons] at this
      rcases this with rfl | h
      · exact le_refl _
      · exact le_of_lt (hsorted.1 p h)

theorem scenarioC_buys : ∀ c ∈ scenarioC, ∃ o n, c = Call.addOrder o n ∧ o.side = Side.BUY := by
  intro c hc
  simp only [scenarioC, List.mem_singleton] at hc
  exact ⟨_, _, hc, rfl⟩

/-! ### Order ids are determined by the counter -/

theorem decDigits_lt (fuel n : Nat) : ∀ d ∈ decDigits fuel n, d < 10 := by
  induction fuel generalizing n with
  | zero => simp [decDigits]
  | succ f ih =>
    intro d hd
    simp only [decDigits] at hd
    split at hd
    · simp at hd
      omega
    · rcases List.mem_cons.1 hd with rfl | hd
      · exact Nat.mod_lt _ (by decide)
      · exact ih _ d hd

theorem ofDigits_decDigits (fuel n : Nat) (h : n < fuel) :
    Nat.ofDigits 10 (decDigits fuel n) = n := by
  induction fuel generalizing n with
  | zero => omega
  | succ f ih =>
    simp only [decDigits]
    split
    · simp [Nat.ofDigits]
    · rename_i h10
      rw [Nat.ofDigits_cons, ih (n / 10) (by omega)]
      have := Nat.mod_add_div n 10
      simpa using this

theorem digitChar_inj (a b : Nat) (ha : a < 10) (hb : b < 10)
    (h : Nat.digitChar a = Nat.digitChar b) : a = b := by
  interval_cases a <;> interval_cases b <;> first | rfl | (exact absurd h (by decide))

theorem digitChar_ne_underscore (a : Nat) (ha : a < 10) : Nat.digitChar a ≠ '_' := by
  interval_cases a <;> decide

theorem map_digitChar_inj : ∀ (l1 l2 : List Nat), (∀ d ∈ l1, d < 10) → (∀ d ∈ l2, d < 10) →
    l1.map Nat.digitChar = l2.map Nat.digitChar → l1 = l2
  | [], [], _, _, _ => rfl
  | [], _ :: _, _, _, h => by simp at h
  | _ :: _, [], _, _, h => by simp at h
  | a :: l1, b :: l2, h1, h2, h => by
    simp only [List.map_cons, List.cons.injEq] at h
    rw [digitChar_inj a b (h1 a (List.mem_cons_self _ _)) (h2 b (List.mem_cons_self _ _)) h.1,
      map_digitChar_inj l1 l2 (fun d hd => h1 d (List.mem_cons_of_mem _ hd))
        (fun d hd => h2 d (List.mem_cons_of_mem _ hd)) h.2]

theorem decimal_inj (a b : Nat) (h : decimal a = decimal b) : a = b := by
  unfold decimal at h
  have h1 := map_digitChar_inj _ _
    (fun d hd => decDigits_lt (a + 1) a d (List.mem_reverse.1 hd))
    (fun d hd => decDigits_lt (b + 1) b d (List.mem_reverse.1 hd)) h
  have h2 := List.reverse_injective h1
  have := congrArg (Nat.ofDigits 10) h2
  rwa [ofDigits_decDigits _ _ (Nat.lt_succ_self a), ofDigits_decDigits _ _ (Nat.lt_succ_self b)]
    at this

theorem underscore_not_mem_decimal (n : Nat) : '_' ∉ decimal n := by
  unfold decimal
  intro h
  obtain ⟨d, hd, he⟩ := List.mem_map.1 h
  exact digitChar_ne_underscore d (decDigits_lt _ _ d (List.mem_reverse.1 hd)) he

theorem suffix_after_last {c : Char} : ∀ (a a1 d d1 : List Char), c ∉ d → c ∉ d1 →
    a ++ c :: d = a1 ++ c :: d1 → d = d1
  | [], [], d, d1, _, _, h => by simpa using h
  | [], x :: a1, d, d1, hd, _, h => by
    simp only [List.nil_append, List.cons_append, List.cons.injEq] at h
    exact absurd (h.2 ▸ (by simp : c ∈ a1 ++ c :: d1)) hd
  | x :: a, [], d, d1, _, hd1, h => by
    simp only [List.nil_append, List.cons_append, List.cons.injEq] at h
    exact absurd (h.2 ▸ (by simp : c ∈ a ++ c :: d)) hd1
  | x :: a, y :: a1, d, d1, hd, hd1, h => by
    simp only [List.cons_append, List.cons.injEq] at h
    exact suffix_after_last a a1 d d1 hd hd1 h.2

/-- Two ids with different counter values differ, whatever the clock readings. -/
theorem generateOrderId_counter (n n1 : Int) (c c1 : Nat)
    (h : generateOrderId n c = generateOrderId n1 c1) : c = c1 := by
  unfold generateOrderId at h
  have h1 := congrArg String.data h
  simp only [List.append_assoc, List.singleton_append] at h1
  have h2 := suffix_after_last (c := '_') ('O' :: 'R' :: 'D' :: padLeft16 (decimalInt n))
    ('O' :: 'R' :: 'D' :: padLeft16 (decimalInt n1)) (decimal c) (decimal c1)
    (underscore_not_mem_decimal c) (underscore_not_mem_decimal c1) (by simpa using h1)
  exact decimal_inj c c1 h2

/-! ### The id table -/

theorem tableFind_eq_none (id : String) (t : List (String × Nat)) :
    tableFind id t = none ↔ id ∉ t.map Prod.fst := by
  induction t with
  | nil => simp [tableFind]
  | cons a rest ih =>
    obtain ⟨k, v⟩ := a
    simp only [tableFind, List.map_cons, List.mem_cons, not_or]
    split
    · rename_i hk
      simp [hk]
    · rename_i hk
      rw [ih]
      exact ⟨fun h => ⟨fun e => hk e.symm, h⟩, fun h => h.2⟩

theorem tableAssign_keys (id : String) (h : Nat) (t : List (String × Nat)) (k : String) :
    k ∈ (tableAssign id h t).map Prod.fst ↔ k = id ∨ k ∈ t.map Prod.fst := by
  induction t with
  | nil => simp [tableAssign]
  | cons a rest ih =>
    obtain ⟨k1, v⟩ := a
    simp only [tableAssign]
    split
    · rename_i hk
      subst hk
      simp
    · simp only [List.map_cons, List.mem_cons, ih]
      tauto

theorem tableAssign_nodup (id : String) (h : Nat) (t : List (String × Nat))
    (hn : (t.map Prod.fst).Nodup) : ((tableAssign id h t).map Prod.fst).Nodup := by
  induction t with
  | nil => simp [tableAssign]
  | cons a rest ih =>
    obtain ⟨k1, v⟩ := a
    simp only [List.map_cons, List.nodup_cons] at hn
    simp only [tableAssign]
    split
    · simpa using hn
    · rename_i hk
      simp only [List.map_cons, List.nodup_cons]
      refine ⟨?_, ih hn.2⟩
      intro hmem
      rcases (tableAssign_keys id h rest k1).1 hmem with e | e
      · exact hk e
      · exact hn.1 e

theorem tableErase_subset (id : String) (t : List (String × Nat)) (k : String)
    (h : k ∈ (tableErase id t).map Prod.fst) : k ∈ t.map Prod.fst := by
  induction t with
  | nil => simp [tableErase] at h
  | cons a rest ih =>
    obtain ⟨k1, v⟩ := a
    simp only [tableErase] at h
    split at h
    · exact List.mem_cons_of_mem _ h
    · simp only [List.map_cons, List.mem_cons] at h ⊢
      rcases h with e | e
      · exact Or.inl e
      · exact Or.inr (ih e)

theorem tableErase_keep (id : String) (t : List (String × Nat)) (k : String) (hne : k ≠ id)
    (h : k ∈ t.map Prod.fst) : k ∈ (tableErase id t).map Prod.fst := by
  induction t with
  | nil => simp at h
  | cons a rest ih =>
    obtain ⟨k1, v⟩ := a
    simp only [List.map_cons, List.mem_cons] at h
    simp only [tableErase]
    split
    · rename_i hk
      rcases h with e | e
      · exact absurd (e.trans hk) hne
      · exact e
    · simp only [List.map_cons, List.mem_cons]
      rcases h with e | e
      · exact Or.inl e
      · exact Or.inr (ih e)

theorem tableErase_nodup (id : String) (t : List (String × Nat))
    (hn : (t.map Prod.fst).Nodup) : ((tableErase id t).map Prod.fst).Nodup := by
  induction t with
  | nil => simp [tableErase]
  | cons a rest ih =>
    obtain ⟨k1, v⟩ := a
    simp only [List.map_cons, List.nodup_cons] at hn
    simp only [tableErase]
    split
    · exact hn.2
    · simp only [List.map_cons, List.nodup_cons]
      exact ⟨fun hmem => hn.1 (tableErase_subset id rest k1 hmem), ih hn.2⟩

theorem tableErase_gone (id : String) (t : List (String × Nat))
    (hn : (t.map Prod.fst).Nodup) : id ∉ (tableErase id t).map Prod.fst := by
  induction t with
  | nil => simp [tableErase]
  | cons a rest ih =>
    obtain ⟨k1, v⟩ := a
    simp only [List.map_cons, List.nodup_cons] at hn
    simp only [tableErase]
    split
    · rename_i hk
      subst hk
      exact hn.1
    · rename_i hk
      simp only [List.map_cons, List.mem_cons, not_or]
      exact ⟨fun e => hk e.symm, ih hn.2⟩

theorem addOrder_orders (b : OrderBook) (o : Order) (n : Int) :
    (addOrder b o n).2.orders_ =
        tableAssign (generateOrderId n b.order_id_counter_) b.heap.length b.orders_ ∧
      (addOrder b o n).2.order_id_counter_ = b.order_id_counter_ + 1 ∧
      (addOrder b o n).1.order_id = generateOrderId n b.order_id_counter_ := by
  by_cases h : o.side = Side.BUY <;> simp [addOrder, h]

theorem tableErase_absent (id : String) (t : List (String × Nat))
    (hk : id ∉ t.map Prod.fst) : tableErase id t = t := by
  induction t with
  | nil => rfl
  | cons a rest ih =>
    obtain ⟨k1, v⟩ := a
    simp only [List.map_cons, List.mem_cons, not_or] at hk
    simp only [tableErase]
    rw [if_neg (fun e => hk.1 e.symm), ih hk.2]

theorem cancelOrder_orders (b : OrderBook) (id : String) :
    (cancelOrder b id).2.orders_ = tableErase id b.orders_ ∧
      (cancelOrder b id).2.order_id_counter_ = b.order_id_counter_ := by
  cases hf : tableFind id b.orders_ with
  | none =>
    have := tableErase_absent id b.orders_ ((tableFind_eq_none id b.orders_).1 hf)
    simp [cancelOrder, hf, this]
  | some h1 =>
    cases hg : b.heap[h1]? with
    | none => simp [cancelOrder, hf, hg]
    | some o => simp [cancelOrder, hf, hg]

theorem cancelOrder_flag (b : OrderBook) (id : String) :
    (cancelOrder b id).1 = true ↔ id ∈ b.orders_.map Prod.fst := by
  cases hf : tableFind id b.orders_ with
  | none =>
    have hk := (tableFind_eq_none id b.orders_).1 hf
    simp only [cancelOrder, hf]
    simp [hk]
  | some h1 =>
    have hk : id ∈ b.orders_.map Prod.fst := by
      by_contra hc
      rw [(tableFind_eq_none id b.orders_).2 hc] at hf
      cases hf
    cases hg : b.heap[h1]? with
    | none => simp only [cancelOrder, hf, hg]; simp [hk]
    | some o => simp only [cancelOrder, hf, hg]; simp [hk]

theorem cancelOrder_absent (b : OrderBook) (id : String) (h : tableFind id b.orders_ = none) :
    cancelOrder b id = (false, b) := by
  simp [cancelOrder, h]

theorem StepSpec.orders {b : OrderBook} {st : LoopStep} (hs : StepSpec b st) :
    (st.book b).orders_ = b.orders_ ∧ (st.book b).order_id_counter_ = b.order_id_counter_ := by
  cases hs with
  | exit _ => exact ⟨rfl, rfl⟩
  | prune pb pa bos aos brest arest hbids hasks hlt hemp => exact ⟨rfl, rfl⟩
  | trade pb pa hb ha bt at1 brest arest bo so hbids hasks hlt hbo hso hne hbs hss hbp hsp =>
    exact ⟨rfl, rfl⟩

theorem StepSpec.orders_prune {b b1 : OrderBook} (hs : StepSpec b (LoopStep.prune b1)) :
    b1.orders_ = b.orders_ ∧ b1.order_id_counter_ = b.order_id_counter_ := hs.orders

theorem StepSpec.orders_trade {b b1 : OrderBook} {t : Trade}
    (hs : StepSpec b (LoopStep.trade b1 t)) :
    b1.orders_ = b.orders_ ∧ b1.order_id_counter_ = b.order_id_counter_ := hs.orders

theorem run_table (calls : List Call) (s : Session) (hv : Valid s.book) (hI : TableInv s.book) :
    ∃ s1, s.run calls = some s1 ∧ Valid s1.book ∧ TableInv s1.book :=
  run_inv (fun b _ => TableInv b) (fun _ => True)
    (fun b _ o n _ hJ _ => by
      show TableInv _
      unfold TableInv
      rw [(addOrder_orders b o n).1]
      exact tableAssign_nodup _ _ _ hJ)
    (fun b _ id _ hJ _ => by
      show TableInv _
      unfold TableInv
      rw [(cancelOrder_orders b id).1]
      exact tableErase_nodup _ _ hJ)
    (fun _ _ _ _ hJ hsp => by show TableInv _; unfold TableInv; rw [hsp.orders_prune.1]; exact hJ)
    (fun _ _ _ _ _ hJ hsp => by show TableInv _; unfold TableInv; rw [hsp.orders_trade.1]; exact hJ)
    calls s hv hI (fun _ _ => trivial)

theorem run_live (n : Int) (c : Nat) (calls : List Call) (s : Session) (hv : Valid s.book)
    (hI : IdLive n c s.book) (hc : ∀ c1 ∈ calls, c1 ≠ Call.cancelOrder (generateOrderId n c)) :
    ∃ s1, s.run calls = some s1 ∧ Valid s1.book ∧ IdLive n c s1.book :=
  run_inv (fun b _ => IdLive n c b) (fun c1 => c1 ≠ Call.cancelOrder (generateOrderId n c))
    (fun b _ o n1 _ hJ _ => by
      show IdLive _ _ _
      unfold IdLive TableInv
      rw [(addOrder_orders b o n1).1, (addOrder_orders b o n1).2.1]
      exact ⟨tableAssign_nodup _ _ _ hJ.1, (tableAssign_keys _ _ _ _).2 (Or.inr hJ.2.1),
        Nat.lt_succ_of_lt hJ.2.2⟩)
    (fun b _ id _ hJ hC => by
      show IdLive _ _ _
      unfold IdLive TableInv
      rw [(cancelOrder_orders b id).1, (cancelOrder_orders b id).2]
      exact ⟨tableErase_nodup _ _ hJ.1,
        tableErase_keep _ _ _ (fun e => hC (by rw [e])) hJ.2.1, hJ.2.2⟩)
    (fun _ _ _ _ hJ hsp => by
      show IdLive _ _ _
      unfold IdLive TableInv
      rw [hsp.orders_prune.1, hsp.orders_prune.2]
      exact hJ)
    (fun _ _ _ _ _ hJ hsp => by
      show IdLive _ _ _
      unfold IdLive TableInv
      rw [hsp.orders_trade.1, hsp.orders_trade.2]
      exact hJ)
    calls s hv hI hc

theorem run_gone (n : Int) (c : Nat) (calls : List Call) (s : Session) (hv : Valid s.book)
    (hI : IdGone n c s.book) :
    ∃ s1, s.run calls = some s1 ∧ Valid s1.book ∧ IdGone n c s1.book :=
  run_inv (fun b _ => IdGone n c b) (fun _ => True)
    (fun b _ o n1 _ hJ _ => by
      show IdGone _ _ _
      unfold IdGone
      rw [(addOrder_orders b o n1).1, (addOrder_orders b o n1).2.1]
      refine ⟨?_, Nat.lt_succ_of_lt hJ.2⟩
      intro hmem
      rcases (tableAssign_keys _ _ _ _).1 hmem with e | e
      · have := generateOrderId_counter _ _ _ _ e
        have := hJ.2
        omega
      · exact hJ.1 e)
    (fun b _ id _ hJ _ => by
      show IdGone _ _ _
      unfold IdGone
      rw [(cancelOrder_orders b id).1, (cancelOrder_orders b id).2]
      exact ⟨fun hmem => hJ.1 (tableErase_subset _ _ _ hmem), hJ.2⟩)
    (fun _ _ _ _ hJ hsp => by
      show IdGone _ _ _
      unfold IdGone
      rw [hsp.orders_prune.1, hsp.orders_prune.2]
      exact hJ)
    (fun _ _ _ _ _ hJ hsp => by
      show IdGone _ _ _
      unfold IdGone
      rw [hsp.orders_trade.1, hsp.orders_trade.2]
      exact hJ)
    calls s hv hI (fun _ _ => trivial)

theorem Session.run_append (s : Session) (a b : List Call) :
    s.run (a ++ b) = (s.run a).bind fun s1 => s1.run b := by
  induction a generalizing s with
  | nil => simp [Session.run]
  | cons c cs ih =>
    simp only [List.cons_append, Session.run]
    cases s.call c with
    | none => rfl
    | some s1 => simpa using ih s1

theorem cancel_issued_id (symbol : String) (calls1 : List Call) (o : Order) (n : Int)
    (calls2 calls3 : List Call) :
    ∃ s1, run symbol calls1 = some s1 ∧
      (Call.cancelOrder (addOrder s1.book o n).1.order_id ∉ calls2 →
        ∃ s2 s3,
          run symbol (calls1 ++ Call.addOrder o n :: calls2) = some s2 ∧
          (cancelOrder s2.book (addOrder s1.book o n).1.order_id).1 = true ∧
          run symbol (calls1 ++ Call.addOrder o n :: calls2 ++
            Call.cancelOrder (addOrder s1.book o n).1.order_id :: calls3) = some s3 ∧
          (cancelOrder s3.book (addOrder s1.book o n).1.order_id).1 = false) := by
  obtain ⟨s1, hs1, hv1, ht1⟩ := run_table calls1 { book := OrderBook.new symbol, reports := [] }
    (valid_new symbol) (by simp [TableInv, OrderBook.new])
  refine ⟨s1, hs1, ?_⟩
  obtain ⟨ho1, ho2, ho3⟩ := addOrder_orders s1.book o n
  rw [ho3]
  intro hc2
  have hlive : IdLive n s1.book.order_id_counter_ (addOrder s1.book o n).2 := by
    unfold IdLive TableInv
    rw [ho1, ho2]
    exact ⟨tableAssign_nodup _ _ _ ht1, (tableAssign_keys _ _ _ _).2 (Or.inl rfl),
      Nat.lt_succ_self _⟩
  obtain ⟨s2, hs2, hv2, hl2⟩ := run_live n s1.book.order_id_counter_ calls2
    { s1 with book := (addOrder s1.book o n).2 } (addOrder_valid _ _ _ hv1) hlive
    (fun c1 h1 e => hc2 (e ▸ h1))
  have hgone : IdGone n s1.book.order_id_counter_
      (cancelOrder s2.book (generateOrderId n s1.book.order_id_counter_)).2 := by
    unfold IdGone
    rw [(cancelOrder_orders _ _).1, (cancelOrder_orders _ _).2]
    exact ⟨tableErase_gone _ _ hl2.1, hl2.2.2⟩
  obtain ⟨s3, hs3, _, hg3⟩ := run_gone n s1.book.order_id_counter_ calls3
    { s2 with book := (cancelOrder s2.book (generateOrderId n s1.book.order_id_counter_)).2 }
    (cancelOrder_valid _ _ hv2) hgone
  have hrun2 : run symbol (calls1 ++ Call.addOrder o n :: calls2) = some s2 := by
    unfold run
    rw [Session.run_append, hs1]
    simpa [Session.run, Session.call] using hs2
  refine ⟨s2, s3, hrun2, (cancelOrder_flag _ _).2 hl2.2.1, ?_, ?_⟩
  · unfold run at hrun2 ⊢
    rw [Session.run_append, hrun2]
    simpa [Session.run, Session.call] using hs3
  · have := (cancelOrder_flag s3.book (generateOrderId n s1.book.order_id_counter_)).not.2 hg3.1
    simpa using this

/-! ### The arena lists the submitted orders -/

theorem map_set_of_eq {α : Type} (f : Order → α) (heap : List Order) (i : Nat) (o o1 : Order)
    (hi : heap[i]? = some o) (hf : f o1 = f o) : (heap.set i o1).map f = heap.map f := by
  apply List.ext_getElem?
  intro h
  simp only [List.getElem?_map]
  exact map_getElem?_set f heap i o o1 hi hf h

theorem StepSpec.submittedAs {b : OrderBook} {st : LoopStep} (hs : StepSpec b st) :
    (st.book b).heap.map Order.submittedAs = b.heap.map Order.submittedAs := by
  cases hs with
  | exit _ => rfl
  | prune pb pa bos aos brest arest hbids hasks hlt hemp => rfl
  | trade pb pa hb ha bt at1 brest arest bo so hbids hasks hlt hbo hso hne hbs hss hbp hsp =>
    simp only [LoopStep.book]
    have hso1 : (b.heap.set hb (fillOrder bo (min (bo.quantity - bo.filled_qty)
        (so.quantity - so.filled_qty))))[ha]? = some so := by
      rw [List.getElem?_set_ne hne]; exact hso
    rw [map_set_of_eq Order.submittedAs _ ha so (fillOrder so _) hso1 rfl,
      map_set_of_eq Order.submittedAs _ hb bo (fillOrder bo _) hbo rfl]

theorem cancelOrder_submittedAs (b : OrderBook) (id : String) :
    (cancelOrder b id).2.heap.map Order.submittedAs = b.heap.map Order.submittedAs := by
  cases hf : tableFind id b.orders_ with
  | none => simp [cancelOrder, hf]
  | some h1 =>
    cases hg : b.heap[h1]? with
    | none => simp [cancelOrder, hf, hg]
    | some o =>
      simp only [cancelOrder, hf, hg]
      refine map_set_of_eq _ _ h1 o _ hg ?_
      rfl

/-- After any sequence of calls the arena holds the orders submitted so far, in submission
order, with the fields fixed at submission unchanged. -/
theorem run_submitted (calls : List Call) (s : Session) (hv : Valid s.book) :
    ∃ s1, s.run calls = some s1 ∧ Valid s1.book ∧
      s1.book.heap.map Order.submittedAs =
        s.book.heap.map Order.submittedAs ++ (submitted calls).map Order.submittedAs := by
  induction calls generalizing s with
  | nil => exact ⟨s, rfl, hv, by simp [submitted]⟩
  | cons c cs ih =>
    cases c with
    | addOrder o n =>
      obtain ⟨s1, h1, h2, h3⟩ := ih { s with book := (addOrder s.book o n).2 }
        (addOrder_valid _ _ _ hv)
      refine ⟨s1, by simpa [Session.run, Session.call] using h1, h2, ?_⟩
      rw [h3, addOrder_heap]
      simp [submitted, Call.order?, Order.submittedAs]
    | cancelOrder id =>
      obtain ⟨s1, h1, h2, h3⟩ := ih { s with book := (cancelOrder s.book id).2 }
        (cancelOrder_valid _ _ hv)
      refine ⟨s1, by simpa [Session.run, Session.call] using h1, h2, ?_⟩
      rw [h3, cancelOrder_submittedAs]
      simp [submitted, Call.order?]
    | matchOrders =>
      obtain ⟨rs, b1, hm, hI, hv1, _⟩ := matchOrders_inv
        (fun b _ => b.heap.map Order.submittedAs = s.book.heap.map Order.submittedAs)
        (fun _ _ _ _ hI hsp => hsp.submittedAs.trans hI)
        (fun _ _ _ _ _ hI hsp => hsp.submittedAs.trans hI) s.book hv rfl
      obtain ⟨s1, h1, h2, h3⟩ := ih { book := b1, reports := s.reports ++ rs } hv1
      refine ⟨s1, by simpa [Session.run, Session.call, hm] using h1, h2, ?_⟩
      rw [h3, hI]
      simp [submitted, Call.order?]

theorem arena_is_submitted (symbol : String) (calls : List Call) (s : Session)
    (hs : run symbol calls = some s) :
    s.book.heap.map Order.submittedAs = (submitted calls).map Order.submittedAs := by
  obtain ⟨s1, h1, _, h3⟩ := run_submitted calls { book := OrderBook.new symbol, reports := [] }
    (valid_new symbol)
  have e : s1 = s := Option.some.inj (h1.symm.trans hs)
  subst e
  simpa [OrderBook.new] using h3

/-! ### Position admission -/

theorem activeCount_le_length (m : MoversStrategy) :
    activeCount m ≤ m.active_positions_.length :=
  List.length_filter_le _ _

theorem closeAt_length (m : MoversStrategy) (i : Nat) :
    (closeAt m i).active_positions_.length = m.active_positions_.length := by
  unfold closeAt
  split <;> simp

theorem forceCloseAll_length (m : MoversStrategy) :
    (forceCloseAll m).active_positions_.length = m.active_positions_.length := by
  simp [forceCloseAll]

theorem step_config (m : MoversStrategy) (op : StrategyOp) : (m.step op).config_ = m.config_ := by
  cases op with
  | attempt symbol gain_pct price order_id now =>
    simp only [MoversStrategy.step, buyAttempt]
    split <;> rfl
  | close i =>
    simp only [MoversStrategy.step, closeAt]
    split <;> rfl
  | forceCloseAll => rfl

theorem intToSizeT_le (i : Int) (h0 : 0 ≤ i) : (intToSizeT i : Int) ≤ i := by
  unfold intToSizeT
  rw [Int.toNat_of_nonneg (Int.emod_nonneg _ (by norm_num))]
  omega

/-- The number of positions ever created is at most the cap as `shouldBuy` reads it. -/
theorem step_length_le (m : MoversStrategy) (op : StrategyOp)
    (hI : m.active_positions_.length ≤ intToSizeT m.config_.max_positions) :
    (m.step op).active_positions_.length ≤ intToSizeT (m.step op).config_.max_positions := by
  rw [step_config]
  cases op with
  | attempt symbol gain_pct price order_id now =>
    simp only [MoversStrategy.step, buyAttempt]
    split
    · rename_i hb
      have hlt : ¬ m.active_positions_.length ≥ intToSizeT m.config_.max_positions := by
        intro hge
        simp [shouldBuy, hge] at hb
      simp only [createPosition, List.length_append, List.length_singleton]
      omega
    · exact hI
  | close i =>
    simp only [MoversStrategy.step]
    rw [closeAt_length]
    exact hI
  | forceCloseAll =>
    simp only [MoversStrategy.step]
    rw [forceCloseAll_length]
    exact hI

theorem runOps_length_le (ops : List StrategyOp) (m : MoversStrategy)
    (hI : m.active_positions_.length ≤ intToSizeT m.config_.max_positions) :
    (m.runOps ops).active_positions_.length ≤ intToSizeT m.config_.max_positions ∧
      (m.runOps ops).config_ = m.config_ := by
  induction ops generalizing m with
  | nil => exact ⟨hI, rfl⟩
  | cons op rest ih =>
    have hc := step_config m op
    have := ih (m.step op) (step_length_le m op hI)
    simp only [MoversStrategy.runOps, List.foldl_cons] at this ⊢
    rw [hc] at this
    exact this

theorem active_le_cap (config : MoversConfig) (ops : List StrategyOp)
    (h0 : 0 ≤ config.max_positions) :
    (activeCount ((MoversStrategy.new config).runOps ops) : Int) ≤ config.max_positions := by
  have h := (runOps_length_le ops (MoversStrategy.new config)
    (by simp [MoversStrategy.new])).1
  have h2 := activeCount_le_length ((MoversStrategy.new config).runOps ops)
  have h3 : (activeCount ((MoversStrategy.new config).runOps ops) : Int) ≤
      (intToSizeT config.max_positions : Int) := by
    have : activeCount ((MoversStrategy.new config).runOps ops) ≤
        intToSizeT config.max_positions := le_trans h2 h
    exact_mod_cast this
  exact le_trans h3 (intToSizeT_le _ h0)

theorem shouldBuy_false_of_purchased (m : MoversStrategy) (symbol : String) (gain_pct : ℚ)
    (h : symbol ∈ m.purchased_today_) : shouldBuy m symbol gain_pct = false := by
  unfold shouldBuy
  split
  · rfl
  · split
    · rfl
    · simp [h]

theorem shouldBuy_false_of_active (m : MoversStrategy) (symbol : String) (gain_pct : ℚ)
    (h : ∃ p ∈ m.active_positions_, p.symbol = symbol ∧ p.is_active = true) :
    shouldBuy m symbol gain_pct = false := by
  obtain ⟨p, hp, hs, ha⟩ := h
  have : m.active_positions_.any (fun pos => pos.symbol = symbol && pos.is_active) = true :=
    List.any_eq_true.2 ⟨p, hp, by simp [hs, ha]⟩
  simp [shouldBuy, this]

theorem mem_setInsert (symbol x : String) (s : List String) :
    x ∈ setInsert symbol s ↔ x = symbol ∨ x ∈ s := by
  unfold setInsert
  split
  · rename_i h
    constructor
    · exact Or.inr
    · rintro (rfl | h1)
      · exact h
      · exact h1
  · simp [or_comm]

theorem closeAt_symbols (m : MoversStrategy) (i : Nat) :
    (closeAt m i).active_positions_.map Position.symbol =
        m.active_positions_.map Position.symbol ∧
      (closeAt m i).purchased_today_ = m.purchased_today_ := by
  unfold closeAt
  cases h : m.active_positions_[i]? with
  | none => exact ⟨rfl, rfl⟩
  | some pos =>
    refine ⟨?_, rfl⟩
    apply List.ext_getElem?
    intro k
    simp only [List.getElem?_map, List.getElem?_set]
    by_cases hik : i = k
    · subst hik
      have hlt : i < m.active_positions_.length := (List.getElem?_eq_some.1 h).1
      simp [hlt, h, closePosition]
    · simp [hik]

theorem forceCloseAll_symbols (m : MoversStrategy) :
    (forceCloseAll m).active_positions_.map Position.symbol =
      m.active_positions_.map Position.symbol := by
  simp only [forceCloseAll, List.map_map]
  apply List.map_congr_left
  intro p _
  simp only [Function.comp]
  split <;> rfl

theorem step_dedup (m : MoversStrategy) (op : StrategyOp) (hI : DedupInv m) :
    DedupInv (m.step op) := by
  obtain ⟨hnd, hp⟩ := hI
  cases op with
  | attempt symbol gain_pct price order_id now =>
    simp only [MoversStrategy.step, buyAttempt]
    split
    · rename_i hb
      have hnot : symbol ∉ m.purchased_today_ := by
        intro hmem
        rw [shouldBuy_false_of_purchased m symbol gain_pct hmem] at hb
        cases hb
      constructor
      · simp only [createPosition, List.map_append, List.map_cons, List.map_nil]
        rw [List.nodup_append]
        refine ⟨hnd, by simp, ?_⟩
        intro a ha hb2
        simp only [List.mem_singleton] at hb2
        subst hb2
        obtain ⟨p, hpm, hps⟩ := List.mem_map.1 ha
        exact hnot (hps ▸ hp p hpm)
      · intro p hpm
        simp only [createPosition, List.mem_append, List.mem_singleton] at hpm
        simp only [createPosition]
        rw [mem_setInsert]
        rcases hpm with h | rfl
        · exact Or.inr (hp p h)
        · exact Or.inl rfl
    · exact ⟨hnd, hp⟩
  | close i =>
    simp only [MoversStrategy.step]
    obtain ⟨h1, h2⟩ := closeAt_symbols m i
    refine ⟨h1 ▸ hnd, ?_⟩
    intro p hpm
    rw [h2]
    have : p.symbol ∈ (closeAt m i).active_positions_.map Position.symbol :=
      List.mem_map.2 ⟨p, hpm, rfl⟩
    rw [h1] at this
    obtain ⟨q, hq, hqs⟩ := List.mem_map.1 this
    exact hqs ▸ hp q hq
  | forceCloseAll =>
    simp only [MoversStrategy.step]
    have h1 := forceCloseAll_symbols m
    refine ⟨h1 ▸ hnd, ?_⟩
    intro p hpm
    have : p.symbol ∈ (forceCloseAll m).active_positions_.map Position.symbol :=
      List.mem_map.2 ⟨p, hpm, rfl⟩
    rw [h1] at this
    obtain ⟨q, hq, hqs⟩ := List.mem_map.1 this
    exact hqs ▸ hp q hq

theorem runOps_dedup (ops : List StrategyOp) (m : MoversStrategy) (hI : DedupInv m) :
    DedupInv (m.runOps ops) := by
  induction ops generalizing m with
  | nil => exact hI
  | cons op rest ih =>
    simp only [MoversStrategy.runOps, List.foldl_cons]
    exact ih (m.step op) (step_dedup m op hI)

theorem reachable_dedup (config : MoversConfig) (ops : List StrategyOp) :
    (∀ symbol gain_pct,
      (symbol ∈ ((MoversStrategy.new config).runOps ops).purchased_today_ ∨
        ∃ p ∈ ((MoversStrategy.new config).runOps ops).active_positions_,
          p.symbol = symbol ∧ p.is_active = true) →
      shouldBuy ((MoversStrategy.new config).runOps ops) symbol gain_pct = false) ∧
    (((MoversStrategy.new config).runOps ops).active_positions_.map Position.symbol).Nodup ∧
    ∀ p ∈ ((MoversStrategy.new config).runOps ops).active_positions_,
      p.symbol ∈ ((MoversStrategy.new config).runOps ops).purchased_today_ := by
  have h := runOps_dedup ops (MoversStrategy.new config)
    ⟨by simp [MoversStrategy.new], by simp [MoversStrategy.new]⟩
  refine ⟨?_, h.1, h.2⟩
  intro symbol gain_pct hs
  rcases hs with hs | hs
  · exact shouldBuy_false_of_purchased _ _ _ hs
  · exact shouldBuy_false_of_active _ _ _ hs

/-! ### forceCloseAll -/

theorem forceCloseAll_frame (m : MoversStrategy) :
    (∀ p ∈ (forceCloseAll m).active_positions_, p.is_active = false) ∧
    (forceCloseAll m).active_positions_.length = m.active_positions_.length ∧
    (forceCloseAll m).active_positions_.map
        (fun p => (p.symbol, p.purchase_price, p.quantity, p.purchase_time, p.order_id)) =
      m.active_positions_.map
        (fun p => (p.symbol, p.purchase_price, p.quantity, p.purchase_time, p.order_id)) ∧
    (forceCloseAll m).purchased_today_ = m.purchased_today_ ∧
    (forceCloseAll m).config_ = m.config_ ∧
    forceCloseAll (forceCloseAll m) = forceCloseAll m := by
  refine ⟨?_, forceCloseAll_length m, ?_, rfl, rfl, ?_⟩
  · intro p hp
    simp only [forceCloseAll, List.mem_map] at hp
    obtain ⟨q, _, rfl⟩ := hp
    split
    · rfl
    · rename_i h
      simpa using h
  · simp only [forceCloseAll, List.map_map]
    apply List.map_congr_left
    intro p _
    simp only [Function.comp]
    split <;> rfl
  · simp only [forceCloseAll, List.map_map]
    congr 1
    apply List.map_congr_left
    intro p _
    simp only [Function.comp]
    split <;> simp

/-! ### filterMovers -/

theorem filterMoversLoop_typed (m : MoversStrategy) :
    ∀ (items filtered : List Json), (∀ mover ∈ items, moverTyped mover) →
      filterMoversLoop m items filtered = Except.ok (filtered ++ items.filter (moverSelected m)) := by
  intro items
  induction items with
  | nil => intro filtered _; simp [filterMoversLoop, pure, Except.pure]
  | cons mover rest ih =>
    intro filtered h
    have hr : ∀ x ∈ rest, moverTyped x := fun x hx => h x (List.mem_cons_of_mem _ hx)
    have ht := h mover (List.mem_cons_self _ _)
    unfold filterMoversLoop
    cases hc : mover.find? "change_percent" with
    | none => simp [moverSelected, hc, ih _ hr, List.filter_cons]
    | some c =>
      cases hs : mover.find? "symbol" with
      | none => simp [moverSelected, hc, hs, ih _ hr, List.filter_cons]
      | some s =>
        obtain ⟨⟨q, rfl⟩, ⟨t, rfl⟩⟩ := ht c s hc hs
        simp only [Json.getDouble, Json.getString, pure, Except.pure]
        by_cases h1 : q ≥ m.config_.buy_threshold
        · by_cases h2 : t ∈ m.purchased_today_
          · simp [moverSelected, hc, hs, h1, h2, ih _ hr, List.filter_cons]
          · simp [moverSelected, hc, hs, h1, h2, ih _ hr, List.filter_cons]
        · simp [moverSelected, hc, hs, h1, ih _ hr, List.filter_cons]

theorem filterMovers_typed (m : MoversStrategy) (items : List Json)
    (h : ∀ mover ∈ items, moverTyped mover) :
    filterMovers m (Json.arr items) = Except.ok (items.filter (moverSelected m)) := by
  simpa [filterMovers] using filterMoversLoop_typed m items [] h

theorem filterMovers_not_array (m : MoversStrategy) (movers : Json)
    (h : ∀ items, movers ≠ Json.arr items) : filterMovers m movers = Except.ok [] := by
  cases movers with
  | arr items => exact absurd rfl (h items)
  | _ => rfl

theorem sampleMovers_typed : ∀ mover ∈ sampleMovers, moverTyped mover := by
  intro mover hm
  simp only [sampleMovers, List.mem_cons, List.mem_singleton, List.not_mem_nil, or_false] at hm
  rcases hm with rfl | rfl | rfl | rfl | rfl <;>
    · intro c s hc hs
      simp [Json.find?, membersFind] at hc hs
      try exact ⟨⟨_, hc.symm⟩, ⟨_, hs.symm⟩⟩

/-! ### Request dispatch -/

theorem errorReply_eq (error : String) :
    errorReply error = Json.obj [("error", Json.str error), ("success", Json.bool false)] := by
  simp only [errorReply, Json.assign, membersAssign]
  have h1 : ¬ ("error" = "success") := by decide
  have h2 : "error".data < "success".data := by decide
  simp [h1, h2]

theorem processMessage_unknown (env : Env) (e : ExecutionEngine) (request : Json)
    (request_type : String) (ht : request.valueString "type" "order" = Except.ok request_type)
    (hn : request_type ∉ requestTypes) :
    processMessage env e (Except.ok request) =
      some ([Json.obj [("error", Json.str "Unknown request type"),
        ("success", Json.bool false)]], e) := by
  simp only [requestTypes, List.mem_cons, List.mem_singleton, List.not_mem_nil, or_false,
    not_or] at hn
  obtain ⟨h1, h2, h3, h4, h5, h6, h7, h8, h9, h10⟩ := hn
  simp [processMessage, ht, h1, h2, h3, h4, h5, h6, h7, h8, h9, h10, errorReply_eq]

theorem processMessage_parse_error (env : Env) (e : ExecutionEngine) (x : Exn) :
    processMessage env e (Except.error x) = some ([], e) := rfl

theorem processMessage_type_not_string (env : Env) (e : ExecutionEngine)
    (members : List (String × Json)) (v : Json) (hf : membersFind "type" members = some v)
    (hv : ∀ s, v ≠ Json.str s) :
    processMessage env e (Except.ok (Json.obj members)) = some ([], e) := by
  have : (Json.obj members).valueString "type" "order" = Except.error (Exn.type_error 302) := by
    simp only [Json.valueString, hf]
    cases v with
    | str s => exact absurd rfl (hv s)
    | _ => rfl
  simp [processMessage, this]

theorem processMessage_not_object (env : Env) (e : ExecutionEngine) (request : Json)
    (h : ∀ members, request ≠ Json.obj members) :
    processMessage env e (Except.ok request) = some ([], e) := by
  cases request with
  | obj members => exact absurd rfl (h members)
  | _ => rfl

/-! ### Order requests on the internal book -/

theorem orderReply_eq (report : ExecutionReport) (stamp : Int) :
    orderReply report stamp = Json.obj
      [("client_order_id", Json.str report.client_order_id),
       ("fill_price", Json.num report.fill_price),
       ("fill_qty", Json.num report.fill_qty),
       ("message", Json.str report.message),
       ("order_id", Json.str report.order_id),
       ("remaining_qty", Json.num report.remaining_qty),
       ("side", Json.str (if report.side = Side.BUY then "BUY" else "SELL")),
       ("status", Json.str (statusText report.status)),
       ("success", Json.bool (decide (report.status ≠ OrderStatus.REJECTED))),
       ("symbol", Json.str report.symbol),
       ("timestamp", Json.num stamp)] := by
  simp +decide [orderReply, Json.assign, membersAssign]

theorem matchOrders_accepts (b : OrderBook) (hv : Valid b) :
    ∃ rs b1, matchOrders b = some (rs, b1) ∧ Valid b1 ∧
      (∀ r ∈ rs, r.status = OrderStatus.FILLED ∨ r.status = OrderStatus.PARTIALLY_FILLED) ∧
      b1.heap.map Order.submittedAs = b.heap.map Order.submittedAs := by
  obtain ⟨rs, b1, h, hI, hv1, _⟩ := matchOrders_inv
    (fun b0 reps =>
      (∀ r ∈ reps, r.status = OrderStatus.FILLED ∨ r.status = OrderStatus.PARTIALLY_FILLED) ∧
      b0.heap.map Order.submittedAs = b.heap.map Order.submittedAs)
    (fun b0 reps b1 _ hI hs => ⟨hI.1, by rw [← hI.2]; exact hs.submittedAs⟩)
    (fun b0 reps b1 t _ hI hs => by
      refine ⟨?_, by rw [← hI.2]; exact hs.submittedAs⟩
      intro r hr
      rcases List.mem_append.1 hr with h1 | h1
      · exact hI.1 r h1
      · simp only [List.mem_singleton] at h1
        subst h1
        cases hs with
        | trade pb pa hb ha bt at1 brest arest bo so hbids hasks hlt hbo hso hne hbs hss hbp hsp =>
          simp only [tradeReport, fillOrder, statusAfterFill]
          split
          · exact Or.inl rfl
          · exact Or.inr rfl)
    b hv ⟨by simp, rfl⟩
  exact ⟨rs, b1, h, hv1, hI.1, hI.2⟩

theorem booksFind_mem (symbol : String) (book : OrderBook) :
    ∀ (l : List (String × OrderBook)), booksFind symbol l = some book → (symbol, book) ∈ l := by
  intro l
  induction l with
  | nil => intro h; simp [booksFind] at h
  | cons p rest ih =>
    obtain ⟨k, b⟩ := p
    intro h
    simp only [booksFind] at h
    split at h
    · rename_i hk
      simp only [Option.some.injEq] at h
      subst hk; subst h
      exact List.mem_cons_self _ _
    · exact List.mem_cons_of_mem _ (ih h)

theorem booksFind_assign (symbol : String) (book : OrderBook) :
    ∀ (l : List (String × OrderBook)), booksFind symbol (booksAssign symbol book l) = some book := by
  intro l
  induction l with
  | nil => simp [booksAssign, booksFind]
  | cons p rest ih =>
    obtain ⟨k, b⟩ := p
    by_cases hk : k = symbol
    · simp [booksAssign, booksFind, hk]
    · simp [booksAssign, booksFind, hk, ih]

theorem booksAssign_mem (symbol : String) (book : OrderBook) (q : String × OrderBook) :
    ∀ (l : List (String × OrderBook)), q ∈ booksAssign symbol book l → q ∈ l ∨ q.2 = book := by
  intro l
  induction l with
  | nil =>
    intro h
    simp only [booksAssign, List.mem_singleton] at h
    exact Or.inr (by rw [h])
  | cons p rest ih =>
    obtain ⟨k, b⟩ := p
    intro h
    simp only [booksAssign] at h
    split at h
    · rcases List.mem_cons.1 h with h1 | h1
      · exact Or.inr (by rw [h1])
      · exact Or.inl (List.mem_cons_of_mem _ h1)
    · rcases List.mem_cons.1 h with h1 | h1
      · exact Or.inl (by rw [h1]; exact List.mem_cons_self _ _)
      · rcases ih h1 with h2 | h2
        · exact Or.inl (List.mem_cons_of_mem _ h2)
        · exact Or.inr h2

theorem booksAssign_valid (e : ExecutionEngine) (symbol : String) (book : OrderBook)
    (he : EngineValid e) (hb : Valid book) :
    EngineValid { e with order_books_ := booksAssign symbol book e.order_books_ } := by
  intro q hq
  rcases booksAssign_mem symbol book q _ hq with h | h
  · exact he q h
  · rw [h]; exact hb

theorem getOrderBook_valid (e : ExecutionEngine) (symbol : String) (he : EngineValid e) :
    Valid (getOrderBook e symbol).1 ∧ EngineValid (getOrderBook e symbol).2 := by
  unfold getOrderBook
  cases hf : booksFind symbol e.order_books_ with
  | none => exact ⟨valid_new symbol, booksAssign_valid e symbol _ he (valid_new symbol)⟩
  | some book => exact ⟨he _ (booksFind_mem symbol book _ hf), he⟩

theorem addOrder_submittedAs (b : OrderBook) (o : Order) (n : Int) :
    (addOrder b o n).2.heap.map Order.submittedAs =
      b.heap.map Order.submittedAs ++ [o.submittedAs] := by
  rw [addOrder_heap]
  simp [Order.submittedAs]

/-- An order request that reads as an order and is routed to the internal book is answered
from the acknowledgement of `addOrder` or from the first trade report: the reply has
`success = true`, and the book of the symbol holds the order. -/
theorem handleOrderRequest_internal (env : Env) (e : ExecutionEngine) (request : Json)
    (order : Order) (hint : (e.use_paper_trading_ && e.alpaca_client_) = false)
    (he : EngineValid e) (hp : orderOfRequest request = Except.ok order) :
    ∃ report e1 book,
      handleOrderRequest env e (Except.ok request) = some (orderReply report env.stamp, e1) ∧
      report.status ≠ OrderStatus.REJECTED ∧
      (orderReply report env.stamp).find? "success" = some (Json.bool true) ∧
      booksFind order.symbol e1.order_books_ = some book ∧
      book.heap.map Order.submittedAs =
        (getOrderBook e order.symbol).1.heap.map Order.submittedAs ++ [order.submittedAs] ∧
      EngineValid e1 := by
  obtain ⟨hvb, hve⟩ := getOrderBook_valid e order.symbol he
  obtain ⟨rs, b2, hm, hv2, hst, hsub⟩ :=
    matchOrders_accepts (addOrder (getOrderBook e order.symbol).1 order env.nanos).2
      (addOrder_valid _ _ _ hvb)
  have hrep : (rs.headD (addOrder (getOrderBook e order.symbol).1 order env.nanos).1).status ≠
      OrderStatus.REJECTED := by
    cases rs with
    | nil => simp [addOrder]
    | cons r rest =>
      rcases hst r (List.mem_cons_self _ _) with h | h <;> simp [h]
  refine ⟨_, _, b2, ?_, hrep, ?_, booksFind_assign _ _ _, ?_, booksAssign_valid _ _ _ hve hv2⟩
  · simp only [handleOrderRequest, bind, Except.bind, hp, hint, hm]
    rfl
  · rw [orderReply_eq]
    simpa [Json.find?, membersFind] using hrep
  · rw [hsub, addOrder_submittedAs]

/-- The acknowledgement of `addOrder` never rejects: its status is NEW whatever the order,
and the order is stored in the arena and rests on its side of the book at its price. -/
theorem addOrder_accepts (b : OrderBook) (o : Order) (n : Int) :
    (addOrder b o n).1.status = OrderStatus.NEW ∧
    (addOrder b o n).1.remaining_qty = o.quantity ∧
    (addOrder b o n).2.heap =
      b.heap ++ [{ o with order_id := generateOrderId n b.order_id_counter_ }] ∧
    Resting (if o.side = Side.BUY then (addOrder b o n).2.bids_ else (addOrder b o n).2.asks_)
      o.price b.heap.length := by
  refine ⟨rfl, rfl, addOrder_heap b o n, ?_⟩
  cases hside : o.side with
  | BUY =>
    rw [addOrder_buy b o n hside]
    simp only [if_true]
    exact (levelPush_resting _ _ _ _ _ _).2 (Or.inl ⟨rfl, rfl⟩)
  | SELL =>
    rw [addOrder_sell b o n hside]
    simp only [reduceCtorEq, if_false]
    exact (levelPush_resting _ _ _ _ _ _).2 (Or.inl ⟨rfl, rfl⟩)

theorem engineValid_internal : EngineValid internalEngine := by
  intro p hp
  simp [internalEngine] at hp

theorem negativeRequest_order :
    orderOfRequest negativeRequest = Except.ok (limitOrder "c1" "X" Side.BUY (-5) 100) := by
  rfl

theorem sampleMovers_selected :
    sampleMovers.filter (moverSelected sampleStrategy) =
      [Json.obj [("change_percent", Json.num 7), ("price", Json.num 10), ("symbol", Json.str "A")],
       Json.obj [("change_percent", Json.num 5), ("symbol", Json.str "E")]] := by
  with_unfolding_all rfl

theorem runEvents_dedup (events : List StrategyEvent) (m : MoversStrategy) (hI : DedupInv m) :
    DedupInv (m.runEvents events) := by
  induction events generalizing m with
  | nil => exact hI
  | cons ev rest ih =>
    simp only [MoversStrategy.runEvents, List.foldl_cons]
    cases ev with
    | op o => exact ih (m.step o) (step_dedup m o hI)
    | updateConfig config => exact ih (updateConfig m config) hI

theorem reachable_dedup_events (config : MoversConfig) (events : List StrategyEvent) :
    (∀ symbol gain_pct,
      (symbol ∈ ((MoversStrategy.new config).runEvents events).purchased_today_ ∨
        ∃ p ∈ ((MoversStrategy.new config).runEvents events).active_positions_,
          p.symbol = symbol ∧ p.is_active = true) →
      shouldBuy ((MoversStrategy.new config).runEvents events) symbol gain_pct = false) ∧
    (((MoversStrategy.new config).runEvents events).active_positions_.map
      Position.symbol).Nodup ∧
    ∀ p ∈ ((MoversStrategy.new config).runEvents events).active_positions_,
      p.symbol ∈ ((MoversStrategy.new config).runEvents events).purchased_today_ := by
  have h := runEvents_dedup events (MoversStrategy.new config)
    ⟨by simp [MoversStrategy.new], by simp [MoversStrategy.new]⟩
  refine ⟨?_, h.1, h.2⟩
  intro symbol gain_pct hs
  rcases hs with hs | hs
  · exact shouldBuy_false_of_purchased _ _ _ hs
  · exact shouldBuy_false_of_active _ _ _ hs

/-! ### Fields that matching and cancellation leave alone -/

theorem StepSpec.heap_map {α : Type} (f : Order → α) (hf : ∀ o q, f (fillOrder o q) = f o)
    {b : OrderBook} {st : LoopStep} (hs : StepSpec b st) :
    (st.book b).heap.map f = b.heap.map f := by
  cases hs with
  | exit _ => rfl
  | prune pb pa bos aos brest arest hbids hasks hlt hemp => rfl
  | trade pb pa hb ha bt at1 brest arest bo so hbids hasks hlt hbo hso hne hbs hss hbp hsp =>
    simp only [LoopStep.book]
    have hso1 : (b.heap.set hb (fillOrder bo (min (bo.quantity - bo.filled_qty)
        (so.quantity - so.filled_qty))))[ha]? = some so := by
      rw [List.getElem?_set_ne hne]; exact hso
    rw [map_set_of_eq f _ ha so (fillOrder so _) hso1 (hf _ _),
      map_set_of_eq f _ hb bo (fillOrder bo _) hbo (hf _ _)]

theorem cancelOrder_heap_map {α : Type} (f : Order → α)
    (hf : ∀ o : Order, f { o with status := OrderStatus.CANCELED } = f o)
    (b : OrderBook) (id : String) : (cancelOrder b id).2.heap.map f = b.heap.map f := by
  cases hfind : tableFind id b.orders_ with
  | none => simp [cancelOrder, hfind]
  | some h1 =>
    cases hg : b.heap[h1]? with
    | none => simp [cancelOrder, hfind, hg]
    | some o =>
      simp only [cancelOrder, hfind, hg]
      exact map_set_of_eq _ _ h1 o _ hg (hf o)

theorem cancelOrder_counter (b : OrderBook) (id : String) :
    (cancelOrder b id).2.order_id_counter_ = b.order_id_counter_ := by
  unfold cancelOrder
  split
  · rfl
  · split <;> rfl

/-! ### Order ids are unique within a book -/

theorem idsInv_new (symbol : String) : IdsInv (OrderBook.new symbol) := by
  constructor
  · rfl
  · intro i id h
    simp [OrderBook.new] at h

theorem addOrder_ids (b : OrderBook) (o : Order) (n : Int) (hI : IdsInv b) :
    IdsInv (addOrder b o n).2 := by
  obtain ⟨hc, hid⟩ := hI
  constructor
  · rw [(addOrder_orders b o n).2.1, addOrder_heap, hc]
    simp
  · intro i id h
    rw [addOrder_heap, List.map_append] at h
    by_cases hi : i < (b.heap.map Order.order_id).length
    · rw [List.getElem?_append_left hi] at h
      exact hid i id h
    · rw [List.getElem?_append_right (Nat.le_of_not_lt hi)] at h
      simp only [List.map_cons, List.map_nil, List.length_map] at h hi
      have hi0 : i - b.heap.length = 0 := by
        by_contra hne
        have : i - b.heap.length = (i - b.heap.length - 1) + 1 := by omega
        rw [this] at h
        simp at h
      rw [hi0] at h
      simp only [List.getElem?_cons_zero, Option.some.injEq] at h
      have : i = b.order_id_counter_ := by omega
      exact ⟨n, by rw [this]; exact h.symm⟩

theorem idsInv_of_heap_eq {b b1 : OrderBook}
    (hh : b1.heap.map Order.order_id = b.heap.map Order.order_id)
    (hc : b1.order_id_counter_ = b.order_id_counter_) (hI : IdsInv b) : IdsInv b1 := by
  constructor
  · rw [hc, hI.1]
    have := congrArg List.length hh
    simpa using this.symm
  · intro i id h
    rw [hh] at h
    exact hI.2 i id h

theorem run_ids (calls : List Call) (s : Session) (hv : Valid s.book) (hI : IdsInv s.book) :
    ∃ s1, s.run calls = some s1 ∧ Valid s1.book ∧ IdsInv s1.book :=
  run_inv (fun b _ => IdsInv b) (fun _ => True)
    (fun b _ o n _ hJ _ => addOrder_ids b o n hJ)
    (fun b _ id _ hJ _ =>
      idsInv_of_heap_eq (cancelOrder_heap_map Order.order_id (fun _ => rfl) b id)
        (cancelOrder_counter b id) hJ)
    (fun _ _ _ _ hJ hsp =>
      idsInv_of_heap_eq (hsp.heap_map Order.order_id (fun _ _ => rfl)) hsp.orders_prune.2 hJ)
    (fun _ _ _ _ _ hJ hsp =>
      idsInv_of_heap_eq (hsp.heap_map Order.order_id (fun _ _ => rfl)) hsp.orders_trade.2 hJ)
    calls s hv hI (fun _ _ => trivial)

theorem generateOrderId_ne (n1 n2 : Int) (c1 c2 : Nat) (h : c1 ≠ c2) :
    generateOrderId n1 c1 ≠ generateOrderId n2 c2 :=
  fun he => h (generateOrderId_counter n1 n2 c1 c2 he)

theorem idsInv_distinct (b : OrderBook) (hI : IdsInv b) (i j : Nat) (oi oj : Order)
    (hi : b.heap[i]? = some oi) (hj : b.heap[j]? = some oj) (hne : i ≠ j) :
    oi.order_id ≠ oj.order_id := by
  obtain ⟨n1, h1⟩ := hI.2 i oi.order_id (by simp [List.getElem?_map, hi])
  obtain ⟨n2, h2⟩ := hI.2 j oj.order_id (by simp [List.getElem?_map, hj])
  rw [h1, h2]
  exact generateOrderId_ne n1 n2 i j hne

/-- In every book reached from the empty book the counter equals the number of orders created,
order `i` of the arena has an id issued for counter value `i`, and two different orders have
different ids. -/
theorem reachable_ids (symbol : String) (calls : List Call) :
    ∃ s, run symbol calls = some s ∧
      s.book.order_id_counter_ = s.book.heap.length ∧
      (∀ (i : Nat) (o : Order), s.book.heap[i]? = some o →
        ∃ n, o.order_id = generateOrderId n i) ∧
      (∀ (i j : Nat) (oi oj : Order), s.book.heap[i]? = some oi → s.book.heap[j]? = some oj →
        i ≠ j →
        oi.order_id ≠ oj.order_id) ∧
      (s.book.heap.map Order.order_id).Nodup := by
  obtain ⟨s, hs, _, hI⟩ := run_ids calls { book := OrderBook.new symbol, reports := [] }
    (valid_new symbol) (idsInv_new symbol)
  refine ⟨s, hs, hI.1, ?_, fun i j oi oj hi hj hne => idsInv_distinct s.book hI i j oi oj hi hj hne, ?_⟩
  · intro i o hi
    exact hI.2 i o.order_id (by simp [List.getElem?_map, hi])
  · rw [List.nodup_iff_getElem?_ne_getElem?]
    intro i j hij hj
    simp only [List.length_map] at hj
    have hi : i < s.book.heap.length := by omega
    simp only [List.getElem?_map, List.getElem?_eq_getElem hi, List.getElem?_eq_getElem hj,
      Option.map_some', ne_eq, Option.some.injEq]
    exact idsInv_distinct s.book hI i j _ _ (List.getElem?_eq_getElem hi)
      (List.getElem?_eq_getElem hj) (by omega)

/-! ### No level is empty -/

theorem levelPush_nonempty (bf : ℚ → ℚ → Bool) (p : ℚ) (h : Nat) :
    ∀ (ls : List Level), (∀ l ∈ ls, l.2 ≠ []) → ∀ l ∈ levelPush bf p h ls, l.2 ≠ [] := by
  intro ls
  induction ls with
  | nil =>
    intro _ l hl
    simp only [levelPush, List.mem_singleton] at hl
    subst hl
    simp
  | cons x rest ih =>
    obtain ⟨q, hs⟩ := x
    intro hne l hl
    simp only [levelPush] at hl
    split at hl
    · rcases List.mem_cons.1 hl with h1 | h1
      · subst h1; simp
      · exact hne l (List.mem_cons_of_mem _ h1)
    · split at hl
      · rcases List.mem_cons.1 hl with h1 | h1
        · subst h1; simp
        · exact hne l h1
      · rcases List.mem_cons.1 hl with h1 | h1
        · subst h1; exact hne _ (List.mem_cons_self _ _)
        · exact ih (fun l1 h2 => hne l1 (List.mem_cons_of_mem _ h2)) l h1

theorem pruneFront_nonempty (ls : List Level) (hne : ∀ l ∈ ls.tail, l.2 ≠ []) :
    ∀ l ∈ pruneFront ls, l.2 ≠ [] := by
  cases ls with
  | nil => intro l hl; simp [pruneFront] at hl
  | cons x rest =>
    obtain ⟨p, hs⟩ := x
    intro l hl
    simp only [pruneFront] at hl
    split at hl
    · exact hne l hl
    · rename_i hx
      rcases List.mem_cons.1 hl with h1 | h1
      · subst h1; exact hx
      · exact hne l h1

theorem eraseFront_tail (o : Order) (ls : List Level) :
    (eraseFrontIfFilled o ls).tail = ls.tail := by
  cases ls with
  | nil => rfl
  | cons x rest =>
    obtain ⟨p, hs⟩ := x
    simp only [eraseFrontIfFilled]
    split <;> rfl

theorem StepSpec.noEmpty {b : OrderBook} {st : LoopStep} (hs : StepSpec b st)
    (hI : NoEmptyLevel b) : NoEmptyLevel (st.book b) := by
  have tl : ∀ (ls : List Level), (∀ l ∈ ls, l.2 ≠ []) → ∀ l ∈ ls.tail, l.2 ≠ [] :=
    fun ls h l hl => h l (List.mem_of_mem_tail hl)
  cases hs with
  | exit _ => exact hI
  | prune pb pa bos aos brest arest hbids hasks hlt hemp =>
    exact ⟨pruneFront_nonempty _ (tl _ hI.1), pruneFront_nonempty _ (tl _ hI.2)⟩
  | trade pb pa hb ha bt at1 brest arest bo so hbids hasks hlt hbo hso hne hbs hss hbp hsp =>
    constructor
    · apply pruneFront_nonempty
      rw [eraseFront_tail]
      exact tl _ hI.1
    · apply pruneFront_nonempty
      rw [eraseFront_tail]
      exact tl _ hI.2

theorem StepSpec.not_prune {b b1 : OrderBook} (hs : StepSpec b (LoopStep.prune b1))
    (hI : NoEmptyLevel b) : False := by
  cases hs with
  | prune pb pa bos aos brest arest hbids hasks hlt hemp =>
    rcases hemp with h | h
    · exact hI.1 (pb, bos) (by rw [hbids]; exact List.mem_cons_self _ _) h
    · exact hI.2 (pa, aos) (by rw [hasks]; exact List.mem_cons_self _ _) h

theorem addOrder_noEmpty (b : OrderBook) (o : Order) (n : Int) (hI : NoEmptyLevel b) :
    NoEmptyLevel (addOrder b o n).2 := by
  cases hside : o.side with
  | BUY =>
    rw [addOrder_buy b o n hside]
    exact ⟨levelPush_nonempty _ _ _ _ hI.1, hI.2⟩
  | SELL =>
    rw [addOrder_sell b o n hside]
    exact ⟨hI.1, levelPush_nonempty _ _ _ _ hI.2⟩

theorem cancelOrder_noEmpty (b : OrderBook) (id : String) (hI : NoEmptyLevel b) :
    NoEmptyLevel (cancelOrder b id).2 := by
  unfold NoEmptyLevel
  rw [(cancelOrder_levels b id).1, (cancelOrder_levels b id).2]
  exact hI

theorem noEmpty_new (symbol : String) : NoEmptyLevel (OrderBook.new symbol) := by
  constructor <;> simp [OrderBook.new]

theorem run_noEmpty (calls : List Call) (s : Session) (hv : Valid s.book)
    (hI : NoEmptyLevel s.book) :
    ∃ s1, s.run calls = some s1 ∧ Valid s1.book ∧ NoEmptyLevel s1.book :=
  run_inv (fun b _ => NoEmptyLevel b) (fun _ => True)
    (fun b _ o n _ hJ _ => addOrder_noEmpty b o n hJ)
    (fun b _ id _ hJ _ => cancelOrder_noEmpty b id hJ)
    (fun _ _ _ _ hJ hsp => hsp.noEmpty hJ)
    (fun _ _ _ _ _ hJ hsp => hsp.noEmpty hJ)
    calls s hv hI (fun _ _ => trivial)

theorem filter_nonempty_levels (ls : List Level) (h : ∀ l ∈ ls, l.2 ≠ []) :
    ls.filter (fun l => decide (l.2 ≠ [])) = ls := by
  rw [List.filter_eq_self]
  intro l hl
  simpa using h l hl

/-- In every book reached from the empty book no level is empty; at the start of every
iteration of a matching loop run on it no level is empty either, and the iteration does not
take the empty-level branch: it leaves the loop or makes a trade between the two front orders.
The depth getters count the levels that hold at least one order. -/
theorem reachable_noEmpty (symbol : String) (calls : List Call) :
    ∃ s, run symbol calls = some s ∧ NoEmptyLevel s.book ∧
      (∀ k bk, matchIter k s.book = some bk →
        NoEmptyLevel bk ∧ (∀ b1, matchBody bk ≠ some (LoopStep.prune b1)) ∧
        (matchBody bk = some LoopStep.exit ∨
          ∃ b1 t hb bt ha at1, matchBody bk = some (LoopStep.trade b1 t) ∧
            (bk.bids_.head?).map Prod.snd = some (hb :: bt) ∧
            (bk.asks_.head?).map Prod.snd = some (ha :: at1) ∧
            t.buy_order = hb ∧ t.sell_order = ha)) ∧
      getBidDepth s.book = (s.book.bids_.filter fun l => decide (l.2 ≠ [])).length ∧
      getAskDepth s.book = (s.book.asks_.filter fun l => decide (l.2 ≠ [])).length := by
  obtain ⟨s, hs, hv, hI⟩ := run_noEmpty calls { book := OrderBook.new symbol, reports := [] }
    (valid_new symbol) (noEmpty_new symbol)
  refine ⟨s, hs, hI, ?_, ?_, ?_⟩
  · intro k bk hk
    obtain ⟨hIk, hvk⟩ := matchIter_inv NoEmptyLevel (fun b st _ hP hsp => hsp.noEmpty hP)
      k s.book bk hv hI hk
    obtain ⟨st, hst, hsp⟩ := matchBody_spec bk hvk
    refine ⟨hIk, ?_, ?_⟩
    · intro b1 hb1
      rw [hst] at hb1
      simp only [Option.some.injEq] at hb1
      subst hb1
      exact hsp.not_prune hIk
    · cases hsp with
      | exit _ => exact Or.inl hst
      | prune pb pa bos aos brest arest hbids hasks hlt hemp =>
        exact absurd (StepSpec.prune pb pa bos aos brest arest hbids hasks hlt hemp)
          (fun h => h.not_prune hIk)
      | trade pb pa hb ha bt at1 brest arest bo so hbids hasks hlt hbo hso hne hbs hss hbp hsp =>
        exact Or.inr ⟨_, _, hb, bt, ha, at1, hst, by simp [hbids], by simp [hasks], rfl, rfl⟩
  · rw [filter_nonempty_levels _ hI.1]; rfl
  · rw [filter_nonempty_levels _ hI.2]; rfl

/-! ### The matching loop ends within a bound -/

theorem levelsSize_eq (ls : List Level) : levelsSize ls = restingCount ls + ls.length := by
  induction ls with
  | nil => rfl
  | cons l rest ih =>
    simp only [levelsSize, restingCount, List.map_cons, List.sum_cons, List.length_cons] at ih ⊢
    omega

theorem matchIter_step {b b1 : OrderBook} {st : LoopStep} (hst : matchBody b = some st)
    (hne : st ≠ LoopStep.exit) (hb1 : st.book b = b1) (k : Nat) :
    matchIter (k + 1) b = matchIter k b1 := by
  cases st with
  | exit => exact absurd rfl hne
  | prune b2 => simp only [LoopStep.book] at hb1; subst hb1; simp [matchIter, hst]
  | trade b2 t => simp only [LoopStep.book] at hb1; subst hb1; simp [matchIter, hst]

/-- On a book with valid references the loop returns after `k` iterations of its body, where
`k` plus the size of the final book is at most the size of the initial book, and it has added
at most `k` reports. -/
theorem matchLoop_bound :
    ∀ (fuel : Nat) (b : OrderBook) (reps : List ExecutionReport), Valid b → matchFuel b ≤ fuel →
      ∃ k rs b1, matchLoop fuel b reps = some (reps ++ rs, b1) ∧ matchIter k b = some b1 ∧
        matchBody b1 = some LoopStep.exit ∧ k + matchFuel b1 ≤ matchFuel b ∧ rs.length ≤ k := by
  intro fuel
  induction fuel with
  | zero =>
    intro b reps _ hf
    have := matchFuel_pos b
    omega
  | succ n ih =>
    intro b reps hv hf
    obtain ⟨st, hst, hspec⟩ := matchBody_spec b hv
    cases st with
    | exit =>
      exact ⟨0, [], b, by simp [matchLoop, hst], rfl, hst, by omega, by simp⟩
    | prune b1 =>
      have hlt := hspec.fuel_lt (by simp)
      have hv1 := hspec.valid hv
      simp only [LoopStep.book] at hlt hv1
      obtain ⟨k, rs, b2, h2, hk, hx, hle, hlen⟩ := ih b1 reps hv1 (by omega)
      refine ⟨k + 1, rs, b2, by simp [matchLoop, hst, h2], ?_, hx, by omega, by omega⟩
      rw [matchIter_step hst (by simp) rfl k]
      exact hk
    | trade b1 t =>
      have hlt := hspec.fuel_lt (by simp)
      have hv1 := hspec.valid hv
      simp only [LoopStep.book] at hlt hv1
      obtain ⟨k, rs, b2, h2, hk, hx, hle, hlen⟩ := ih b1 (reps ++ [t.report]) hv1 (by omega)
      refine ⟨k + 1, t.report :: rs, b2, by simp [matchLoop, hst, h2], ?_, hx, by omega,
        by simp; omega⟩
      rw [matchIter_step hst (by simp) rfl k]
      exact hk

/-- `matchOrders` returns on every book with valid references, after at most as many
iterations as there are resting order references plus levels; every iteration that does not
leave the loop drops an order reference or a level. -/
theorem matchOrders_bound (b : OrderBook) (hv : Valid b) :
    ∃ k rs b1, matchOrders b = some (rs, b1) ∧ matchIter k b = some b1 ∧
      matchBody b1 = some LoopStep.exit ∧
      k ≤ restingCount b.bids_ + restingCount b.asks_ + b.bids_.length + b.asks_.length ∧
      rs.length ≤ k ∧
      ∀ j bj st, matchIter j b = some bj → matchBody bj = some st → st ≠ LoopStep.exit →
        restingCount (st.book bj).bids_ + restingCount (st.book bj).asks_ +
            (st.book bj).bids_.length + (st.book bj).asks_.length <
          restingCount bj.bids_ + restingCount bj.asks_ + bj.bids_.length + bj.asks_.length := by
  obtain ⟨k, rs, b1, h, hk, hx, hle, hlen⟩ := matchLoop_bound (matchFuel b) b [] hv (Nat.le_refl _)
  refine ⟨k, rs, b1, by simpa [matchOrders] using h, hk, hx, ?_, hlen, ?_⟩
  · simp only [matchFuel, levelsSize_eq] at hle
    omega
  · intro j bj st hj hst hne
    obtain ⟨_, hvj⟩ := matchIter_inv (fun _ => True) (fun _ _ _ _ _ => trivial) j b bj hv trivial hj
    obtain ⟨st1, hst1, hsp⟩ := matchBody_spec bj hvj
    rw [hst] at hst1
    simp only [Option.some.injEq] at hst1
    subst hst1
    have := hsp.fuel_lt hne
    simp only [matchFuel, levelsSize_eq] at this
    omega

/-! ### Reports are built from the buy order -/

theorem shrunk_refl (ls : List Level) : Shrunk ls ls :=
  fun l hl => ⟨l, hl, rfl, Or.inl rfl⟩

theorem shrunk_pruneFront (ls : List Level) : Shrunk (pruneFront ls) ls := by
  intro l hl
  refine ⟨l, ?_, rfl, Or.inl rfl⟩
  cases ls with
  | nil => simp [pruneFront] at hl
  | cons x rest =>
    obtain ⟨p, hs⟩ := x
    simp only [pruneFront] at hl
    split at hl
    · exact List.mem_cons_of_mem _ hl
    · exact hl

theorem shrunk_trade (o : Order) (ls : List Level) :
    Shrunk (pruneFront (eraseFrontIfFilled o ls)) ls := by
  cases ls with
  | nil => intro l hl; simp [eraseFrontIfFilled, pruneFront] at hl
  | cons x rest =>
    obtain ⟨p, hs⟩ := x
    intro l hl
    simp only [eraseFrontIfFilled] at hl
    split at hl
    · simp only [pruneFront] at hl
      split at hl
      · exact ⟨l, List.mem_cons_of_mem _ hl, rfl, Or.inl rfl⟩
      · rename_i hne
        rcases List.mem_cons.1 hl with h1 | h1
        · subst h1
          cases hs with
          | nil => exact ⟨(p, []), List.mem_cons_self _ _, rfl, Or.inl rfl⟩
          | cons y t =>
            exact ⟨(p, y :: t), List.mem_cons_self _ _, rfl, Or.inr ⟨⟨y, rfl⟩, hne⟩⟩
        · exact ⟨l, List.mem_cons_of_mem _ h1, rfl, Or.inl rfl⟩
    · exact shrunk_pruneFront _ l hl

theorem crossOnly_shrunk {h : Nat} {b b1 : OrderBook} (hI : CrossOnly h b)
    (hb : Shrunk b1.bids_ b.bids_) (ha : Shrunk b1.asks_ b.asks_) : CrossOnly h b1 := by
  intro lb hlb la hla hx
  obtain ⟨lb0, hlb0, hpb, hcb⟩ := hb lb hlb
  obtain ⟨la0, hla0, hpa, hca⟩ := ha la hla
  have h0 := hI lb0 hlb0 la0 hla0 (by rw [hpb, hpa]; exact hx)
  rcases h0 with h1 | h1
  · rcases hcb with rfl | ⟨⟨x, hx1⟩, hne⟩
    · exact Or.inl h1
    · rw [hx1] at h1
      simp only [List.cons.injEq] at h1
      exact absurd h1.2 hne
  · rcases hca with rfl | ⟨⟨x, hx1⟩, hne⟩
    · exact Or.inr h1
    · rw [hx1] at h1
      simp only [List.cons.injEq] at h1
      exact absurd h1.2 hne

theorem StepSpec.crossOnly {h : Nat} {b : OrderBook} {st : LoopStep} (hs : StepSpec b st)
    (hI : CrossOnly h b) : CrossOnly h (st.book b) := by
  cases hs with
  | exit _ => exact hI
  | prune pb pa bos aos brest arest hbids hasks hlt hemp =>
    exact crossOnly_shrunk hI (shrunk_pruneFront _) (shrunk_pruneFront _)
  | trade pb pa hb ha bt at1 brest arest bo so hbids hasks hlt hbo hso hne hbs hss hbp hsp =>
    exact crossOnly_shrunk hI (shrunk_trade _ _) (shrunk_trade _ _)

theorem StepSpec.trade_involves {h : Nat} {b b1 : OrderBook} {t : Trade}
    (hs : StepSpec b (LoopStep.trade b1 t)) (hI : CrossOnly h b) :
    t.buy_order = h ∨ t.sell_order = h := by
  cases hs with
  | trade pb pa hb ha bt at1 brest arest bo so hbids hasks hlt hbo hso hne hbs hss hbp hsp =>
    have h0 := hI (pb, hb :: bt) (by rw [hbids]; exact List.mem_cons_self _ _)
      (pa, ha :: at1) (by rw [hasks]; exact List.mem_cons_self _ _) hlt
    rcases h0 with h1 | h1
    · simp only [List.cons.injEq] at h1
      exact Or.inl h1.1
    · simp only [List.cons.injEq] at h1
      exact Or.inr h1.1

theorem levelPush_mem (bf : ℚ → ℚ → Bool) (p : ℚ) (h : Nat) :
    ∀ (ls : List Level), ∀ l ∈ levelPush bf p h ls,
      l.2 = [h] ∨ ∃ l0 ∈ ls, l0.1 = l.1 := by
  intro ls
  induction ls with
  | nil =>
    intro l hl
    simp only [levelPush, List.mem_singleton] at hl
    subst hl
    exact Or.inl rfl
  | cons x rest ih =>
    obtain ⟨q, hs⟩ := x
    intro l hl
    simp only [levelPush] at hl
    split at hl
    · rcases List.mem_cons.1 hl with h1 | h1
      · subst h1
        exact Or.inr ⟨(q, hs), List.mem_cons_self _ _, rfl⟩
      · exact Or.inr ⟨l, List.mem_cons_of_mem _ h1, rfl⟩
    · split at hl
      · rcases List.mem_cons.1 hl with h1 | h1
        · subst h1; exact Or.inl rfl
        · exact Or.inr ⟨l, h1, rfl⟩
      · rcases List.mem_cons.1 hl with h1 | h1
        · subst h1
          exact Or.inr ⟨(q, hs), List.mem_cons_self _ _, rfl⟩
        · rcases ih l h1 with h2 | ⟨l0, hl0, h3⟩
          · exact Or.inl h2
          · exact Or.inr ⟨l0, List.mem_cons_of_mem _ hl0, h3⟩

theorem addOrder_crossOnly (b : OrderBook) (o : Order) (n : Int) (hs : Sorted b)
    (hu : Uncrossed b) : CrossOnly b.heap.length (addOrder b o n).2 := by
  have hall := uncrossed_all b hs hu
  intro lb hlb la hla hx
  cases hside : o.side with
  | BUY =>
    rw [addOrder_buy b o n hside] at hlb hla
    simp only at hlb hla
    rcases levelPush_mem _ _ _ _ lb hlb with h1 | ⟨l0, hl0, h1⟩
    · exact Or.inl h1
    · exact absurd (by rw [← h1]; exact hall l0 hl0 la hla) hx
  | SELL =>
    rw [addOrder_sell b o n hside] at hlb hla
    simp only at hlb hla
    rcases levelPush_mem _ _ _ _ la hla with h1 | ⟨l0, hl0, h1⟩
    · exact Or.inr h1
    · exact absurd (by rw [← h1]; exact hall lb hlb l0 hl0) hx

/-- After `addOrder(o)` on a sorted, uncrossed book, `matchOrders` returns, every trade it
makes has `o` (arena index `b.heap.length`) as its buy or its sell order, every report stems
from such a trade, and the book is sorted and uncrossed again, without empty levels if it had
none. -/
theorem add_then_match (b : OrderBook) (o : Order) (n : Int) (hv : Valid b) (hs : Sorted b)
    (hu : Uncrossed b) (hne : NoEmptyLevel b) :
    ∃ rs b1, matchOrders (addOrder b o n).2 = some (rs, b1) ∧
      (addOrder b o n).2.heap[b.heap.length]? =
        some { o with order_id := generateOrderId n b.order_id_counter_ } ∧
      (∀ k bk bk1 t, matchIter k (addOrder b o n).2 = some bk →
        matchBody bk = some (LoopStep.trade bk1 t) →
        t.buy_order = b.heap.length ∨ t.sell_order = b.heap.length) ∧
      (∀ r ∈ rs, ∃ k bk bk1 t, matchIter k (addOrder b o n).2 = some bk ∧
        matchBody bk = some (LoopStep.trade bk1 t) ∧ t.report = r ∧
        (t.buy_order = b.heap.length ∨ t.sell_order = b.heap.length)) ∧
      Valid b1 ∧ Sorted b1 ∧ Uncrossed b1 ∧ NoEmptyLevel b1 := by
  have hv1 := addOrder_valid b o n hv
  obtain ⟨rs, b1, hm, hI, hvb1, hub1⟩ := matchOrders_inv
    (fun b0 _ => Sorted b0 ∧ NoEmptyLevel b0)
    (fun _ _ _ _ hI hsp => ⟨hsp.sorted hI.1, hsp.noEmpty hI.2⟩)
    (fun _ _ _ _ _ hI hsp => ⟨hsp.sorted hI.1, hsp.noEmpty hI.2⟩)
    (addOrder b o n).2 hv1 ⟨addOrder_sorted b o n hs, addOrder_noEmpty b o n hne⟩
  have hinv : ∀ k bk bk1 t, matchIter k (addOrder b o n).2 = some bk →
      matchBody bk = some (LoopStep.trade bk1 t) →
      t.buy_order = b.heap.length ∨ t.sell_order = b.heap.length := by
    intro k bk bk1 t hk hb
    obtain ⟨hc, hvk⟩ := matchIter_inv (CrossOnly b.heap.length)
      (fun _ _ _ hP hsp => hsp.crossOnly hP) k _ bk hv1 (addOrder_crossOnly b o n hs hu) hk
    obtain ⟨st, hst, hsp⟩ := matchBody_spec bk hvk
    rw [hb] at hst
    simp only [Option.some.injEq] at hst
    subst hst
    exact hsp.trade_involves hc
  refine ⟨rs, b1, hm, ?_, hinv, ?_, hvb1, hI.1, hub1, hI.2⟩
  · rw [addOrder_heap]
    simp
  · intro r hr
    rcases matchLoop_reports (matchFuel _) _ [] rs b1 hm r hr with h | ⟨k, bk, bk1, t, hk, hb, ht⟩
    · simp at h
    · exact ⟨k, bk, bk1, t, hk, hb, ht, hinv k bk bk1 t hk hb⟩

theorem run_addThenMatch (orders : List (Order × Int)) :
    ∀ (s : Session), Valid s.book → Sorted s.book → Uncrossed s.book → NoEmptyLevel s.book →
      ∃ s1, s.run (addThenMatch orders) = some s1 ∧ Valid s1.book ∧ Sorted s1.book ∧
        Uncrossed s1.book ∧ NoEmptyLevel s1.book := by
  induction orders with
  | nil => intro s hv hs hu hne; exact ⟨s, rfl, hv, hs, hu, hne⟩
  | cons p rest ih =>
    intro s hv hs hu hne
    obtain ⟨rs, b1, hm, _, _, _, hv1, hs1, hu1, hne1⟩ := add_then_match s.book p.1 p.2 hv hs hu hne
    obtain ⟨s1, h1, h2⟩ := ih { book := b1, reports := s.reports ++ rs } hv1 hs1 hu1 hne1
    refine ⟨s1, ?_, h2⟩
    simp only [addThenMatch, List.flatMap_cons, List.cons_append, List.nil_append, Session.run,
      Session.call, Option.bind_some, hm, Option.map_some', Option.some_bind]
    exact h1

theorem uncrossed_new (symbol : String) : Uncrossed (OrderBook.new symbol) :=
  Or.inl rfl

/-! ### Time windows and the exit test -/

theorem isMarketHours_iff (hour minute : Int) (h0 : 0 ≤ minute) (h1 : minute < 60) :
    isMarketHours hour minute = true ↔
      8 * 60 + 30 ≤ 60 * hour + minute ∧ 60 * hour + minute < 16 * 60 := by
  unfold isMarketHours
  split
  · simp only [Bool.false_eq_true, false_iff]; omega
  · split
    · simp only [Bool.false_eq_true, false_iff]; omega
    · simp only [true_iff]; omega

theorem isBeforeCutoff_iff (hour minute : Int) (h0 : 0 ≤ minute) (h1 : minute < 60) :
    isBeforeCutoff hour minute = true ↔ 60 * hour + minute ≤ 9 * 60 := by
  unfold isBeforeCutoff
  simp only [decide_eq_true_eq]
  omega

theorem gate_iff (hour minute : Int) (h0 : 0 ≤ minute) (h1 : minute < 60) :
    (isMarketHours hour minute && isBeforeCutoff hour minute) = true ↔
      8 * 60 + 30 ≤ 60 * hour + minute ∧ 60 * hour + minute ≤ 9 * 60 := by
  rw [Bool.and_eq_true, isMarketHours_iff hour minute h0 h1, isBeforeCutoff_iff hour minute h0 h1]
  omega

theorem cancelReply_eq (order_id : String) :
    ((Json.null.assign "success" (Json.bool false)).assign
        "message" (Json.str "Cancel order not implemented for internal matching")).assign
        "order_id" (Json.str order_id) =
      Json.obj [("message", Json.str "Cancel order not implemented for internal matching"),
        ("order_id", Json.str order_id), ("success", Json.bool false)] := by
  simp +decide [Json.assign, membersAssign]

theorem processMessage_cancel (env : Env) (e : ExecutionEngine) (members : List (String × Json))
    (ht : membersFind "type" members = some (Json.str "CANCEL_ORDER")) :
    processMessage env e (Except.ok (Json.obj members)) =
      some ([handleCancelOrderRequest env e (Except.ok (Json.obj members))], e) := by
  simp [processMessage, Json.valueString, ht, Json.getString, pure, Except.pure]

theorem cancel_internal (env : Env) (e : ExecutionEngine) (members : List (String × Json))
    (order_id : String) (hint : (e.use_paper_trading_ && e.alpaca_client_) = false)
    (hid : membersFind "order_id" members = some (Json.str order_id)) (hne : order_id ≠ "") :
    handleCancelOrderRequest env e (Except.ok (Json.obj members)) =
      Json.obj [("message", Json.str "Cancel order not implemented for internal matching"),
        ("order_id", Json.str order_id), ("success", Json.bool false)] := by
  simp only [handleCancelOrderRequest, bind, Except.bind, Json.valueString, hid, Json.getString,
    pure, Except.pure, hne, hint, if_false, Bool.false_eq_true]
  exact cancelReply_eq order_id

theorem cancel_missing (env : Env) (e : ExecutionEngine) (members : List (String × Json))
    (hid : membersFind "order_id" members = none ∨
      membersFind "order_id" members = some (Json.str "")) :
    handleCancelOrderRequest env e (Except.ok (Json.obj members)) =
      Json.obj [("error", Json.str "Missing order_id"), ("success", Json.bool false)] := by
  rcases hid with h | h <;>
    simp [handleCancelOrderRequest, bind, Except.bind, Json.valueString, h, Json.getString,
      pure, Except.pure, errorReply_eq]

/-! ### Defaults for side and order type -/

theorem equalsString_getD (o : Option Json) (text : String) :
    ((o.getD Json.null).equalsString text = true ↔ o = some (Json.str text)) := by
  cases o with
  | none => simp [Json.equalsString]
  | some j =>
    cases j <;> simp [Json.equalsString]

theorem orderOfRequest_fields (members : List (String × Json)) (cid sym : String) (q p : ℚ)
    (hc : membersFind "client_order_id" members = some (Json.str cid))
    (hs : membersFind "symbol" members = some (Json.str sym))
    (hq : membersFind "quantity" members = some (Json.num q))
    (hp : membersFind "price" members = some (Json.num p))
    (hot : ∀ v, membersFind "order_type" members = some v → ∃ t, v = Json.str t) :
    ∃ order, orderOfRequest (Json.obj members) = Except.ok order ∧
      order.client_order_id = cid ∧ order.symbol = sym ∧ order.quantity = q ∧
      order.price = p ∧ order.filled_qty = 0 ∧ order.status = OrderStatus.NEW ∧
      (membersFind "side" members = some (Json.str "BUY") → order.side = Side.BUY) ∧
      (membersFind "side" members ≠ some (Json.str "BUY") → order.side = Side.SELL) ∧
      (membersFind "order_type" members = some (Json.str "MARKET") →
        order.order_type = OrderType.MARKET) ∧
      (membersFind "order_type" members = some (Json.str "STOP") →
        order.order_type = OrderType.STOP) ∧
      (membersFind "order_type" members ≠ some (Json.str "MARKET") →
        membersFind "order_type" members ≠ some (Json.str "STOP") →
        order.order_type = OrderType.LIMIT) := by
  have hside := equalsString_getD (membersFind "side" members) "BUY"
  cases hty : membersFind "order_type" members with
  | none =>
    refine ⟨_, by simp [orderOfRequest, Json.index, hc, hs, hq, hp, hty, bind, Except.bind, pure,
      Except.pure, Json.getString, Json.getDouble, Json.valueString]; rfl,
      rfl, rfl, rfl, rfl, rfl, rfl, ?_, ?_, ?_, ?_, ?_⟩
    · intro h; simp [hside.2 h]
    · intro h
      have : ((membersFind "side" members).getD Json.null).equalsString "BUY" = false := by
        cases hb : ((membersFind "side" members).getD Json.null).equalsString "BUY" with
        | false => rfl
        | true => exact absurd (hside.1 hb) h
      simp [this]
    · intro h; simp at h
    · intro h; simp at h
    · intro _ _; simp
  | some v =>
    obtain ⟨t, rfl⟩ := hot v hty
    refine ⟨_, by simp [orderOfRequest, Json.index, hc, hs, hq, hp, hty, bind, Except.bind, pure,
      Except.pure, Json.getString, Json.getDouble, Json.valueString]; rfl,
      rfl, rfl, rfl, rfl, rfl, rfl, ?_, ?_, ?_, ?_, ?_⟩
    · intro h; simp [hside.2 h]
    · intro h
      have : ((membersFind "side" members).getD Json.null).equalsString "BUY" = false := by
        cases hb : ((membersFind "side" members).getD Json.null).equalsString "BUY" with
        | false => rfl
        | true => exact absurd (hside.1 hb) h
      simp [this]
    · intro h
      simp only [Option.some.injEq, Json.str.injEq] at h
      simp [h]
    · intro h
      simp only [Option.some.injEq, Json.str.injEq] at h
      simp [h]
    · intro h1 h2
      simp only [ne_eq, Option.some.injEq, Json.str.injEq] at h1 h2
      simp [h1, h2]

theorem handleOrderRequest_no_cross (env : Env) (e : ExecutionEngine) (request : Json)
    (order : Order) (hint : (e.use_paper_trading_ && e.alpaca_client_) = false)
    (hp : orderOfRequest request = Except.ok order) (b2 : OrderBook)
    (hm : matchOrders (addOrder (getOrderBook e order.symbol).1 order env.nanos).2 =
      some ([], b2)) :
    ∃ reply e1, handleOrderRequest env e (Except.ok request) = some (reply, e1) ∧
      reply.find? "side" = some (Json.str (if order.side = Side.BUY then "BUY" else "SELL")) ∧
      reply.find? "status" = some (Json.str "NEW") ∧
      reply.find? "success" = some (Json.bool true) := by
  have hM : handleOrderRequest env e (Except.ok request) =
      some (orderReply (addOrder (getOrderBook e order.symbol).1 order env.nanos).1 env.stamp,
        { (getOrderBook e order.symbol).2 with
          order_books_ :=
            booksAssign order.symbol b2 (getOrderBook e order.symbol).2.order_books_ }) := by
    simp only [handleOrderRequest, bind, Except.bind, hp, hint, hm]
    rfl
  refine ⟨_, _, hM, ?_, ?_, ?_⟩
  · rw [orderReply_eq]; simp [Json.find?, membersFind, addOrder]
  · rw [orderReply_eq]; simp [Json.find?, membersFind, addOrder, statusText]
  · rw [orderReply_eq]; simp [Json.find?, membersFind, addOrder]

/-! ### Facts about the examples -/

theorem negativeCrossBook_valid : Valid negativeCrossBook := by decide!

theorem restingBuyBook_wf :
    Valid restingBuyBook ∧ Sorted restingBuyBook ∧ Uncrossed restingBuyBook ∧
      NoEmptyLevel restingBuyBook := by
  refine ⟨by decide!, by decide!, by decide!, by decide!⟩

theorem executeTradeWith_id (heap : List Order) (buy sell : Nat) (p q : ℚ) :
    executeTradeWith id heap buy sell p q = executeTrade heap buy sell p q := rfl

theorem matchBodyWith_id (b : OrderBook) : matchBodyWith id b = matchBody b := rfl

theorem matchLoopWith_id :
    ∀ (fuel : Nat) (b : OrderBook) (reps : List ExecutionReport),
      matchLoopWith id fuel b reps = matchLoop fuel b reps := by
  intro fuel
  induction fuel with
  | zero => intro b reps; rfl
  | succ n ih =>
    intro b reps
    simp only [matchLoopWith, matchLoop, matchBodyWith_id]
    cases matchBody b with
    | none => rfl
    | some st =>
      cases st with
      | exit => rfl
      | prune b1 => exact ih b1 reps
      | trade b1 t => exact ih b1 _

/-! ### Rounding leaves whole numbers alone -/

theorem bitLength_le (k : Nat) : ∀ (fuel n : Nat), n < 2 ^ k → bitLength fuel n ≤ k := by
  induction k with
  | zero =>
    intro fuel n hn
    have : n = 0 := by simpa using hn
    subst this
    cases fuel <;> simp [bitLength]
  | succ k ih =>
    intro fuel n hn
    cases fuel with
    | zero => simp [bitLength]
    | succ f =>
      simp only [bitLength]
      split
      · omega
      · have : n / 2 < 2 ^ k := by
          rw [Nat.div_lt_iff_lt_mul (by norm_num)]
          rw [pow_succ] at hn
          exact hn
        have := ih f (n / 2) this
        omega

theorem roundHalfEven_intCast (n : Int) : roundHalfEven (n : ℚ) = n := by
  simp [roundHalfEven]

theorem roundDouble_exactOnWhole : ExactOnWhole roundDouble := by
  intro z h0 h1
  unfold roundDouble
  split
  · rename_i hz; rw [hz]
  · have hk : binaryExponent (z : ℚ) ≤ 52 := by
      unfold binaryExponent
      simp only [Rat.num_intCast, Rat.den_intCast]
      have hb : bitLength (z.natAbs + 1) z.natAbs ≤ 53 := by
        apply bitLength_le
        omega
      have hd : bitLength (1 + 1) 1 = 1 := by decide
      rw [hd]
      split <;> omega
    have hm : max (binaryExponent (z : ℚ)) (-1022) - 52 ≤ 0 := by
      have := max_le hk (by norm_num : (-1022 : Int) ≤ 52)
      omega
    obtain ⟨m, hm1⟩ : ∃ m : Nat, max (binaryExponent (z : ℚ)) (-1022) - 52 = -(m : Int) :=
      ⟨(-(max (binaryExponent (z : ℚ)) (-1022) - 52)).toNat, by omega⟩
    rw [hm1, zpow_neg, zpow_natCast]
    have hx : (z : ℚ) / ((2 : ℚ) ^ m)⁻¹ = ((z * 2 ^ m : Int) : ℚ) := by
      push_cast
      field_simp
    rw [hx, roundHalfEven_intCast]
    push_cast
    field_simp

/-! ### Rounded arithmetic agrees with exact arithmetic on whole quantities -/

theorem whole_sub_exact {rnd : ℚ → ℚ} (hr : ExactOnWhole rnd) (a f : ℚ)
    (h : (0 ≤ f ∧ f ≤ a) ∧ a < 2 ^ 53 ∧ (∃ z : Int, a = z) ∧ ∃ z : Int, f = z) :
    rnd (a - f) = a - f ∧ ∃ z : Int, a - f = z := by
  obtain ⟨⟨h0, h1⟩, h2, ⟨za, rfl⟩, ⟨zf, rfl⟩⟩ := h
  have e : ((za : ℚ) - (zf : ℚ)) = ((za - zf : Int) : ℚ) := by push_cast; ring
  rw [e]
  have h0' : (0 : Int) ≤ zf := by exact_mod_cast h0
  have h1' : zf ≤ za := by exact_mod_cast h1
  have h2' : za < 2 ^ 53 := by exact_mod_cast h2
  exact ⟨hr _ (by omega) (by omega), _, rfl⟩

theorem whole_add_exact {rnd : ℚ → ℚ} (hr : ExactOnWhole rnd) (a f q : ℚ)
    (h : (0 ≤ f ∧ f ≤ a) ∧ a < 2 ^ 53 ∧ (∃ z : Int, a = z) ∧ ∃ z : Int, f = z)
    (hq0 : 0 ≤ q) (hq1 : q ≤ a - f) (hqz : ∃ z : Int, q = z) :
    rnd (f + q) = f + q ∧ rnd (a - (f + q)) = a - (f + q) ∧ ∃ z : Int, f + q = z := by
  obtain ⟨⟨h0, h1⟩, h2, ⟨za, rfl⟩, ⟨zf, rfl⟩⟩ := h
  obtain ⟨z, rfl⟩ := hqz
  have e1 : ((zf : ℚ) + (z : ℚ)) = ((zf + z : Int) : ℚ) := by push_cast; ring
  have e2 : ((za : ℚ) - ((zf + z : Int) : ℚ)) = ((za - (zf + z) : Int) : ℚ) := by
    push_cast; ring
  have h0' : (0 : Int) ≤ zf := by exact_mod_cast h0
  have h2' : za < 2 ^ 53 := by exact_mod_cast h2
  have hq0' : (0 : Int) ≤ z := by exact_mod_cast hq0
  have hq1' : z ≤ za - zf := by
    have : (z : ℚ) ≤ ((za - zf : Int) : ℚ) := by push_cast; exact hq1
    exact_mod_cast this
  rw [e1, e2]
  exact ⟨hr _ (by omega) (by omega), hr _ (by omega) (by omega), _, rfl⟩

theorem executeTradeWith_eq (rnd : ℚ → ℚ) (heap : List Order) (buy sell : Nat) (p q : ℚ)
    (bo so : Order) (hb : heap[buy]? = some bo) (hs : heap[sell]? = some so) (hne : buy ≠ sell)
    (h1 : rnd (bo.filled_qty + q) = bo.filled_qty + q)
    (h2 : rnd (so.filled_qty + q) = so.filled_qty + q)
    (h3 : rnd (bo.quantity - (bo.filled_qty + q)) = bo.quantity - (bo.filled_qty + q)) :
    executeTradeWith rnd heap buy sell p q = executeTrade heap buy sell p q := by
  rw [executeTrade_eq heap buy sell p q bo so hb hs hne]
  obtain ⟨hbl, rfl⟩ := List.getElem?_eq_some.1 hb
  obtain ⟨hsl, rfl⟩ := List.getElem?_eq_some.1 hs
  simp [executeTradeWith, hne, Ne.symm hne, List.getElem?_set, hbl, hsl, fillOrder,
    tradeReport, List.set_comm _ _ _ (Ne.symm hne), h1, h2, h3]

theorem min_whole (a b : ℚ) (ha : ∃ z : Int, a = z) (hb : ∃ z : Int, b = z) :
    ∃ z : Int, min a b = z := by
  rcases le_total a b with h | h
  · rw [min_eq_left h]; exact ha
  · rw [min_eq_right h]; exact hb

theorem matchBodyWith_eq (rnd : ℚ → ℚ) (hr : ExactOnWhole rnd) (b : OrderBook) (hv : Valid b)
    (hw : WholeInv b) : matchBodyWith rnd b = matchBody b := by
  rcases hbids : b.bids_ with _ | ⟨⟨pb, bos⟩, brest⟩
  · simp [matchBodyWith, matchBody, hbids]
  rcases hasks : b.asks_ with _ | ⟨⟨pa, aos⟩, arest⟩
  · simp [matchBodyWith, matchBody, hbids, hasks]
  by_cases hlt : pb < pa
  · simp [matchBodyWith, matchBody, hbids, hasks, hlt]
  rcases bos with _ | ⟨hb, bt⟩
  · simp [matchBodyWith, matchBody, hbids, hasks, hlt]
  rcases aos with _ | ⟨ha, at1⟩
  · simp [matchBodyWith, matchBody, hbids, hasks, hlt]
  obtain ⟨bo, hbo, hbs, hbp⟩ := refsOK_get hv.1 (l := (pb, hb :: bt)) (by simp [hbids]) (h := hb) (by simp)
  obtain ⟨so, hso, hss, hsp⟩ := refsOK_get hv.2 (l := (pa, ha :: at1)) (by simp [hasks]) (h := ha) (by simp)
  have hne : hb ≠ ha := by
    rintro rfl
    rw [hbo] at hso
    cases hso
    rw [hbs] at hss
    cases hss
  have hwb := hw bo (List.getElem?_mem hbo)
  have hws := hw so (List.getElem?_mem hso)
  obtain ⟨erb, zrb⟩ := whole_sub_exact hr bo.quantity bo.filled_qty hwb
  obtain ⟨ers, zrs⟩ := whole_sub_exact hr so.quantity so.filled_qty hws
  have hq0 : 0 ≤ min (bo.quantity - bo.filled_qty) (so.quantity - so.filled_qty) :=
    le_min (by linarith [hwb.1.2]) (by linarith [hws.1.2])
  have hqz := min_whole _ _ zrb zrs
  obtain ⟨e1, e3, _⟩ := whole_add_exact hr bo.quantity bo.filled_qty _ hwb hq0 (min_le_left _ _) hqz
  obtain ⟨e2, _, _⟩ := whole_add_exact hr so.quantity so.filled_qty _ hws hq0 (min_le_right _ _) hqz
  have hE := executeTradeWith_eq rnd b.heap hb ha pa
    (min (bo.quantity - bo.filled_qty) (so.quantity - so.filled_qty)) bo so hbo hso hne e1 e2 e3
  simp only [matchBodyWith, matchBody, hbids, hasks, hlt, hbo, hso, erb, ers, hE, if_false,
    Option.bind_eq_bind, Option.some_bind]

theorem StepSpec.whole {b : OrderBook} {st : LoopStep} (hs : StepSpec b st) (hI : WholeInv b) :
    WholeInv (st.book b) := by
  cases hs with
  | exit _ => exact hI
  | prune pb pa bos aos brest arest hbids hasks hlt hemp => exact hI
  | trade pb pa hb ha bt at1 brest arest bo so hbids hasks hlt hbo hso hne hbs hss hbp hsp =>
    have hwb := hI bo (List.getElem?_mem hbo)
    have hws := hI so (List.getElem?_mem hso)
    obtain ⟨hb2, hs2⟩ := fillOrder_bounds bo so hwb.1 hws.1
    have hq0 : 0 ≤ min (bo.quantity - bo.filled_qty) (so.quantity - so.filled_qty) :=
      le_min (by linarith [hwb.1.2]) (by linarith [hws.1.2])
    have hqz := min_whole _ _ (whole_sub_exact (fun _ _ _ => rfl : ExactOnWhole id) bo.quantity bo.filled_qty hwb).2
      (whole_sub_exact (fun _ _ _ => rfl : ExactOnWhole id) so.quantity so.filled_qty hws).2
    have zb := (whole_add_exact (fun _ _ _ => rfl : ExactOnWhole id) bo.quantity bo.filled_qty _ hwb hq0 (min_le_left _ _) hqz).2.2
    have zs := (whole_add_exact (fun _ _ _ => rfl : ExactOnWhole id) so.quantity so.filled_qty _ hws hq0 (min_le_right _ _) hqz).2.2
    intro o ho
    simp only [LoopStep.book] at ho
    rcases List.mem_or_eq_of_mem_set ho with ho | rfl
    · rcases List.mem_or_eq_of_mem_set ho with ho | rfl
      · exact hI o ho
      · exact ⟨hb2, hwb.2.1, hwb.2.2.1, zb⟩
    · exact ⟨hs2, hws.2.1, hws.2.2.1, zs⟩

theorem matchLoopWith_eq (rnd : ℚ → ℚ) (hr : ExactOnWhole rnd) :
    ∀ (fuel : Nat) (b : OrderBook) (reps : List ExecutionReport), Valid b → WholeInv b →
      matchLoopWith rnd fuel b reps = matchLoop fuel b reps := by
  intro fuel
  induction fuel with
  | zero => intro b reps _ _; rfl
  | succ n ih =>
    intro b reps hv hw
    obtain ⟨st, hst, hsp⟩ := matchBody_spec b hv
    have hv1 := hsp.valid hv
    have hw1 := hsp.whole hw
    simp only [matchLoopWith, matchLoop, matchBodyWith_eq rnd hr b hv hw, hst]
    cases st with
    | exit => rfl
    | prune b1 => exact ih b1 reps hv1 hw1
    | trade b1 t => exact ih b1 _ hv1 hw1

theorem addOrder_whole (b : OrderBook) (o : Order) (n : Int) (hI : WholeInv b)
    (ho : o.wholeFresh) : WholeInv (addOrder b o n).2 := by
  obtain ⟨hf, hq0, hq1, hz⟩ := ho
  intro o1 ho1
  rw [addOrder_heap] at ho1
  rcases List.mem_append.1 ho1 with ho1 | ho1
  · exact hI o1 ho1
  · simp only [List.mem_singleton] at ho1
    subst ho1
    exact ⟨⟨by simp [hf], by simp [hf, hq0]⟩, hq1, hz, 0, by simp [hf]⟩

theorem cancelOrder_whole (b : OrderBook) (id : String) (hI : WholeInv b) :
    WholeInv (cancelOrder b id).2 := by
  cases hf : tableFind id b.orders_ with
  | none => simpa [cancelOrder, hf] using hI
  | some h1 =>
    cases hg : b.heap[h1]? with
    | none => simpa [cancelOrder, hf, hg] using hI
    | some o =>
      simp only [cancelOrder, hf, hg]
      intro o1 ho1
      rcases List.mem_or_eq_of_mem_set ho1 with ho1 | rfl
      · exact hI o1 ho1
      · exact hI o (List.getElem?_mem hg)

/-- On whole quantities below 2^53 a run with rounded arithmetic is the run with exact
arithmetic. -/
theorem runWith_eq (rnd : ℚ → ℚ) (hr : ExactOnWhole rnd) :
    ∀ (calls : List Call) (s : Session), Valid s.book → WholeInv s.book →
      (∀ o n, Call.addOrder o n ∈ calls → o.wholeFresh) →
      s.runWith rnd calls = s.run calls := by
  intro calls
  induction calls with
  | nil => intro s _ _ _; rfl
  | cons c cs ih =>
    intro s hv hw h0
    have h0s : ∀ o n, Call.addOrder o n ∈ cs → o.wholeFresh :=
      fun o n h => h0 o n (List.mem_cons_of_mem _ h)
    cases c with
    | addOrder o n =>
      simp only [Session.runWith, Session.run, Session.callWith, Session.call, Option.some_bind]
      exact ih _ (addOrder_valid _ _ _ hv)
        (addOrder_whole _ _ _ hw (h0 o n (List.mem_cons_self _ _))) h0s
    | cancelOrder id =>
      simp only [Session.runWith, Session.run, Session.callWith, Session.call, Option.some_bind]
      exact ih _ (cancelOrder_valid _ _ hv) (cancelOrder_whole _ _ hw) h0s
    | matchOrders =>
      obtain ⟨rs, b1, hm, hw1, hv1, _⟩ := matchOrders_inv (fun b0 _ => WholeInv b0)
        (fun _ _ _ _ hI hsp => hsp.whole hI) (fun _ _ _ _ _ hI hsp => hsp.whole hI)
        s.book hv hw
      have hmw : matchOrdersWith rnd s.book = some (rs, b1) := by
        unfold matchOrdersWith
        rw [matchLoopWith_eq rnd hr _ _ _ hv hw]
        exact hm
      simp only [Session.runWith, Session.run, Session.callWith, Session.call, hm, hmw,
        Option.map_some', Option.some_bind]
      exact ih _ hv1 hw1 h0s

theorem wholeInv_new (symbol : String) : WholeInv (OrderBook.new symbol) := by
  intro o ho
  simp [OrderBook.new] at ho

/-! ### Facts about the rounding examples -/

theorem roundingCalls_fresh :
    ∀ o n, Call.addOrder o n ∈ roundingCalls → o.filled_qty = 0 ∧ 0 ≤ o.quantity := by
  intro o n h
  simp only [roundingCalls, List.mem_cons, Call.addOrder.injEq, List.mem_singleton,
    reduceCtorEq, or_false, List.not_mem_nil] at h
  rcases h with ⟨rfl, _⟩ | ⟨rfl, _⟩ | ⟨rfl, _⟩
  · exact ⟨rfl, by decide!⟩
  · exact ⟨rfl, by decide!⟩
  · exact ⟨rfl, by decide!⟩

theorem overfillCalls_fresh :
    ∀ o n, Call.addOrder o n ∈ overfillCalls → o.filled_qty = 0 ∧ 0 ≤ o.quantity := by
  intro o n h
  simp only [overfillCalls, List.mem_cons, Call.addOrder.injEq, List.mem_singleton,
    reduceCtorEq, or_false, List.not_mem_nil] at h
  rcases h with ⟨rfl, _⟩ | ⟨rfl, _⟩ | ⟨rfl, _⟩
  · exact ⟨rfl, by decide!⟩
  · exact ⟨rfl, by decide!⟩
  · exact ⟨rfl, by decide!⟩

theorem scenarioB_whole : ∀ o n, Call.addOrder o n ∈ scenarioB → o.wholeFresh := by
  intro o n h
  simp only [scenarioB, List.mem_cons, Call.addOrder.injEq, List.mem_singleton,
    reduceCtorEq, or_false, List.not_mem_nil] at h
  rcases h with ⟨rfl, _⟩ | ⟨rfl, _⟩
  · exact ⟨rfl, by norm_num [limitOrder], by norm_num [limitOrder], 50, by norm_num [limitOrder]⟩
  · exact ⟨rfl, by norm_num [limitOrder], by norm_num [limitOrder], 30, by norm_num [limitOrder]⟩

/-- With rounded arithmetic that is exact on whole numbers, a run from the empty book whose
orders are submitted unfilled with whole quantities below 2^53 is the exact run. -/
theorem runWith_whole (rnd : ℚ → ℚ) (hr : ExactOnWhole rnd) (symbol : String)
    (calls : List Call) (h0 : ∀ o n, Call.addOrder o n ∈ calls → o.wholeFresh) :
    runWith rnd symbol calls = run symbol calls :=
  runWith_eq rnd hr calls { book := OrderBook.new symbol, reports := [] } (valid_new symbol)
    (wholeInv_new symbol) h0

/-! ## Claims -/

/-- C1, refuted as stated: in the double arithmetic of the code, after sell 0.8, buy 3.4,
sell 3.3 (all at 10.00, all submitted unfilled) and one `matchOrders`, the loop makes three
trades with quantities 0.8, 2.5999999999999996 and 4.440892098500626e-16; the BUY order ends
with `filled_qty` 3.4 while the two SELL orders end with 0.8 and 2.6, whose total
3.4000000000000004 is larger. -/
theorem C1_counterexample :
    (∀ o n, Call.addOrder o n ∈ roundingCalls → o.filled_qty = 0) ∧
    (runWith roundDouble "X" roundingCalls).map (fun s =>
        (s.book.heap.map (fun o => (o.client_order_id, o.quantity, o.filled_qty)),
          s.reports.map ExecutionReport.fill_qty,
          filledSum Side.BUY s.book.heap, filledSum Side.SELL s.book.heap)) =
      some ([("s1", 3602879701896397 / 4503599627370496, 3602879701896397 / 4503599627370496),
          ("b1", 7656119366529843 / 2251799813685248, 7656119366529843 / 2251799813685248),
          ("s2", 3715469692580659 / 1125899906842624, 5854679515581645 / 2251799813685248)],
        [3602879701896397 / 4503599627370496, 5854679515581644 / 2251799813685248, 1 / 2251799813685248],
        7656119366529843 / 2251799813685248, 15312238733059687 / 4503599627370496) ∧
    (7656119366529843 / 2251799813685248 : ℚ) < 15312238733059687 / 4503599627370496 := by
  refine ⟨fun o n h => (roundingCalls_fresh o n h).1, by decide!, by norm_num⟩

/-- C1, amended: in exact arithmetic (every `double` read as the rational it denotes, every
operation exact), after every sequence of `addOrder`, `matchOrders` and `cancelOrder` calls
on an initially empty book whose orders are submitted with `filled_qty = 0`, all calls return,
the arena holds exactly the submitted orders, and the total `filled_qty` of the BUY orders
equals the total `filled_qty` of the SELL orders and the total `fill_qty` of the reports
returned so far.  The same holds in the double arithmetic of the code when every submitted
quantity is a whole number from 0 up to (excluding) 2^53. -/
theorem C1_fill_totals_agree (symbol : String) (calls : List Call)
    (h0 : ∀ o n, Call.addOrder o n ∈ calls → o.filled_qty = 0) :
    (∃ s, run symbol calls = some s ∧
      s.book.heap.map Order.submittedAs = (submitted calls).map Order.submittedAs ∧
      filledSum Side.BUY s.book.heap = filledSum Side.SELL s.book.heap ∧
      filledSum Side.BUY s.book.heap = (s.reports.map ExecutionReport.fill_qty).sum) ∧
    ((∀ o n, Call.addOrder o n ∈ calls → o.wholeFresh) →
      ∃ s, runWith roundDouble symbol calls = some s ∧
        s.book.heap.map Order.submittedAs = (submitted calls).map Order.submittedAs ∧
        filledSum Side.BUY s.book.heap = filledSum Side.SELL s.book.heap ∧
        filledSum Side.BUY s.book.heap = (s.reports.map ExecutionReport.fill_qty).sum) := by
  obtain ⟨s, hs, _, hI⟩ := run_sums calls { book := OrderBook.new symbol, reports := [] }
    (valid_new symbol) (by simp [SumInv, OrderBook.new, filledSum])
    (fun c hc o n e => h0 o n (e ▸ hc))
  refine ⟨⟨s, hs, arena_is_submitted symbol calls s hs, hI⟩, fun hw => ?_⟩
  exact ⟨s, by rw [runWith_whole roundDouble roundDouble_exactOnWhole symbol calls hw]; exact hs,
    arena_is_submitted symbol calls s hs, hI⟩

theorem C1_fill_totals_agree_witness :
    (∀ o n, Call.addOrder o n ∈ scenarioB → o.filled_qty = 0) ∧
    (∀ o n, Call.addOrder o n ∈ scenarioB → o.wholeFresh) ∧
    ((∃ s, run "X" scenarioB = some s ∧
        s.book.heap.map Order.submittedAs = (submitted scenarioB).map Order.submittedAs ∧
        filledSum Side.BUY s.book.heap = filledSum Side.SELL s.book.heap ∧
        filledSum Side.BUY s.book.heap = (s.reports.map ExecutionReport.fill_qty).sum) ∧
      ((∀ o n, Call.addOrder o n ∈ scenarioB → o.wholeFresh) →
        ∃ s, runWith roundDouble "X" scenarioB = some s ∧
          s.book.heap.map Order.submittedAs = (submitted scenarioB).map Order.submittedAs ∧
          filledSum Side.BUY s.book.heap = filledSum Side.SELL s.book.heap ∧
          filledSum Side.BUY s.book.heap = (s.reports.map ExecutionReport.fill_qty).sum)) :=
  ⟨fun o n h => (scenarioB_fresh o n h).1, scenarioB_whole,
   C1_fill_totals_agree "X" scenarioB (fun o n h => (scenarioB_fresh o n h).1)⟩

/-- C2, refuted as stated: a BUY order submitted with `filled_qty = 0` and quantity `-1` sits
in the book with `filled_qty = 0 > quantity`.  And with quantities that are not negative, in
the double arithmetic of the code: after buy 3.4, sell 1.2, sell 2.6 (all at 10.00, all
submitted unfilled) and one `matchOrders`, the BUY order has `filled_qty`
3.4000000000000004, which is more than its quantity 3.4. -/
theorem C2_counterexample :
    ((run "X" negativeQuantityCalls).map
        (fun s => s.book.heap.map fun o => (o.filled_qty, o.quantity)) = some [(0, -1)] ∧
      ¬ ((0 : ℚ) ≤ -1)) ∧
    (∀ o n, Call.addOrder o n ∈ overfillCalls → o.filled_qty = 0 ∧ 0 ≤ o.quantity) ∧
    (runWith roundDouble "X" overfillCalls).map (fun s =>
        (s.book.heap.map (fun o => (o.client_order_id, o.quantity, o.filled_qty)),
          s.reports.map ExecutionReport.fill_qty)) =
      some ([("b1", 7656119366529843 / 2251799813685248, 7656119366529844 / 2251799813685248),
          ("s1", 5404319552844595 / 4503599627370496, 5404319552844595 / 4503599627370496),
          ("s2", 5854679515581645 / 2251799813685248, 2476979795053773 / 1125899906842624)],
        [5404319552844595 / 4503599627370496, 2476979795053773 / 1125899906842624]) ∧
    ¬ ((7656119366529844 / 2251799813685248 : ℚ) ≤ 7656119366529843 / 2251799813685248) := by
  refine ⟨⟨by decide!, by norm_num⟩, overfillCalls_fresh, by decide!, by norm_num⟩

/-- C2, amended: in exact arithmetic (every `double` read as the rational it denotes, every
operation exact), when every order is submitted with `filled_qty = 0` and a quantity that is
not negative, then after every sequence of `addOrder`, `matchOrders` and `cancelOrder` calls
on an initially empty book all calls return, the arena holds exactly the orders submitted,
and every one of them satisfies `0 ≤ filled_qty ≤ quantity`.  The same holds in the double
arithmetic of the code when every submitted quantity is a whole number from 0 up to
(excluding) 2^53. -/
theorem C2_filled_within_quantity (symbol : String) (calls : List Call)
    (h0 : ∀ o n, Call.addOrder o n ∈ calls → o.filled_qty = 0 ∧ 0 ≤ o.quantity) :
    (∃ s, run symbol calls = some s ∧
      s.book.heap.map Order.submittedAs = (submitted calls).map Order.submittedAs ∧
      ∀ o ∈ s.book.heap, 0 ≤ o.filled_qty ∧ o.filled_qty ≤ o.quantity) ∧
    ((∀ o n, Call.addOrder o n ∈ calls → o.wholeFresh) →
      ∃ s, runWith roundDouble symbol calls = some s ∧
        s.book.heap.map Order.submittedAs = (submitted calls).map Order.submittedAs ∧
        ∀ o ∈ s.book.heap, 0 ≤ o.filled_qty ∧ o.filled_qty ≤ o.quantity) := by
  obtain ⟨s, hs, _, hI⟩ := run_bounds calls { book := OrderBook.new symbol, reports := [] }
    (valid_new symbol) (by simp [BoundInv, OrderBook.new])
    (fun c hc o n e => h0 o n (e ▸ hc))
  refine ⟨⟨s, hs, arena_is_submitted symbol calls s hs, hI⟩, fun hw => ?_⟩
  exact ⟨s, by rw [runWith_whole roundDouble roundDouble_exactOnWhole symbol calls hw]; exact hs,
    arena_is_submitted symbol calls s hs, hI⟩

theorem C2_filled_within_quantity_witness :
    (∀ o n, Call.addOrder o n ∈ scenarioB → o.filled_qty = 0 ∧ 0 ≤ o.quantity) ∧
    (∀ o n, Call.addOrder o n ∈ scenarioB → o.wholeFresh) ∧
    ((∃ s, run "X" scenarioB = some s ∧
        s.book.heap.map Order.submittedAs = (submitted scenarioB).map Order.submittedAs ∧
        ∀ o ∈ s.book.heap, 0 ≤ o.filled_qty ∧ o.filled_qty ≤ o.quantity) ∧
      ((∀ o n, Call.addOrder o n ∈ scenarioB → o.wholeFresh) →
        ∃ s, runWith roundDouble "X" scenarioB = some s ∧
          s.book.heap.map Order.submittedAs = (submitted scenarioB).map Order.submittedAs ∧
          ∀ o ∈ s.book.heap, 0 ≤ o.filled_qty ∧ o.filled_qty ≤ o.quantity)) :=
  ⟨scenarioB_fresh, scenarioB_whole, C2_filled_within_quantity "X" scenarioB scenarioB_fresh⟩

/-- C3: in every sequence of `addOrder` and `matchOrders` calls on an initially empty book
whose orders are submitted unfilled with positive quantities, every trade made by an
iteration of the matching loop that is started next takes a not yet filled BUY order and a
not yet filled SELL order such that every other not yet filled BUY order has a strictly lower
price, or the same price and a later submission (a larger arena index), and every other not
yet filled SELL order has a strictly higher price, or the same price and a later
submission. -/
theorem C3_price_time_priority (symbol : String) (calls : List Call)
    (h0 : ∀ c ∈ calls, c.submitsPositive) (s : Session) (hs : run symbol calls = some s)
    (k : Nat) (bk bk1 : OrderBook) (t : Trade) (hk : matchIter k s.book = some bk)
    (ht : matchBody bk = some (LoopStep.trade bk1 t)) :
    ∃ bo so, bk.heap[t.buy_order]? = some bo ∧ bk.heap[t.sell_order]? = some so ∧
      bo.side = Side.BUY ∧ so.side = Side.SELL ∧
      bo.filled_qty < bo.quantity ∧ so.filled_qty < so.quantity ∧
      (∀ h o, bk.heap[h]? = some o → o.side = Side.BUY → o.filled_qty < o.quantity →
        o.price < bo.price ∨ (o.price = bo.price ∧ t.buy_order ≤ h)) ∧
      (∀ h o, bk.heap[h]? = some o → o.side = Side.SELL → o.filled_qty < o.quantity →
        so.price < o.price ∨ (o.price = so.price ∧ t.sell_order ≤ h)) := by
  obtain ⟨s1, hs1, hv, hI⟩ := run_fifo calls { book := OrderBook.new symbol, reports := [] }
    (valid_new symbol) (fifo_new symbol) h0
  have e : s1 = s := Option.some.inj (hs1.symm.trans hs)
  subst e
  obtain ⟨hIk, hvk⟩ := matchIter_inv FifoInv (fun b st hv hP hsp => hsp.fifo hv hP) k s1.book bk
    hv hI hk
  exact trade_priority bk bk1 t hvk hIk ht

theorem C3_price_time_priority_witness :
    (∀ c ∈ priorityCalls, c.submitsPositive) ∧
    run "X" priorityCalls = some { book := priorityBook, reports := [] } ∧
    matchIter 1 priorityBook = some priorityBook1 ∧
    matchBody priorityBook1 = some (LoopStep.trade priorityBook2 priorityTrade) ∧
    ∃ bo so, priorityBook1.heap[priorityTrade.buy_order]? = some bo ∧
      priorityBook1.heap[priorityTrade.sell_order]? = some so ∧
      bo.side = Side.BUY ∧ so.side = Side.SELL ∧
      bo.filled_qty < bo.quantity ∧ so.filled_qty < so.quantity ∧
      (∀ h o, priorityBook1.heap[h]? = some o → o.side = Side.BUY →
        o.filled_qty < o.quantity →
        o.price < bo.price ∨ (o.price = bo.price ∧ priorityTrade.buy_order ≤ h)) ∧
      (∀ h o, priorityBook1.heap[h]? = some o → o.side = Side.SELL →
        o.filled_qty < o.quantity →
        so.price < o.price ∨ (o.price = so.price ∧ priorityTrade.sell_order ≤ h)) :=
  ⟨priorityCalls_positive, by decide!, by decide!, by decide!,
   C3_price_time_priority "X" priorityCalls priorityCalls_positive
     { book := priorityBook, reports := [] } (by decide!) 1 priorityBook1 priorityBook2
     priorityTrade (by decide!) (by decide!)⟩

/-- C4: on a book with valid references and maps in key order, `matchOrders` returns, and
every report it returns is the report of a trade made by some iteration of its loop whose
`fill_price` is the price of a level of `asks_` at that moment and at most the price of every
level of `asks_` (the lowest ask), equals the limit price of the sell order traded, and is at
most the limit price of the buy order traded; when a side is empty or best bid < best ask on
entry, `matchOrders` returns no report and leaves the book as it is. -/
theorem C4_fill_price_is_lowest_ask (b : OrderBook) (hv : Valid b) (hs : Sorted b) :
    (∃ rs b1, matchOrders b = some (rs, b1) ∧
      ∀ r ∈ rs, ∃ k bk bk1 t, matchIter k b = some bk ∧
        matchBody bk = some (LoopStep.trade bk1 t) ∧ t.report = r ∧
        (∃ l ∈ bk.asks_, l.1 = r.fill_price ∧ t.sell_order ∈ l.2) ∧
        (∀ l ∈ bk.asks_, r.fill_price ≤ l.1) ∧
        (∃ so, bk.heap[t.sell_order]? = some so ∧ so.side = Side.SELL ∧
          so.price = r.fill_price) ∧
        (∃ bo, bk.heap[t.buy_order]? = some bo ∧ bo.side = Side.BUY ∧
          r.fill_price ≤ bo.price)) ∧
    (Uncrossed b → matchOrders b = some ([], b)) :=
  ⟨matchOrders_trade_price b hv hs, matchOrders_uncrossed b⟩

theorem C4_fill_price_is_lowest_ask_witness :
    Valid scenarioBBook ∧ Sorted scenarioBBook ∧
    (∃ rs b1, matchOrders scenarioBBook = some (rs, b1) ∧
      ∀ r ∈ rs, ∃ k bk bk1 t, matchIter k scenarioBBook = some bk ∧
        matchBody bk = some (LoopStep.trade bk1 t) ∧ t.report = r ∧
        (∃ l ∈ bk.asks_, l.1 = r.fill_price ∧ t.sell_order ∈ l.2) ∧
        (∀ l ∈ bk.asks_, r.fill_price ≤ l.1) ∧
        (∃ so, bk.heap[t.sell_order]? = some so ∧ so.side = Side.SELL ∧
          so.price = r.fill_price) ∧
        (∃ bo, bk.heap[t.buy_order]? = some bo ∧ bo.side = Side.BUY ∧
          r.fill_price ≤ bo.price)) ∧
    (Uncrossed scenarioBBook → matchOrders scenarioBBook = some ([], scenarioBBook)) :=
  ⟨by decide!, by decide!, C4_fill_price_is_lowest_ask scenarioBBook (by decide!) (by decide!)⟩

/-- C5, refuted as stated: a SELL of 30 at 9.50 added to the uncrossed book whose only
resting order is a BUY at 10.00 trades at 9.50, the aggressor's own limit, and not at the
resting order's limit price 10.00. -/
theorem C5_counterexample :
    Uncrossed restingBuyBook ∧
    restingBuyBook.heap.map (fun o => (o.side, o.price)) = [(Side.BUY, 10)] ∧
    (matchOrders (addOrder restingBuyBook (limitOrder "s1" "X" Side.SELL 30 (19 / 2)) 2000).2).map
      (fun r => r.1.map ExecutionReport.fill_price) = some [19 / 2] ∧
    (19 / 2 : ℚ) ≠ 10 := by
  refine ⟨by decide!, by decide!, by decide!, by norm_num⟩

/-- C5, amended: when an order is added to an uncrossed book (valid references, maps in key
order), the following `matchOrders` returns and the `fill_price` of each resulting trade is
the limit price of the SELL order of that trade: if the added order is a BUY, the limit price
of a SELL order that was already resting in the book; if the added order is a SELL at price
`s`, that price `s` itself. -/
theorem C5_fill_price_is_sell_limit (b : OrderBook) (o : Order) (n : Int) (hv : Valid b)
    (hs : Sorted b) (hu : Uncrossed b) :
    ∃ rs b2, matchOrders (addOrder b o n).2 = some (rs, b2) ∧
      ∀ r ∈ rs,
        (o.side = Side.BUY → ∃ h so, Resting b.asks_ r.fill_price h ∧ b.heap[h]? = some so ∧
          so.side = Side.SELL ∧ so.price = r.fill_price) ∧
        (o.side = Side.SELL → r.fill_price = o.price) := by
  cases hside : o.side with
  | BUY =>
    obtain ⟨rs, b2, hm, h⟩ := buy_aggressor_price b o n hv hside
    exact ⟨rs, b2, hm, fun r hr => ⟨fun _ => h r hr, fun e => by cases e⟩⟩
  | SELL =>
    obtain ⟨rs, b2, hm, h⟩ := sell_aggressor_price b o n hv hs hu hside
    exact ⟨rs, b2, hm, fun r hr => ⟨fun e => (by cases e), fun _ => h r hr⟩⟩

theorem C5_fill_price_is_sell_limit_witness :
    Valid restingBuyBook ∧ Sorted restingBuyBook ∧ Uncrossed restingBuyBook ∧
    ∃ rs b2, matchOrders (addOrder restingBuyBook
        (limitOrder "s1" "X" Side.SELL 30 (19 / 2)) 2000).2 = some (rs, b2) ∧
      ∀ r ∈ rs,
        ((limitOrder "s1" "X" Side.SELL 30 (19 / 2)).side = Side.BUY →
          ∃ h so, Resting restingBuyBook.asks_ r.fill_price h ∧
            restingBuyBook.heap[h]? = some so ∧
            so.side = Side.SELL ∧ so.price = r.fill_price) ∧
        ((limitOrder "s1" "X" Side.SELL 30 (19 / 2)).side = Side.SELL →
          r.fill_price = (limitOrder "s1" "X" Side.SELL 30 (19 / 2)).price) :=
  ⟨by decide!, by decide!, by decide!,
   C5_fill_price_is_sell_limit restingBuyBook (limitOrder "s1" "X" Side.SELL 30 (19 / 2)) 2000
     (by decide!) (by decide!) (by decide!)⟩

/-- C6: on every book with valid references and maps in key order, `matchOrders` returns and
leaves no cross: `bids_` is empty, or `asks_` is empty, or the best bid is strictly below the
best ask and every bid level is priced strictly below every ask level. -/
theorem C6_no_cross_remains (b : OrderBook) (hv : Valid b) (hs : Sorted b) :
    ∃ rs b1, matchOrders b = some (rs, b1) ∧
      (b1.bids_ = [] ∨ b1.asks_ = [] ∨
        (getBestBid b1 < getBestAsk b1 ∧ ∀ lb ∈ b1.bids_, ∀ la ∈ b1.asks_, lb.1 < la.1)) :=
  matchOrders_no_cross b hv hs

theorem C6_no_cross_remains_witness :
    Valid priorityBook ∧ Sorted priorityBook ∧
    ∃ rs b1, matchOrders priorityBook = some (rs, b1) ∧
      (b1.bids_ = [] ∨ b1.asks_ = [] ∨
        (getBestBid b1 < getBestAsk b1 ∧ ∀ lb ∈ b1.bids_, ∀ la ∈ b1.asks_, lb.1 < la.1)) :=
  ⟨by decide!, by decide!, C6_no_cross_remains priorityBook (by decide!) (by decide!)⟩

/-- C8: after any sequence of `addOrder` calls that all submit BUY orders to an initially
empty book (in particular a single buy), all calls return, `matchOrders` returns no reports
and leaves the book unchanged, `getBestAsk` returns the no-quote value 0, `getAskDepth` is 0,
`getBidDepth` is the number of distinct submitted bid prices, and, when at least one order was
submitted, `getBestBid` is a submitted bid price that no submitted bid price exceeds. -/
theorem C8_buy_only_book (symbol : String) (calls : List Call)
    (hc : ∀ c ∈ calls, ∃ o n, c = Call.addOrder o n ∧ o.side = Side.BUY) :
    ∃ s, run symbol calls = some s ∧ s.reports = [] ∧
      matchOrders s.book = some ([], s.book) ∧
      getBestAsk s.book = 0 ∧ getAskDepth s.book = 0 ∧
      getBidDepth s.book = ((submitted calls).map Order.price).dedup.length ∧
      (calls ≠ [] → getBestBid s.book ∈ (submitted calls).map Order.price ∧
        ∀ p ∈ (submitted calls).map Order.price, p ≤ getBestBid s.book) :=
  buys_only_book symbol calls hc

theorem C8_buy_only_book_witness :
    (∀ c ∈ scenarioC, ∃ o n, c = Call.addOrder o n ∧ o.side = Side.BUY) ∧
    (run "X" scenarioC).map (fun s => (getBestBid s.book, getBestAsk s.book,
      getBidDepth s.book, getAskDepth s.book)) = some (9, 0, 1, 0) ∧
    ∃ s, run "X" scenarioC = some s ∧ s.reports = [] ∧
      matchOrders s.book = some ([], s.book) ∧
      getBestAsk s.book = 0 ∧ getAskDepth s.book = 0 ∧
      getBidDepth s.book = ((submitted scenarioC).map Order.price).dedup.length ∧
      (scenarioC ≠ [] → getBestBid s.book ∈ (submitted scenarioC).map Order.price ∧
        ∀ p ∈ (submitted scenarioC).map Order.price, p ≤ getBestBid s.book) :=
  ⟨scenarioC_buys, by decide!, C8_buy_only_book "X" scenarioC scenarioC_buys⟩

/-- C9, violated by the code: the buy order with id `ORD0000000000001000_0` is canceled
(`cancelOrder` returns true, the status becomes CANCELED with `filled_qty = 0`); the next
`matchOrders` nevertheless trades it against the sell order: the report carries its
`order_id`, its `filled_qty` becomes 10 and its status FILLED. -/
theorem C9_canceled_order_is_matched :
    (run "X" (cancelThenCrossCalls.take 1)).map
        (fun s => (cancelOrder s.book "ORD0000000000001000_0").1) = some true ∧
    (run "X" (cancelThenCrossCalls.take 2)).map
        (fun s => s.book.heap.map fun o => (o.order_id, o.filled_qty, o.status)) =
      some [("ORD0000000000001000_0", 0, OrderStatus.CANCELED)] ∧
    (run "X" cancelThenCrossCalls).map
        (fun s => (s.reports.map fun r => (r.order_id, r.fill_qty),
          s.book.heap.map fun o => (o.order_id, o.filled_qty, o.status))) =
      some ([("ORD0000000000001000_0", 10)],
        [("ORD0000000000001000_0", 10, OrderStatus.FILLED),
         ("ORD0000000000002000_1", 10, OrderStatus.FILLED)]) := by
  refine ⟨by decide!, by decide!, by decide!⟩

/-- C10: `cancelOrder(id)` for an id that is not in the id table returns false and leaves the
book unchanged; and for the id that an `addOrder` call assigns (after any earlier calls on an
initially empty book), the first `cancelOrder(id)`, made after any calls that do not cancel
that id, returns true, while a `cancelOrder(id)` made after any further calls whatsoever
returns false. -/
theorem C10_cancel_idempotent (symbol : String) (calls1 : List Call) (o : Order) (n : Int)
    (calls2 calls3 : List Call) :
    (∀ b id, tableFind id b.orders_ = none → cancelOrder b id = (false, b)) ∧
    ∃ s1, run symbol calls1 = some s1 ∧
      (Call.cancelOrder (addOrder s1.book o n).1.order_id ∉ calls2 →
        ∃ s2 s3,
          run symbol (calls1 ++ Call.addOrder o n :: calls2) = some s2 ∧
          (cancelOrder s2.book (addOrder s1.book o n).1.order_id).1 = true ∧
          run symbol (calls1 ++ Call.addOrder o n :: calls2 ++
            Call.cancelOrder (addOrder s1.book o n).1.order_id :: calls3) = some s3 ∧
          (cancelOrder s3.book (addOrder s1.book o n).1.order_id).1 = false) :=
  ⟨cancelOrder_absent, cancel_issued_id symbol calls1 o n calls2 calls3⟩

theorem C10_cancel_idempotent_witness :
    (addOrder (OrderBook.new "X") (limitOrder "b1" "X" Side.BUY 10 10) 1000).1.order_id =
      "ORD0000000000001000_0" ∧
    Call.cancelOrder "ORD0000000000001000_0" ∉ betweenCalls ∧
    ((∀ b id, tableFind id b.orders_ = none → cancelOrder b id = (false, b)) ∧
    ∃ s1, run "X" [] = some s1 ∧
      (Call.cancelOrder
          (addOrder s1.book (limitOrder "b1" "X" Side.BUY 10 10) 1000).1.order_id ∉
            betweenCalls →
        ∃ s2 s3,
          run "X" ([] ++ Call.addOrder (limitOrder "b1" "X" Side.BUY 10 10) 1000 ::
            betweenCalls) = some s2 ∧
          (cancelOrder s2.book
            (addOrder s1.book (limitOrder "b1" "X" Side.BUY 10 10) 1000).1.order_id).1 = true ∧
          run "X" ([] ++ Call.addOrder (limitOrder "b1" "X" Side.BUY 10 10) 1000 ::
            betweenCalls ++ Call.cancelOrder
              (addOrder s1.book (limitOrder "b1" "X" Side.BUY 10 10) 1000).1.order_id ::
                laterCalls) = some s3 ∧
          (cancelOrder s3.book
            (addOrder s1.book (limitOrder "b1" "X" Side.BUY 10 10) 1000).1.order_id).1 =
              false)) :=
  ⟨by decide!, by decide!,
   C10_cancel_idempotent "X" [] (limitOrder "b1" "X" Side.BUY 10 10) 1000 betweenCalls
     laterCalls⟩

/-- C11, violated by the code: (1) the buy order `ORD0000000000001000_0` is canceled (status
CANCELED) and the next `matchOrders` trades it and sets its status to FILLED; (2) in
scenario A both orders end FILLED, the id of the filled buy order is still in `orders_`, and
`cancelOrder` on it returns true and sets its status to CANCELED. -/
theorem C11_terminal_status_changes :
    ((run "X" (cancelThenCrossCalls.take 2)).map
        (fun s => s.book.heap.map fun o => (o.order_id, o.status)) =
      some [("ORD0000000000001000_0", OrderStatus.CANCELED)] ∧
     (run "X" cancelThenCrossCalls).map
        (fun s => s.book.heap.map fun o => (o.order_id, o.status)) =
      some [("ORD0000000000001000_0", OrderStatus.FILLED),
            ("ORD0000000000002000_1", OrderStatus.FILLED)]) ∧
    ((run "X" scenarioA).map
        (fun s => (s.book.heap.map fun o => (o.order_id, o.status),
          (cancelOrder s.book "ORD0000000000001000_0").1)) =
      some ([("ORD0000000000001000_0", OrderStatus.FILLED),
             ("ORD0000000000002000_1", OrderStatus.FILLED)], true) ∧
     (run "X" fillThenCancelCalls).map
        (fun s => s.book.heap.map fun o => (o.order_id, o.status)) =
      some [("ORD0000000000001000_0", OrderStatus.CANCELED),
            ("ORD0000000000002000_1", OrderStatus.FILLED)]) := by
  refine ⟨⟨by decide!, by decide!⟩, ⟨by decide!, by decide!⟩⟩

/-- C12, refuted as stated: `addOrder` of a BUY order for -5 shares returns a report with
status NEW and puts the order into the book; the order request for -5 shares, routed to
internal matching, is answered from that report (status "NEW", success true) and the engine's
book for the symbol holds the order. -/
theorem C12_counterexample :
    (limitOrder "c1" "X" Side.BUY (-5) 100).quantity < 0 ∧
    (addOrder (OrderBook.new "X") (limitOrder "c1" "X" Side.BUY (-5) 100) 1000).1.status =
      OrderStatus.NEW ∧
    (addOrder (OrderBook.new "X") (limitOrder "c1" "X" Side.BUY (-5) 100) 1000).2.bids_ =
      [(100, [0])] ∧
    ((addOrder (OrderBook.new "X") (limitOrder "c1" "X" Side.BUY (-5) 100) 1000).2.heap.map
      fun o => (o.order_id, o.quantity, o.status)) =
      [("ORD0000000000001000_0", -5, OrderStatus.NEW)] ∧
    (handleOrderRequest sampleEnv internalEngine (Except.ok negativeRequest)).map
        (fun r => r.1) =
      some (orderReply
        { order_id := "ORD0000000000001000_0", client_order_id := "c1", symbol := "X",
          side := Side.BUY, status := OrderStatus.NEW, fill_price := 0, fill_qty := 0,
          remaining_qty := -5, message := "Order accepted" } 2000) ∧
    (handleOrderRequest sampleEnv internalEngine (Except.ok negativeRequest)).map
        (fun r => r.2.order_books_.map fun p =>
          (p.1, p.2.bids_, p.2.heap.map fun o => (o.order_id, o.quantity, o.status))) =
      some [("X", [(100, [0])], [("ORD0000000000001000_0", -5, OrderStatus.NEW)])] := by
  refine ⟨by decide!, by decide!, by decide!, by decide!, ?_, ?_⟩
  · with_unfolding_all rfl
  · with_unfolding_all rfl

/-- C12, amended: an order with a negative quantity is accepted at submission time.
`addOrder` yields a report with status NEW and `remaining_qty` equal to the (negative)
quantity, stores the order in the arena and lets it rest on its side of the book at its price.
An order request that carries the order and is routed to internal matching (on an engine
whose books are well formed) is answered with `success = true` from a report whose status is
not REJECTED, and afterwards the engine's book for the symbol holds the order. -/
theorem C12_negative_quantity_accepted (b : OrderBook) (n : Int) (env : Env)
    (e : ExecutionEngine) (request : Json) (order : Order) (hq : order.quantity < 0)
    (hint : (e.use_paper_trading_ && e.alpaca_client_) = false) (he : EngineValid e)
    (hp : orderOfRequest request = Except.ok order) :
    ((addOrder b order n).1.status = OrderStatus.NEW ∧
      (addOrder b order n).1.remaining_qty = order.quantity ∧
      (addOrder b order n).2.heap =
        b.heap ++ [{ order with order_id := generateOrderId n b.order_id_counter_ }] ∧
      Resting (if order.side = Side.BUY then (addOrder b order n).2.bids_
        else (addOrder b order n).2.asks_) order.price b.heap.length) ∧
    ∃ report e1 book,
      handleOrderRequest env e (Except.ok request) = some (orderReply report env.stamp, e1) ∧
      report.status ≠ OrderStatus.REJECTED ∧
      (orderReply report env.stamp).find? "success" = some (Json.bool true) ∧
      booksFind order.symbol e1.order_books_ = some book ∧
      book.heap.map Order.submittedAs =
        (getOrderBook e order.symbol).1.heap.map Order.submittedAs ++ [order.submittedAs] ∧
      EngineValid e1 := by
  have _ := hq
  exact ⟨addOrder_accepts b order n, handleOrderRequest_internal env e request order hint he hp⟩

theorem C12_negative_quantity_accepted_witness :
    (limitOrder "c1" "X" Side.BUY (-5) 100).quantity < 0 ∧
    (internalEngine.use_paper_trading_ && internalEngine.alpaca_client_) = false ∧
    EngineValid internalEngine ∧
    orderOfRequest negativeRequest = Except.ok (limitOrder "c1" "X" Side.BUY (-5) 100) ∧
    (((addOrder (OrderBook.new "X") (limitOrder "c1" "X" Side.BUY (-5) 100) 1000).1.status =
        OrderStatus.NEW ∧
      (addOrder (OrderBook.new "X") (limitOrder "c1" "X" Side.BUY (-5) 100) 1000).1.remaining_qty =
        (limitOrder "c1" "X" Side.BUY (-5) 100).quantity ∧
      (addOrder (OrderBook.new "X") (limitOrder "c1" "X" Side.BUY (-5) 100) 1000).2.heap =
        (OrderBook.new "X").heap ++ [{ limitOrder "c1" "X" Side.BUY (-5) 100 with
          order_id := generateOrderId 1000 (OrderBook.new "X").order_id_counter_ }] ∧
      Resting (if (limitOrder "c1" "X" Side.BUY (-5) 100).side = Side.BUY
          then (addOrder (OrderBook.new "X") (limitOrder "c1" "X" Side.BUY (-5) 100) 1000).2.bids_
          else (addOrder (OrderBook.new "X") (limitOrder "c1" "X" Side.BUY (-5) 100) 1000).2.asks_)
        (limitOrder "c1" "X" Side.BUY (-5) 100).price (OrderBook.new "X").heap.length) ∧
    ∃ report e1 book,
      handleOrderRequest sampleEnv internalEngine (Except.ok negativeRequest) =
        some (orderReply report sampleEnv.stamp, e1) ∧
      report.status ≠ OrderStatus.REJECTED ∧
      (orderReply report sampleEnv.stamp).find? "success" = some (Json.bool true) ∧
      booksFind (limitOrder "c1" "X" Side.BUY (-5) 100).symbol e1.order_books_ = some book ∧
      book.heap.map Order.submittedAs =
        (getOrderBook internalEngine (limitOrder "c1" "X" Side.BUY (-5) 100).symbol).1.heap.map
          Order.submittedAs ++ [(limitOrder "c1" "X" Side.BUY (-5) 100).submittedAs] ∧
      EngineValid e1) :=
  ⟨by decide!, rfl, engineValid_internal, negativeRequest_order,
    C12_negative_quantity_accepted (OrderBook.new "X") 1000 sampleEnv internalEngine
      negativeRequest (limitOrder "c1" "X" Side.BUY (-5) 100) (by decide!) rfl
      engineValid_internal negativeRequest_order⟩

/-- C13, violated by the code: a message whose payload cannot be decoded as JSON, a payload
that is not an object, and an object whose `type` is not a string get no reply at all.  The
exception raised by `parse` or by `value("type", "order")` leaves the `try` block of
`processOrders` before the send, and the `catch` of the loop only writes a log line. -/
theorem C13_malformed_message_gets_no_reply (env : Env) (e : ExecutionEngine) :
    (∀ x, processMessage env e (Except.error x) = some ([], e)) ∧
    processMessage env e (Except.ok numericTypeRequest) = some ([], e) ∧
    processMessage env e (Except.ok (Json.arr [])) = some ([], e) ∧
    (∀ members v, membersFind "type" members = some v → (∀ s, v ≠ Json.str s) →
      processMessage env e (Except.ok (Json.obj members)) = some ([], e)) :=
  ⟨processMessage_parse_error env e, rfl, rfl, processMessage_type_not_string env e⟩

/-- C14: when the `type` of a request is a string other than the ten dispatched values, the
only reply sent is the object with the two members `success = false` and
`error = "Unknown request type"`, and the engine (with its order books) is unchanged. -/
theorem C14_unknown_request_type (env : Env) (e : ExecutionEngine) (request : Json)
    (request_type : String) (ht : request.valueString "type" "order" = Except.ok request_type)
    (hn : request_type ∉ requestTypes) :
    processMessage env e (Except.ok request) =
      some ([Json.obj [("error", Json.str "Unknown request type"),
        ("success", Json.bool false)]], e) :=
  processMessage_unknown env e request request_type ht hn

theorem C14_unknown_request_type_witness :
    unknownRequest.valueString "type" "order" = Except.ok "ping" ∧
    "ping" ∉ requestTypes ∧
    processMessage sampleEnv internalEngine (Except.ok unknownRequest) =
      some ([Json.obj [("error", Json.str "Unknown request type"),
        ("success", Json.bool false)]], internalEngine) :=
  ⟨rfl, by decide,
    C14_unknown_request_type sampleEnv internalEngine unknownRequest "ping" rfl (by decide)⟩

/-- C15, refuted as stated: with `max_positions = -1` the comparison
`active_positions_.size() >= config_.max_positions` is made in `size_t`, the candidate "A" is
admitted, and one position is active although the cap is -1. -/
theorem C15_counterexample :
    (configWithCap (-1)).max_positions = -1 ∧
    shouldBuy (MoversStrategy.new (configWithCap (-1))) "A" 6 = true ∧
    activeCount ((MoversStrategy.new (configWithCap (-1))).runOps
      [StrategyOp.attempt "A" 6 10 "MOVERS_1" 0]) = 1 ∧
    ¬ ((1 : Int) ≤ -1) := by
  refine ⟨rfl, by decide!, by decide!, by decide⟩

/-- C15, amended: for every config with `max_positions ≥ 0` and every sequence of admission
attempts (`shouldBuy`, followed by `createPosition` when it returns true), position closes
and `forceCloseAll` starting from an empty position set, the number of positions with
`is_active = true` never exceeds `config_.max_positions`. -/
theorem C15_active_positions_capped (config : MoversConfig) (ops : List StrategyOp)
    (h0 : 0 ≤ config.max_positions) :
    (activeCount ((MoversStrategy.new config).runOps ops) : Int) ≤ config.max_positions :=
  active_le_cap config ops h0

theorem C15_active_positions_capped_witness :
    0 ≤ (configWithCap 2).max_positions ∧
    (activeCount ((MoversStrategy.new (configWithCap 2)).runOps capTwoOps) : Int) ≤
      (configWithCap 2).max_positions :=
  ⟨by decide, C15_active_positions_capped (configWithCap 2) capTwoOps (by decide)⟩

/-- C16, violated by the code: with `max_positions = 1`, after "A" is admitted `shouldBuy` for
"B" is false while "A" is active; after the position of "A" is closed no position is active,
"B" has no position and is not in the dedup set and its gain 6 is at least the buy threshold
5, yet `shouldBuy` for "B" still returns false, because the cap is compared with the number
of all positions ever created. -/
theorem C16_closed_position_frees_no_capacity :
    shouldBuy ((MoversStrategy.new (configWithCap 1)).runOps (scenarioDOps.take 1)) "B" 6 =
      false ∧
    ((MoversStrategy.new (configWithCap 1)).runOps scenarioDOps).active_positions_.map
        (fun p => (p.symbol, p.is_active)) = [("A", false)] ∧
    activeCount ((MoversStrategy.new (configWithCap 1)).runOps scenarioDOps) = 0 ∧
    ((MoversStrategy.new (configWithCap 1)).runOps scenarioDOps).purchased_today_ = ["A"] ∧
    (configWithCap 1).buy_threshold ≤ 6 ∧
    shouldBuy ((MoversStrategy.new (configWithCap 1)).runOps scenarioDOps) "B" 6 = false := by
  refine ⟨by decide!, by decide!, by decide!, by decide!, by decide!, by decide!⟩

/-- C17: in every state reachable from the empty state by admission attempts, closes,
`forceCloseAll` and `updateConfig`, `shouldBuy` returns false for any symbol that is in
`purchased_today_` or has an active position; the symbols of the positions in
`active_positions_` are pairwise different (no symbol is admitted twice), and each of them is
in `purchased_today_`. -/
theorem C17_no_symbol_admitted_twice (config : MoversConfig) (events : List StrategyEvent) :
    (∀ symbol gain_pct,
      (symbol ∈ ((MoversStrategy.new config).runEvents events).purchased_today_ ∨
        ∃ p ∈ ((MoversStrategy.new config).runEvents events).active_positions_,
          p.symbol = symbol ∧ p.is_active = true) →
      shouldBuy ((MoversStrategy.new config).runEvents events) symbol gain_pct = false) ∧
    (((MoversStrategy.new config).runEvents events).active_positions_.map
      Position.symbol).Nodup ∧
    ∀ p ∈ ((MoversStrategy.new config).runEvents events).active_positions_,
      p.symbol ∈ ((MoversStrategy.new config).runEvents events).purchased_today_ :=
  reachable_dedup_events config events

/-- C18: after `forceCloseAll` every position has `is_active = false`, while the number and
order of positions, each position's symbol, purchase_price, quantity, purchase_time and
order_id, the dedup set and the config are unchanged; calling `forceCloseAll` a second time
changes nothing. -/
theorem C18_forceCloseAll_frame (m : MoversStrategy) :
    (∀ p ∈ (forceCloseAll m).active_positions_, p.is_active = false) ∧
    (forceCloseAll m).active_positions_.length = m.active_positions_.length ∧
    (forceCloseAll m).active_positions_.map
        (fun p => (p.symbol, p.purchase_price, p.quantity, p.purchase_time, p.order_id)) =
      m.active_positions_.map
        (fun p => (p.symbol, p.purchase_price, p.quantity, p.purchase_time, p.order_id)) ∧
    (forceCloseAll m).purchased_today_ = m.purchased_today_ ∧
    (forceCloseAll m).config_ = m.config_ ∧
    forceCloseAll (forceCloseAll m) = forceCloseAll m :=
  forceCloseAll_frame m

/-- C19, refuted as stated: for an array whose only entry has both members, with a
`change_percent` that is null or a text, or a `symbol` that is a number, `filterMovers` returns
no list at all: the conversion raises type_error 302. -/
theorem C19_counterexample :
    filterMovers sampleStrategy nullChangeMovers = Except.error (Exn.type_error 302) ∧
    filterMovers sampleStrategy textChangeMovers = Except.error (Exn.type_error 302) ∧
    filterMovers sampleStrategy numericSymbolMovers = Except.error (Exn.type_error 302) := by
  refine ⟨?_, ?_, ?_⟩ <;> with_unfolding_all rfl

/-- C19, amended: for every JSON array of movers in which each entry that has both `symbol`
and `change_percent` carries a number in `change_percent` and a string in `symbol`,
`filterMovers` returns exactly the subsequence, in input order, of the entries that have both
members, whose `change_percent >= config_.buy_threshold` (equality admits) and whose symbol
is not in `purchased_today_`; for a non-array input it returns the empty list. -/
theorem C19_filterMovers_selects (m : MoversStrategy) (items : List Json)
    (h : ∀ mover ∈ items, moverTyped mover) :
    filterMovers m (Json.arr items) = Except.ok (items.filter (moverSelected m)) ∧
    ∀ movers, (∀ l, movers ≠ Json.arr l) → filterMovers m movers = Except.ok [] :=
  ⟨filterMovers_typed m items h, filterMovers_not_array m⟩

theorem C19_filterMovers_selects_witness :
    (∀ mover ∈ sampleMovers, moverTyped mover) ∧
    (filterMovers sampleStrategy (Json.arr sampleMovers) =
        Except.ok (sampleMovers.filter (moverSelected sampleStrategy)) ∧
      ∀ movers, (∀ l, movers ≠ Json.arr l) → filterMovers sampleStrategy movers = Except.ok []) :=
  ⟨sampleMovers_typed, C19_filterMovers_selects sampleStrategy sampleMovers sampleMovers_typed⟩

/-- C20, violated by the code: for an order of 10 shares, the order object of an order that
the broker canceled after filling 4 shares yields a REJECTED report with `remaining_qty` 6,
and a rejected order object without quantity yields a REJECTED report with `remaining_qty` 0;
only the reports built by `submitOrder` itself (error object, unreadable body) carry the
quantity of the order.  An error object whose message is the empty string yields a REJECTED
report with an empty message. -/
theorem C20_rejected_report_from_order_object :
    tenShares.quantity = 10 ∧
    ((submitOrder sampleLib tenShares (Except.ok canceledBody)).status = OrderStatus.REJECTED ∧
      (submitOrder sampleLib tenShares (Except.ok canceledBody)).remaining_qty = 6 ∧
      (submitOrder sampleLib tenShares (Except.ok canceledBody)).message =
        "Order submitted to Alpaca") ∧
    ((submitOrder sampleLib tenShares (Except.ok rejectedBody)).status = OrderStatus.REJECTED ∧
      (submitOrder sampleLib tenShares (Except.ok rejectedBody)).remaining_qty = 0) ∧
    ((submitOrder sampleLib tenShares (Except.ok emptyMessageBody)).status =
        OrderStatus.REJECTED ∧
      (submitOrder sampleLib tenShares (Except.ok emptyMessageBody)).remaining_qty = 10 ∧
      (submitOrder sampleLib tenShares (Except.ok emptyMessageBody)).message = "") ∧
    ((submitOrder sampleLib tenShares (Except.error Exn.parse_error)).status =
        OrderStatus.REJECTED ∧
      (submitOrder sampleLib tenShares (Except.error Exn.parse_error)).remaining_qty = 10 ∧
      (submitOrder sampleLib tenShares (Except.error Exn.parse_error)).message =
        "API error: parse error") := by
  refine ⟨by decide!, ⟨by decide!, by decide!, by decide!⟩, ⟨by decide!, by decide!⟩,
    ⟨by decide!, by decide!, by decide!⟩, ⟨by decide!, by decide!, by decide!⟩⟩

/-- C21: engine order ids are unique within a book whatever the clock returns.  Ids issued
for two different counter values differ for all clock readings, and after every sequence of
calls on an initially empty book (with arbitrary, even equal, clock readings in the `addOrder`
calls) the counter equals the number of orders created, the order created by the `i`-th
`addOrder` has an id of the form `ORD<16-wide zero-padded nanos>_<i>`, and any two different
orders of the book have different ids. -/
theorem C21_order_ids_unique (symbol : String) (calls : List Call) :
    (∀ (n1 n2 : Int) (c1 c2 : Nat), c1 ≠ c2 → generateOrderId n1 c1 ≠ generateOrderId n2 c2) ∧
    (∀ (b : OrderBook) (o : Order) (n : Int),
      (addOrder b o n).1.order_id = generateOrderId n b.order_id_counter_ ∧
      (addOrder b o n).2.order_id_counter_ = b.order_id_counter_ + 1) ∧
    ∃ s, run symbol calls = some s ∧
      s.book.order_id_counter_ = s.book.heap.length ∧
      (∀ (i : Nat) (o : Order), s.book.heap[i]? = some o →
        ∃ n, o.order_id = generateOrderId n i) ∧
      (∀ (i j : Nat) (oi oj : Order), s.book.heap[i]? = some oi → s.book.heap[j]? = some oj →
        i ≠ j → oi.order_id ≠ oj.order_id) ∧
      (s.book.heap.map Order.order_id).Nodup :=
  ⟨generateOrderId_ne, fun b o n => ⟨(addOrder_orders b o n).2.2, (addOrder_orders b o n).2.1⟩,
    reachable_ids symbol calls⟩

/-- C22, violated by the code: after scenario A both orders are fully filled and gone from
`bids_` and `asks_`, yet both ids are still keys of `orders_`; after a buy order is submitted
and canceled its id is gone from `orders_`, yet the order still rests in `bids_`. -/
theorem C22_levels_and_table_disagree :
    (run "X" scenarioA).map (fun s => (levelIds s.book, tableIds s.book,
        s.book.heap.map fun o => (o.order_id, o.status))) =
      some ([], ["ORD0000000000001000_0", "ORD0000000000002000_1"],
        [("ORD0000000000001000_0", OrderStatus.FILLED),
         ("ORD0000000000002000_1", OrderStatus.FILLED)]) ∧
    (run "X" (cancelThenCrossCalls.take 2)).map (fun s => (levelIds s.book, tableIds s.book,
        s.book.heap.map fun o => (o.order_id, o.status))) =
      some (["ORD0000000000001000_0"], [],
        [("ORD0000000000001000_0", OrderStatus.CANCELED)]) := by
  refine ⟨by decide!, by decide!⟩

/-- C23: in every state reachable from the empty book by `addOrder`, `matchOrders` and
`cancelOrder` no price level in `bids_` or `asks_` has an empty order sequence.  The same
holds at the start of every iteration of a matching loop run from such a state, so the
iteration never takes the empty-level branch: it leaves the loop, or it trades the fronts of
two non-empty sequences.  `getBidDepth` and `getAskDepth` count exactly the levels that hold at
least one order. -/
theorem C23_no_empty_level (symbol : String) (calls : List Call) :
    ∃ s, run symbol calls = some s ∧ NoEmptyLevel s.book ∧
      (∀ k bk, matchIter k s.book = some bk →
        NoEmptyLevel bk ∧ (∀ b1, matchBody bk ≠ some (LoopStep.prune b1)) ∧
        (matchBody bk = some LoopStep.exit ∨
          ∃ b1 t hb bt ha at1, matchBody bk = some (LoopStep.trade b1 t) ∧
            (bk.bids_.head?).map Prod.snd = some (hb :: bt) ∧
            (bk.asks_.head?).map Prod.snd = some (ha :: at1) ∧
            t.buy_order = hb ∧ t.sell_order = ha)) ∧
      getBidDepth s.book = (s.book.bids_.filter fun l => decide (l.2 ≠ [])).length ∧
      getAskDepth s.book = (s.book.asks_.filter fun l => decide (l.2 ≠ [])).length :=
  reachable_noEmpty symbol calls

/-- C24, violated by the code: `isBeforeCutoff` is true at 9:00 (hour 9, minute 0), so the
acquisition gate `isMarketHours && isBeforeCutoff` holds at 9:00; both are false at 9:01.  For
a minute between 0 and 59, `isMarketHours` is true exactly from 8:30 inclusive to 16:00
exclusive, `isBeforeCutoff` is true exactly up to and including 9:00, and the gate holds
exactly from 8:30 to 9:00, both inclusive. -/
theorem C24_cutoff_includes_nine :
    isBeforeCutoff 9 0 = true ∧ isMarketHours 9 0 = true ∧
    (isMarketHours 9 0 && isBeforeCutoff 9 0) = true ∧
    isBeforeCutoff 8 59 = true ∧
    isBeforeCutoff 9 1 = false ∧ (isMarketHours 9 1 && isBeforeCutoff 9 1) = false ∧
    (∀ hour minute : Int, 0 ≤ minute → minute < 60 →
      (isMarketHours hour minute = true ↔
        8 * 60 + 30 ≤ 60 * hour + minute ∧ 60 * hour + minute < 16 * 60)) ∧
    (∀ hour minute : Int, 0 ≤ minute → minute < 60 →
      (isBeforeCutoff hour minute = true ↔ 60 * hour + minute ≤ 9 * 60)) ∧
    (∀ hour minute : Int, 0 ≤ minute → minute < 60 →
      ((isMarketHours hour minute && isBeforeCutoff hour minute) = true ↔
        8 * 60 + 30 ≤ 60 * hour + minute ∧ 60 * hour + minute ≤ 9 * 60)) :=
  ⟨by decide, by decide, by decide, by decide, by decide, by decide, isMarketHours_iff,
    isBeforeCutoff_iff, gate_iff⟩

/-- C25: `matchOrders` terminates on every book whose levels hold valid order references,
whatever the quantities of the orders (zero and negative ones included, in exact arithmetic).
It returns after `k` iterations of the loop body, where `k` is at most the number of resting
order references plus the number of levels, with at most `k` reports; each iteration removes
at least one order reference from its level or at least one level. -/
theorem C25_matchOrders_terminates (b : OrderBook) (hv : Valid b) :
    ∃ k rs b1, matchOrders b = some (rs, b1) ∧ matchIter k b = some b1 ∧
      matchBody b1 = some LoopStep.exit ∧
      k ≤ restingCount b.bids_ + restingCount b.asks_ + b.bids_.length + b.asks_.length ∧
      rs.length ≤ k ∧
      ∀ j bj st, matchIter j b = some bj → matchBody bj = some st → st ≠ LoopStep.exit →
        restingCount (st.book bj).bids_ + restingCount (st.book bj).asks_ +
            (st.book bj).bids_.length + (st.book bj).asks_.length <
          restingCount bj.bids_ + restingCount bj.asks_ + bj.bids_.length + bj.asks_.length :=
  matchOrders_bound b hv

theorem C25_matchOrders_terminates_witness :
    Valid negativeCrossBook ∧
      (∃ k rs b1, matchOrders negativeCrossBook = some (rs, b1) ∧ matchIter k negativeCrossBook = some b1 ∧
        matchBody b1 = some LoopStep.exit ∧
        k ≤ restingCount negativeCrossBook.bids_ + restingCount negativeCrossBook.asks_ + negativeCrossBook.bids_.length + negativeCrossBook.asks_.length ∧
        rs.length ≤ k ∧
        ∀ j bj st, matchIter j negativeCrossBook = some bj → matchBody bj = some st → st ≠ LoopStep.exit →
          restingCount (st.book bj).bids_ + restingCount (st.book bj).asks_ +
              (st.book bj).bids_.length + (st.book bj).asks_.length <
            restingCount bj.bids_ + restingCount bj.asks_ + bj.bids_.length + bj.asks_.length) :=
  ⟨negativeCrossBook_valid, C25_matchOrders_terminates negativeCrossBook negativeCrossBook_valid⟩

/-- C27: if the book (levels in key order, valid references) is uncrossed and has no empty
level before `addOrder(o)`, then the immediately following `matchOrders` returns, every trade
it performs has `o` as its buy or its sell order, every report it returns stems from such a
trade, and the book is uncrossed again afterwards, still in key order and without empty
levels.  The books the dispatcher's add-then-match sequence reaches from the empty book all
satisfy these conditions, so there every returned report stems from a trade involving the
just-submitted order. -/
theorem C27_trades_involve_new_order (b : OrderBook) (o : Order) (n : Int) (hv : Valid b)
    (hs : Sorted b) (hu : Uncrossed b) (hne : NoEmptyLevel b) :
    (∃ rs b1, matchOrders (addOrder b o n).2 = some (rs, b1) ∧
      (addOrder b o n).2.heap[b.heap.length]? =
        some { o with order_id := generateOrderId n b.order_id_counter_ } ∧
      (∀ k bk bk1 t, matchIter k (addOrder b o n).2 = some bk →
        matchBody bk = some (LoopStep.trade bk1 t) →
        t.buy_order = b.heap.length ∨ t.sell_order = b.heap.length) ∧
      (∀ r ∈ rs, ∃ k bk bk1 t, matchIter k (addOrder b o n).2 = some bk ∧
        matchBody bk = some (LoopStep.trade bk1 t) ∧ t.report = r ∧
        (t.buy_order = b.heap.length ∨ t.sell_order = b.heap.length)) ∧
      Valid b1 ∧ Sorted b1 ∧ Uncrossed b1 ∧ NoEmptyLevel b1) ∧
    ∀ (symbol : String) (orders : List (Order × Int)),
      ∃ s, run symbol (addThenMatch orders) = some s ∧ Valid s.book ∧ Sorted s.book ∧
        Uncrossed s.book ∧ NoEmptyLevel s.book :=
  ⟨add_then_match b o n hv hs hu hne, fun symbol orders =>
    run_addThenMatch orders { book := OrderBook.new symbol, reports := [] } (valid_new symbol)
      (sorted_new symbol) (uncrossed_new symbol) (noEmpty_new symbol)⟩

theorem C27_trades_involve_new_order_witness :
    Valid restingBuyBook ∧ Sorted restingBuyBook ∧ Uncrossed restingBuyBook ∧
    NoEmptyLevel restingBuyBook ∧
    ((∃ rs b1, matchOrders (addOrder restingBuyBook (limitOrder "s1" "X" Side.SELL 30 10) 2000).2 = some (rs, b1) ∧
        (addOrder restingBuyBook (limitOrder "s1" "X" Side.SELL 30 10) 2000).2.heap[restingBuyBook.heap.length]? =
          some { (limitOrder "s1" "X" Side.SELL 30 10) with order_id := generateOrderId 2000 restingBuyBook.order_id_counter_ } ∧
        (∀ k bk bk1 t, matchIter k (addOrder restingBuyBook (limitOrder "s1" "X" Side.SELL 30 10) 2000).2 = some bk →
          matchBody bk = some (LoopStep.trade bk1 t) →
          t.buy_order = restingBuyBook.heap.length ∨ t.sell_order = restingBuyBook.heap.length) ∧
        (∀ r ∈ rs, ∃ k bk bk1 t, matchIter k (addOrder restingBuyBook (limitOrder "s1" "X" Side.SELL 30 10) 2000).2 = some bk ∧
          matchBody bk = some (LoopStep.trade bk1 t) ∧ t.report = r ∧
          (t.buy_order = restingBuyBook.heap.length ∨ t.sell_order = restingBuyBook.heap.length)) ∧
        Valid b1 ∧ Sorted b1 ∧ Uncrossed b1 ∧ NoEmptyLevel b1) ∧
      ∀ (symbol : String) (orders : List (Order × Int)),
        ∃ s, run symbol (addThenMatch orders) = some s ∧ Valid s.book ∧ Sorted s.book ∧
          Uncrossed s.book ∧ NoEmptyLevel s.book) :=
  ⟨restingBuyBook_wf.1, restingBuyBook_wf.2.1, restingBuyBook_wf.2.2.1, restingBuyBook_wf.2.2.2,
    C27_trades_involve_new_order restingBuyBook (limitOrder "s1" "X" Side.SELL 30 10) 2000
      restingBuyBook_wf.1 restingBuyBook_wf.2.1 restingBuyBook_wf.2.2.1
      restingBuyBook_wf.2.2.2⟩

/-- C29: under internal matching (`use_paper_trading_ && alpaca_client_` is false) a request
of type CANCEL_ORDER whose `order_id` is a non-empty string gets exactly one reply, the object
with `success = false`, `message = "Cancel order not implemented for internal matching"` and
the same `order_id`, and the engine with all its order books is unchanged, also when the id
belongs to a resting order; when `order_id` is missing or the empty string the reply is the
object with `success = false` and `error = "Missing order_id"`. -/
theorem C29_cancel_request_internal (env : Env) (e : ExecutionEngine)
    (members : List (String × Json))
    (hint : (e.use_paper_trading_ && e.alpaca_client_) = false)
    (ht : membersFind "type" members = some (Json.str "CANCEL_ORDER")) :
    (∀ order_id, membersFind "order_id" members = some (Json.str order_id) → order_id ≠ "" →
      processMessage env e (Except.ok (Json.obj members)) =
        some ([Json.obj [("message", Json.str "Cancel order not implemented for internal matching"),
          ("order_id", Json.str order_id), ("success", Json.bool false)]], e)) ∧
    ((membersFind "order_id" members = none ∨
        membersFind "order_id" members = some (Json.str "")) →
      processMessage env e (Except.ok (Json.obj members)) =
        some ([Json.obj [("error", Json.str "Missing order_id"), ("success", Json.bool false)]], e)) :=
  ⟨fun order_id hid hne => by
      rw [processMessage_cancel env e members ht, cancel_internal env e members order_id hint hid hne],
    fun hid => by
      rw [processMessage_cancel env e members ht, cancel_missing env e members hid]⟩

theorem C29_cancel_request_internal_witness :
    (restingBuyEngine.use_paper_trading_ && restingBuyEngine.alpaca_client_) = false ∧
    membersFind "type" cancelMembers = some (Json.str "CANCEL_ORDER") ∧
    membersFind "order_id" cancelMembers = some (Json.str "ORD0000000000001000_0") ∧
    tableIds restingBuyBook = ["ORD0000000000001000_0"] ∧
    ((∀ order_id, membersFind "order_id" cancelMembers = some (Json.str order_id) → order_id ≠ "" →
        processMessage sampleEnv restingBuyEngine (Except.ok (Json.obj cancelMembers)) =
          some ([Json.obj [("message", Json.str "Cancel order not implemented for internal matching"),
            ("order_id", Json.str order_id), ("success", Json.bool false)]], restingBuyEngine)) ∧
      ((membersFind "order_id" cancelMembers = none ∨
          membersFind "order_id" cancelMembers = some (Json.str "")) →
        processMessage sampleEnv restingBuyEngine (Except.ok (Json.obj cancelMembers)) =
          some ([Json.obj [("error", Json.str "Missing order_id"), ("success", Json.bool false)]], restingBuyEngine))) :=
  ⟨rfl, rfl, rfl, by decide!,
    C29_cancel_request_internal sampleEnv restingBuyEngine cancelMembers rfl rfl⟩

/-- C30, refuted as stated: an order request whose `order_type` is the number 5, or null, is
not taken as a LIMIT order.  `value("order_type", "LIMIT")` raises type_error 302, the request
is answered with the error reply and no order reaches a book. -/
theorem C30_counterexample :
    orderOfRequest numericOrderTypeRequest = Except.error (Exn.type_error 302) ∧
    orderOfRequest nullOrderTypeRequest = Except.error (Exn.type_error 302) ∧
    handleOrderRequest sampleEnv internalEngine (Except.ok numericOrderTypeRequest) =
      some (Json.obj [("error", Json.str "type error 302"), ("success", Json.bool false)],
        internalEngine) ∧
    handleOrderRequest sampleEnv internalEngine (Except.ok nullOrderTypeRequest) =
      some (Json.obj [("error", Json.str "type error 302"), ("success", Json.bool false)],
        internalEngine) := by
  refine ⟨?_, ?_, ?_, ?_⟩ <;> with_unfolding_all rfl

/-- C30, amended: for an order request (an object with string `client_order_id` and `symbol`
and numeric `quantity` and `price`) whose `order_type` is missing or a string,
`handleOrderRequest` never rejects an unrecognized side or order type.  Any side other than
the exact string "BUY" (a missing one and values that are not strings included) is taken as
SELL; an `order_type` other than "MARKET" or "STOP", or a missing one, is taken as LIMIT.
Under internal matching the reply has `success = true`, and for a non-BUY request that does
not cross its side field is "SELL" and its status "NEW". -/
theorem C30_side_and_type_defaults (env : Env) (e : ExecutionEngine)
    (members : List (String × Json)) (cid sym : String) (q p : ℚ)
    (hc : membersFind "client_order_id" members = some (Json.str cid))
    (hs : membersFind "symbol" members = some (Json.str sym))
    (hq : membersFind "quantity" members = some (Json.num q))
    (hp : membersFind "price" members = some (Json.num p))
    (hot : ∀ v, membersFind "order_type" members = some v → ∃ t, v = Json.str t) :
    ∃ order, orderOfRequest (Json.obj members) = Except.ok order ∧
      order.client_order_id = cid ∧ order.symbol = sym ∧ order.quantity = q ∧
      order.price = p ∧ order.filled_qty = 0 ∧ order.status = OrderStatus.NEW ∧
      (membersFind "side" members = some (Json.str "BUY") → order.side = Side.BUY) ∧
      (membersFind "side" members ≠ some (Json.str "BUY") → order.side = Side.SELL) ∧
      (membersFind "order_type" members = some (Json.str "MARKET") →
        order.order_type = OrderType.MARKET) ∧
      (membersFind "order_type" members = some (Json.str "STOP") →
        order.order_type = OrderType.STOP) ∧
      (membersFind "order_type" members ≠ some (Json.str "MARKET") →
        membersFind "order_type" members ≠ some (Json.str "STOP") →
        order.order_type = OrderType.LIMIT) ∧
      ((e.use_paper_trading_ && e.alpaca_client_) = false → EngineValid e →
        ∃ report e1,
          handleOrderRequest env e (Except.ok (Json.obj members)) =
            some (orderReply report env.stamp, e1) ∧
          report.status ≠ OrderStatus.REJECTED ∧
          (orderReply report env.stamp).find? "success" = some (Json.bool true)) ∧
      ((e.use_paper_trading_ && e.alpaca_client_) = false →
        membersFind "side" members ≠ some (Json.str "BUY") →
        ∀ b2, matchOrders (addOrder (getOrderBook e order.symbol).1 order env.nanos).2 =
            some ([], b2) →
          ∃ reply e1, handleOrderRequest env e (Except.ok (Json.obj members)) = some (reply, e1) ∧
            reply.find? "side" = some (Json.str "SELL") ∧
            reply.find? "status" = some (Json.str "NEW") ∧
            reply.find? "success" = some (Json.bool true)) := by
  obtain ⟨order, ho, h1, h2, h3, h4, h5, h6, h7, h8, h9, h10, h11⟩ :=
    orderOfRequest_fields members cid sym q p hc hs hq hp hot
  refine ⟨order, ho, h1, h2, h3, h4, h5, h6, h7, h8, h9, h10, h11, ?_, ?_⟩
  · intro hint he
    obtain ⟨report, e1, _, hr, hst, hsu, _⟩ :=
      handleOrderRequest_internal env e (Json.obj members) order hint he ho
    exact ⟨report, e1, hr, hst, hsu⟩
  · intro hint hside b2 hm
    obtain ⟨reply, e1, hr, hsd, hst, hsu⟩ :=
      handleOrderRequest_no_cross env e (Json.obj members) order hint ho b2 hm
    refine ⟨reply, e1, hr, ?_, hst, hsu⟩
    rw [hsd, h8 hside]
    rfl

theorem C30_side_and_type_defaults_witness :
    membersFind "client_order_id" holdMembers = some (Json.str "c1") ∧
    membersFind "symbol" holdMembers = some (Json.str "X") ∧
    membersFind "quantity" holdMembers = some (Json.num 5) ∧
    membersFind "price" holdMembers = some (Json.num 100) ∧
    (∀ v, membersFind "order_type" holdMembers = some v → ∃ t, v = Json.str t) ∧
    membersFind "side" holdMembers = some (Json.str "HOLD") ∧
    (∃ order, orderOfRequest (Json.obj holdMembers) = Except.ok order ∧
        order.client_order_id = "c1" ∧ order.symbol = "X" ∧ order.quantity = 5 ∧
        order.price = 100 ∧ order.filled_qty = 0 ∧ order.status = OrderStatus.NEW ∧
        (membersFind "side" holdMembers = some (Json.str "BUY") → order.side = Side.BUY) ∧
        (membersFind "side" holdMembers ≠ some (Json.str "BUY") → order.side = Side.SELL) ∧
        (membersFind "order_type" holdMembers = some (Json.str "MARKET") →
          order.order_type = OrderType.MARKET) ∧
        (membersFind "order_type" holdMembers = some (Json.str "STOP") →
          order.order_type = OrderType.STOP) ∧
        (membersFind "order_type" holdMembers ≠ some (Json.str "MARKET") →
          membersFind "order_type" holdMembers ≠ some (Json.str "STOP") →
          order.order_type = OrderType.LIMIT) ∧
        ((internalEngine.use_paper_trading_ && internalEngine.alpaca_client_) = false → EngineValid internalEngine →
          ∃ report e1,
            handleOrderRequest sampleEnv internalEngine (Except.ok (Json.obj holdMembers)) =
              some (orderReply report sampleEnv.stamp, e1) ∧
            report.status ≠ OrderStatus.REJECTED ∧
            (orderReply report sampleEnv.stamp).find? "success" = some (Json.bool true)) ∧
        ((internalEngine.use_paper_trading_ && internalEngine.alpaca_client_) = false →
          membersFind "side" holdMembers ≠ some (Json.str "BUY") →
          ∀ b2, matchOrders (addOrder (getOrderBook internalEngine order.symbol).1 order sampleEnv.nanos).2 =
              some ([], b2) →
            ∃ reply e1, handleOrderRequest sampleEnv internalEngine (Except.ok (Json.obj holdMembers)) = some (reply, e1) ∧
              reply.find? "side" = some (Json.str "SELL") ∧
              reply.find? "status" = some (Json.str "NEW") ∧
              reply.find? "success" = some (Json.bool true))) :=
  ⟨rfl, rfl, rfl, rfl, fun v h => by simp [holdMembers, membersFind] at h, rfl,
    C30_side_and_type_defaults sampleEnv internalEngine holdMembers "c1" "X" 5 100 rfl rfl rfl
      rfl (fun v h => by simp [holdMembers, membersFind] at h)⟩

end hft
